import Mathlib

/-!
# Verification of the advent-of-code-2023 solvers against their specification

This file gives a shallow embedding, in Lean 4, of the parts of the
`advent-of-code-2023` Rust repository that the specification talks about, and
proves (or refutes) the specification's claims about them.

Conventions used throughout:

* Pure Rust functions become Lean functions on the post-parse data
  (instruction lists, hailstone lists, graphs as insertion-ordered
  association lists); string parsing itself is not embedded, since no claim
  is about the parsers.
* Rust loops become fuel-indexed recursive functions returning `Option`;
  `none` means the fuel was exhausted (the theorems either provide enough
  fuel or prove that a specific fuel suffices).  A Rust `panic!`/`assert!`
  also becomes `none`, with the distinction documented per function.
* `u64`/`i64`/`u32` values whose overflow cannot occur in the situations the
  theorems cover are modelled by `Nat`/`Int`; wrapping is modelled explicitly
  (`% 2 ^ 64`, two's-complement windows) in the few places where the code can
  actually wrap (release-mode overflow semantics).
* The fixed-point type `I64F64` from the `fixed` crate is modelled by an
  `Int` holding `2^64` times the represented value, with multiplication and
  division truncating towards negative infinity and a wrap into the
  128-bit two's-complement window.
-/

namespace AoC

/-! ## src/lib.rs: `read_input`

`read_input` reads the process argument list and the file system, which are
modelled as explicit inputs: `args` is the full `env::args()` list (including
the program name in position 0), `fs` maps a filename to its contents when
reading succeeds, and `ioErr` is the display text of the I/O error used when
reading fails. -/

/-- Model of `read_input` (src/lib.rs lines 7-16): skip arg 0, take the next
argument as the filename (error if absent), then read the file (error naming
the filename if reading fails). -/
def read_input (args : List String) (fs : String → Option String)
    (ioErr : String) : Except String String :=
  match args.drop 1 with
  | [] => .error "Missing required filename arg"
  | filename :: _ =>
    match fs filename with
    | some contents => .ok contents
    | none => .error ("Error reading file from '" ++ filename ++ "': " ++ ioErr)

/-! ## Main-function wiring of the 25 solver binaries

Each binary's `main` either uses the `impl_main!` macro of src/lib.rs
(lines 79-96), which computes a part-1 solution and a part-2 solution and
prints each, or hand-writes the same two-print pattern (day2.rs, day3.rs,
day7.rs, day11.rs), or — uniquely, day25.rs (lines 200-207) — computes and
prints a single solution.  The shape of each `main` is transcribed below. -/

/-- The print/invoke shape of one binary's `main`. -/
inductive MainShape where
  /-- `main` invokes a part-1 solve function and a part-2 solve function and
  prints each of the two results (the `impl_main!` pattern, or the identical
  hand-written pattern). -/
  | twoParts
  /-- `main` invokes a single solve function and prints one result. -/
  | onePart
  deriving DecidableEq, Repr

/-- How many numeric answers a `main` of the given shape prints. -/
def MainShape.printedAnswers : MainShape → Nat
  | .twoParts => 2
  | .onePart => 1

/-- The shape of each day's `main`, transcribed from src/bin/day<i>.rs:
days 1, 10, 12-24, 4-6, 8, 9 use `impl_main!` (two solves, two prints);
days 2, 3, 7, 11 hand-write the same two-print `main`; day 25 computes and
prints a single solution (day25.rs lines 200-207). -/
def mainShape : Nat → Option MainShape
  | 1 => some .twoParts
  | 2 => some .twoParts
  | 3 => some .twoParts
  | 4 => some .twoParts
  | 5 => some .twoParts
  | 6 => some .twoParts
  | 7 => some .twoParts
  | 8 => some .twoParts
  | 9 => some .twoParts
  | 10 => some .twoParts
  | 11 => some .twoParts
  | 12 => some .twoParts
  | 13 => some .twoParts
  | 14 => some .twoParts
  | 15 => some .twoParts
  | 16 => some .twoParts
  | 17 => some .twoParts
  | 18 => some .twoParts
  | 19 => some .twoParts
  | 20 => some .twoParts
  | 21 => some .twoParts
  | 22 => some .twoParts
  | 23 => some .twoParts
  | 24 => some .twoParts
  | 25 => some .onePart
  | _ => none

/-- The days that have a solver binary in src/bin. -/
def solverDays : List Nat :=
  [1, 2, 3, 4, 5, 6, 7, 8, 9, 10, 11, 12, 13,
   14, 15, 16, 17, 18, 19, 20, 21, 22, 23, 24, 25]

/-- Concurrency constructs used by each day's solver, transcribed from
src/bin/day<i>.rs: no source file imports or uses `std::thread`, `rayon`,
channels, `Mutex`/`RwLock`, or atomics; every solver is a single-threaded
sequential program. -/
structure ConcurrencyUse where
  /-- the file spawns threads (`std::thread`, `rayon`, scoped threads) -/
  spawnsThreads : Bool
  /-- the file uses channels or other message passing -/
  usesChannels : Bool
  /-- the file uses locks or atomics -/
  usesLocksOrAtomics : Bool
  deriving DecidableEq, Repr

/-- Concurrency constructs of each day's solver.  Transcription: every one of
the 25 binaries (and src/lib.rs) is free of thread spawning, channels, locks
and atomics; in particular day24.rs solves part 2 by a direct linear-algebra
computation (`find_rock_position`, lines 381-417) with no worker threads. -/
def concurrencyUse (day : Nat) : Option ConcurrencyUse :=
  if day ∈ solverDays then some ⟨false, false, false⟩ else none

/-- A day's solver uses some concurrency coordination. -/
def usesConcurrency (day : Nat) : Bool :=
  match concurrencyUse day with
  | some c => c.spawnsThreads || c.usesChannels || c.usesLocksOrAtomics
  | none => false

/-! ## src/bin/day24.rs: hailstones, `I64F64` fixed point, Gauss-Jordan

The `fixed` crate's `I64F64` (64 integer bits, 64 fractional bits) is
modelled by the `Int` holding `2^64` times the represented value.
Multiplication and division produce the exact result truncated towards
negative infinity (low-bit truncation of the two's-complement product), and
every result is wrapped into the 128-bit two's-complement window (release
builds wrap on overflow).  Matrices are row lists of entry lists. -/

namespace Day24

/-- Wrap an `I64F64` bit value into the signed 128-bit window. -/
def fxWrap (x : Int) : Int := (x + 2 ^ 127) % 2 ^ 128 - 2 ^ 127

/-- `I64F64` value of an integer. -/
def fxOfInt (n : Int) : Int := fxWrap (n * 2 ^ 64)

/-- `I64F64` multiplication: truncate the 128 low fractional bits. -/
def fxMul (a b : Int) : Int := fxWrap (Int.fdiv (a * b) (2 ^ 64))

/-- `I64F64` division (the source never divides by zero: divisors have
passed the `1.0e-3` magnitude test). -/
def fxDiv (a b : Int) : Int := if b = 0 then 0 else fxWrap (Int.fdiv (a * 2 ^ 64) b)

/-- `I64F64` subtraction. -/
def fxSub (a b : Int) : Int := fxWrap (a - b)

/-- `I64F64` addition. -/
def fxAdd (a b : Int) : Int := fxWrap (a + b)

/-- `I64F64` absolute value. -/
def fxAbs (a : Int) : Int := fxWrap |a|

/-- The `i64f64!(1.0e-3)` pivot threshold: the `I64F64` representation of
one thousandth. -/
def fxEps : Int := Int.fdiv (2 ^ 64) 1000

/-- `I64F64::round` followed by `i64::lossy_from`: round the fixed-point
value to the nearest integer, ties away from zero. -/
def fxRound (a : Int) : Int :=
  if 0 ≤ a then Int.fdiv (a + 2 ^ 63) (2 ^ 64)
  else -Int.fdiv (-a + 2 ^ 63) (2 ^ 64)

/-- Row `i` of a matrix (rows beyond the end read as empty; the source
indexes in bounds everywhere the theorems look). -/
def getRow (m : List (List Int)) (i : Nat) : List Int := m.getD i []

/-- Entry `(i, j)` of a matrix. -/
def getEntry (m : List (List Int)) (i j : Nat) : Int := (getRow m i).getD j 0

/-- `Matrix::swap` (day24.rs lines 30-32): exchange rows `i` and `j`. -/
def swapRows (m : List (List Int)) (i j : Nat) : List (List Int) :=
  let ri := getRow m i
  let rj := getRow m j
  (m.set i rj).set j ri

/-- The pivot-row search `(pivot_row..M).max_by_key(|&i| matrix[i][pivot_col].abs())`
(day24.rs line 208).  Rust's `max_by_key` returns the last maximal element,
so the fold replaces the candidate whenever the key is at least the current
maximum.  `k` counts rows still to scan starting from row `cur`. -/
def iMaxFrom (m : List (List Int)) (pc best cur : Nat) : Nat → Nat
  | 0 => best
  | k + 1 =>
    let best := if fxAbs (getEntry m best pc) ≤ fxAbs (getEntry m cur pc) then cur else best
    iMaxFrom m pc best (cur + 1) k

/-- Index of the row with maximal `|matrix[i][pivot_col]|` among rows
`pivotRow..M-1` (last maximal on ties, as in Rust). -/
def iMax (m : List (List Int)) (pc pivotRow M : Nat) : Nat :=
  iMaxFrom m pc pivotRow pivotRow (M - pivotRow)

/-- The inner column loop of `gauss_jordan` (day24.rs lines 220-223) acting
on row `i` alone: for `k` columns starting at column `j`, replace
`row[j]` by `row[j] - prow[j] * scale`.  (The pivot row `prow` is a row
strictly above row `i`, so it is unchanged while row `i` is updated; the
in-place loop of the source is therefore equivalent to this row-local
form.) -/
def updateRow (prow : List Int) (scale : Int) : List Int → Nat → Nat → List Int
  | row, _, 0 => row
  | row, j, k + 1 =>
    updateRow prow scale
      (row.set j (fxSub (row.getD j 0) (fxMul (prow.getD j 0) scale))) (j + 1) k

/-- One row elimination of `gauss_jordan` (day24.rs lines 216-224): compute
`scale = m[i][pc] / m[pr][pc]`, force `m[i][pc]` to zero, and update the
columns right of `pc`. -/
def eliminateRow (m : List (List Int)) (pr pc i N : Nat) : List (List Int) :=
  let scale := fxDiv (getEntry m i pc) (getEntry m pr pc)
  m.set i (updateRow (getRow m pr) scale ((getRow m i).set pc 0) (pc + 1) (N - (pc + 1)))

/-- The `for i in pivot_row + 1..M` loop of `gauss_jordan`: eliminate `k`
rows starting at row `i`. -/
def eliminateRows (m : List (List Int)) (pr pc : Nat) (N : Nat) : Nat → Nat → List (List Int)
  | _, 0 => m
  | i, k + 1 => eliminateRows (eliminateRow m pr pc i N) pr pc N (i + 1) k

/-- The `while pivot_row < M && pivot_col < N` loop of `gauss_jordan`
(day24.rs lines 204-229).  `pivot_col` increases on every iteration, so
fuel `N` always runs the loop to completion. -/
def gaussLoop (M N : Nat) : List (List Int) → Nat → Nat → Nat → List (List Int)
  | m, _, _, 0 => m
  | m, pr, pc, fuel + 1 =>
    if pr < M ∧ pc < N then
      let im := iMax m pc pr M
      if fxAbs (getEntry m im pc) < fxEps then
        gaussLoop M N m pr (pc + 1) fuel
      else
        let m := swapRows m pr im
        let m := eliminateRows m pr pc N (pr + 1) (M - (pr + 1))
        gaussLoop M N m (pr + 1) (pc + 1) fuel
    else m

/-- `gauss_jordan` (day24.rs lines 204-229) on an `M × N` matrix of
`I64F64` entries. -/
def gauss_jordan (m : List (List Int)) : List (List Int) :=
  let M := m.length
  let N := (getRow m 0).length
  gaussLoop M N m 0 0 N

/-- A 3-vector of `i64` coordinates (`Vector3<i64>`). -/
structure Vec3 where
  x : Int
  y : Int
  z : Int
  deriving DecidableEq, Repr

/-- Componentwise difference of 3-vectors (`Matrix::sub`). -/
def vsub (a b : Vec3) : Vec3 := ⟨a.x - b.x, a.y - b.y, a.z - b.z⟩

/-- `v.skew_symmetric_matrix() * w` (day24.rs lines 151-157 composed with
the 3×3 · 3×1 matrix product): the cross product `v × w`. -/
def skewMulVec (v w : Vec3) : Vec3 :=
  ⟨-v.z * w.y + v.y * w.z, v.z * w.x + -v.x * w.z, -v.y * w.x + v.x * w.y⟩

/-- A hailstone: initial position and velocity (`struct Hailstone`). -/
structure Hailstone where
  position : Vec3
  velocity : Vec3
  deriving DecidableEq, Repr

/-- `generate_linear_equations` (day24.rs lines 299-379): the three
augmented rows, in `I64F64`, of the equations relating the rock position
and velocity derived from hailstones `a` and `b`. -/
def generate_linear_equations (a b : Hailstone) : List (List Int) :=
  let pd := vsub a.position b.position
  let vd := vsub a.velocity b.velocity
  let cv := vsub (skewMulVec a.position a.velocity) (skewMulVec b.position b.velocity)
  [[0, vd.z, -vd.y, 0, -pd.z, pd.y, cv.x].map fxOfInt,
   [-vd.z, 0, vd.x, pd.z, 0, -pd.x, cv.y].map fxOfInt,
   [vd.y, -vd.x, 0, -pd.y, pd.x, 0, cv.z].map fxOfInt]

/-- `assert_slice_is_zero` (day24.rs lines 419-421) on the first `k`
entries of row `r`: all magnitudes below the `1.0e-3` threshold. -/
def sliceIsZero (m : List (List Int)) (r k : Nat) : Bool :=
  ((getRow m r).take k).all fun v => fxAbs v < fxEps

/-- `find_rock_position` (day24.rs lines 381-417) on the first three
hailstones: assemble the 6×7 system, run `gauss_jordan`, check the
lower-triangle assertions (`none` models the `assert!` panic), then
back-substitute and round each coordinate to `i64`. -/
def find_rock_position (h0 h1 h2 : Hailstone) : Option Vec3 :=
  let m := generate_linear_equations h0 h1 ++ generate_linear_equations h0 h2
  let m := gauss_jordan m
  if sliceIsZero m 5 5 ∧ sliceIsZero m 4 4 ∧ sliceIsZero m 3 3 ∧
      sliceIsZero m 2 2 ∧ sliceIsZero m 1 1 then
    let vz := fxDiv (getEntry m 5 6) (getEntry m 5 5)
    let vy := fxDiv (fxSub (getEntry m 4 6) (fxMul vz (getEntry m 4 5))) (getEntry m 4 4)
    let vx := fxDiv (fxSub (fxSub (getEntry m 3 6) (fxMul vz (getEntry m 3 5)))
        (fxMul vy (getEntry m 3 4))) (getEntry m 3 3)
    let pz := fxDiv (fxSub (fxSub (fxSub (getEntry m 2 6) (fxMul vz (getEntry m 2 5)))
        (fxMul vy (getEntry m 2 4))) (fxMul vx (getEntry m 2 3))) (getEntry m 2 2)
    let py := fxDiv (fxSub (fxSub (fxSub (fxSub (getEntry m 1 6)
        (fxMul vz (getEntry m 1 5))) (fxMul vy (getEntry m 1 4)))
        (fxMul vx (getEntry m 1 3))) (fxMul pz (getEntry m 1 2))) (getEntry m 1 1)
    let px := fxDiv (fxSub (fxSub (fxSub (fxSub (fxSub (getEntry m 0 6)
        (fxMul vz (getEntry m 0 5))) (fxMul vy (getEntry m 0 4)))
        (fxMul vx (getEntry m 0 3))) (fxMul pz (getEntry m 0 2)))
        (fxMul py (getEntry m 0 1))) (getEntry m 0 0)
    some ⟨fxRound px, fxRound py, fxRound pz⟩
  else none

/-- `solve_part_2` (day24.rs lines 291-297) after parsing: find the rock
position from the first three hailstones (`none` models the panic on fewer
than three hailstones or a failed assertion) and sum its coordinates.
A sequential computation: no search, no worker threads. -/
def solve_part_2 (hailstones : List Hailstone) : Option Int :=
  match hailstones with
  | h0 :: h1 :: h2 :: _ =>
    (find_rock_position h0 h1 h2).map fun r => r.x + r.y + r.z
  | _ => none

/-- `find_2d_intersection` (day24.rs lines 256-289): build the 2×3 system
for the crossing times of two hailstones (X/Y only), run `gauss_jordan`,
reject degenerate or past intersections, and return the crossing point. -/
def find_2d_intersection (a b : Hailstone) : Option (Int × Int) :=
  let m := [[fxOfInt a.velocity.x, fxOfInt (-b.velocity.x),
             fxOfInt (b.position.x - a.position.x)],
            [fxOfInt a.velocity.y, fxOfInt (-b.velocity.y),
             fxOfInt (b.position.y - a.position.y)]]
  let m := gauss_jordan m
  if fxEps ≤ fxAbs (getEntry m 1 0) ∨ fxAbs (getEntry m 1 1) < fxEps then
    none
  else
    let n1 := fxDiv (getEntry m 1 2) (getEntry m 1 1)
    let n0 := fxDiv (fxSub (getEntry m 0 2) (fxMul n1 (getEntry m 0 1))) (getEntry m 0 0)
    if n0 ≤ 0 ∨ n1 ≤ 0 then none
    else
      some (fxAdd (fxOfInt b.position.x) (fxMul n1 (fxOfInt b.velocity.x)),
            fxAdd (fxOfInt b.position.y) (fxMul n1 (fxOfInt b.velocity.y)))

/-- Evaluation, in `I64F64` arithmetic, of the linear form of an augmented
row at the candidate solution `x` (one product per unknown, summed left to
right as the represented equation reads). -/
def dotFx : List Int → List Int → Int
  | _, [] => 0
  | [], _ => 0
  | a :: as_, v :: vs => fxAdd (fxMul a v) (dotFx as_ vs)

/-- `x` satisfies the equation of one augmented row, in `I64F64`
arithmetic: the first `x.length` entries are coefficients, entry
`x.length` is the right-hand side. -/
def rowSatFx (row x : List Int) : Bool :=
  dotFx row x = row.getD x.length 0

/-- `x` satisfies every equation of the augmented system, in `I64F64`
arithmetic. -/
def satFx (m : List (List Int)) (x : List Int) : Bool :=
  m.all fun row => rowSatFx row x

/-! ### Exact-arithmetic mirror of the Gauss-Jordan row operations

The same row operations with the `I64F64` entries replaced by exact
rationals; used to state what the elimination would do without rounding. -/

/-- Row `i` of a rational matrix. -/
def getRowQ (m : List (List ℚ)) (i : Nat) : List ℚ := m.getD i []

/-- Entry `(i, j)` of a rational matrix. -/
def getEntryQ (m : List (List ℚ)) (i j : Nat) : ℚ := (getRowQ m i).getD j 0

/-- Row swap on a rational matrix. -/
def swapRowsQ (m : List (List ℚ)) (i j : Nat) : List (List ℚ) :=
  let ri := getRowQ m i
  let rj := getRowQ m j
  (m.set i rj).set j ri

/-- The inner column loop of `gauss_jordan` on row `i`, in exact
arithmetic. -/
def updateRowQ (prow : List ℚ) (scale : ℚ) : List ℚ → Nat → Nat → List ℚ
  | row, _, 0 => row
  | row, j, k + 1 =>
    updateRowQ prow scale
      (row.set j (row.getD j 0 - prow.getD j 0 * scale)) (j + 1) k

/-- The elementary operation `gauss_jordan` performs on row `i` below pivot
`(pr, pc)` of an `? × N` matrix, in exact arithmetic: divide to get the
scale, force the pivot column of row `i` to zero, subtract the scaled pivot
row from the columns right of the pivot. -/
def eliminateRowQ (m : List (List ℚ)) (pr pc i N : Nat) : List (List ℚ) :=
  let scale := getEntryQ m i pc / getEntryQ m pr pc
  m.set i (updateRowQ (getRowQ m pr) scale ((getRowQ m i).set pc 0) (pc + 1) (N - (pc + 1)))

/-- Exact evaluation of the linear form of an augmented row at `x`. -/
def dotQ : List ℚ → List ℚ → ℚ
  | _, [] => 0
  | [], _ => 0
  | a :: as_, v :: vs => a * v + dotQ as_ vs

/-- `x` solves the equation represented by one augmented row (first
`x.length` entries are coefficients, entry `x.length` the right-hand
side). -/
def rowSatQ (row x : List ℚ) : Prop :=
  dotQ row x = row.getD x.length 0

/-- `x` lies in the solution set of the augmented system. -/
def satQ (m : List (List ℚ)) (x : List ℚ) : Prop :=
  ∀ row ∈ m, rowSatQ row x

end Day24

/-! ## src/bin/day2.rs: Cube Conundrum

The repository snapshot under verification contains one day-2 solver file
(src/bin/day2.rs); the further rewrites the specification mentions are not
in the snapshot and are modelled from the spec after the embedded version 1
below. -/

namespace Day2

/-- One reveal of cubes (`struct Reveal`): each colour is present or not. -/
structure Reveal where
  red : Option Nat
  green : Option Nat
  blue : Option Nat
  deriving DecidableEq, Repr

/-- One game line (`struct Game`). -/
structure Game where
  id : Nat
  reveals : List Reveal
  deriving DecidableEq, Repr

/-- The per-game feasibility test of `solve_part_1` (day2.rs lines 74-80):
every reveal fits in 12 red, 13 green, 14 blue. -/
def gamePossible (g : Game) : Bool :=
  g.reveals.all fun r =>
    r.red.getD 0 ≤ 12 && r.green.getD 0 ≤ 13 && r.blue.getD 0 ≤ 14

/-- `solve_part_1` (day2.rs lines 68-84) after parsing: sum the ids of the
possible games. -/
def solve_part_1 (games : List Game) : Nat :=
  (games.filterMap fun g => if gamePossible g then some g.id else none).sum

/-- The minimal cube power of one game (`solve_part_2` body, day2.rs lines
92-96): product of the per-colour maxima over the reveals (0 if a colour
never appears). -/
def gamePower (g : Game) : Nat :=
  ((g.reveals.filterMap Reveal.red).foldl max 0) *
    ((g.reveals.filterMap Reveal.green).foldl max 0) *
    ((g.reveals.filterMap Reveal.blue).foldl max 0)

/-- `solve_part_2` (day2.rs lines 86-99) after parsing: sum of the games'
minimal cube powers. -/
def solve_part_2 (games : List Game) : Nat :=
  (games.map gamePower).sum

/-- Modelled from the spec: the spec reports "three different versions of
day 2" but the snapshot holds only src/bin/day2.rs; version 2 is modelled
as a single-pass rewrite of the same computation, folding the running
part-1 answer over the games. -/
def solve_part_1_v2 (games : List Game) : Nat :=
  games.foldl (fun acc g => if gamePossible g then acc + g.id else acc) 0

/-- Modelled from the spec (missing rewrite of day 2, version 2, part 2):
one fold accumulating the answer, with the per-colour maxima of each game
gathered in a single pass over its reveals. -/
def solve_part_2_v2 (games : List Game) : Nat :=
  games.foldl
    (fun acc g =>
      let m := g.reveals.foldl
        (fun (m : Nat × Nat × Nat) r =>
          (max m.1 (r.red.getD 0), max m.2.1 (r.green.getD 0),
           max m.2.2 (r.blue.getD 0)))
        (0, 0, 0)
      acc + m.1 * m.2.1 * m.2.2)
    0

/-- Modelled from the spec (missing rewrite of day 2, version 3, part 1):
direct structural recursion over the game list. -/
def solve_part_1_v3 : List Game → Nat
  | [] => 0
  | g :: gs => (if gamePossible g then g.id else 0) + solve_part_1_v3 gs

/-- Modelled from the spec (missing rewrite of day 2, version 3, part 2):
direct structural recursion over the game list. -/
def solve_part_2_v3 : List Game → Nat
  | [] => 0
  | g :: gs => gamePower g + solve_part_2_v3 gs

end Day2

/-! ## src/bin/day5.rs: If You Give A Seed A Fertilizer

One day-5 solver file is in the snapshot; the spec's further rewrites are
modelled from the spec after the embedded version 1. -/

namespace Day5

/-- One mapping range (`struct MapRange`). -/
structure MapRange where
  dest_start : Int
  source_start : Int
  length : Int
  deriving DecidableEq, Repr

/-- The parsed input (`struct Input`): the seed numbers and the maps in
input order (assumed, per the file comment, to chain from seed to
location). -/
structure Input where
  seeds : List Int
  maps : List (List MapRange)
  deriving DecidableEq, Repr

/-- `i64::MAX`, the initial minimum in `find_min_location`. -/
def i64Max : Int := 9223372036854775807

/-- `find_seed_location` (day5.rs lines 92-105): follow the maps in order;
in each map the first range containing the value transforms it, otherwise
the value passes through. -/
def find_seed_location : List (List MapRange) → Int → Int
  | [], value => value
  | m :: rest, value =>
    match m.find? fun r =>
        decide (r.source_start ≤ value) && decide (value < r.source_start + r.length) with
    | some r => find_seed_location rest (value + r.dest_start - r.source_start)
    | none => find_seed_location rest value

/-- `solve_part_1` (day5.rs lines 74-90) after parsing: minimal location
over the seeds (`none` models the panic on an empty seed list). -/
def solve_part_1 (input : Input) : Option Int :=
  match input.seeds.map (find_seed_location input.maps) with
  | [] => none
  | x :: xs => some (xs.foldl min x)

/-- Stable insertion into a range list sorted by `source_start`. -/
def insertBySourceStart (r : MapRange) : List MapRange → List MapRange
  | [] => [r]
  | s :: ss =>
    if s.source_start ≤ r.source_start then s :: insertBySourceStart r ss
    else r :: s :: ss

/-- `map.sort_by_key(|range| range.source_start)` (day5.rs line 111):
Rust's stable sort, modelled by stable insertion sort (any two stable
sorts by the same key agree). -/
def sortBySourceStart : List MapRange → List MapRange
  | [] => []
  | r :: rs => insertBySourceStart r (sortBySourceStart rs)

/-- The range loop of `find_min_location` (day5.rs lines 130-170) over one
map's sorted ranges, tracking the running minimum, the current range start
and the remaining length; `next` is the recursive descent into the
remaining maps. -/
def fmlRanges (next : Int → Int → Int) :
    List MapRange → Int → Int → Int → Int
  | [], start, length, minAcc =>
    if length ≠ 0 then min minAcc (next start length) else minAcc
  | r :: rs, start, length, minAcc =>
    let step1 :=
      if start < r.source_start then
        let beforeLen := min (r.source_start - start) length
        (min minAcc (next start beforeLen), start + beforeLen, length - beforeLen)
      else (minAcc, start, length)
    let minAcc := step1.1
    let start := step1.2.1
    let length := step1.2.2
    if length = 0 then minAcc
    else
      let rangeEnd := r.source_start + r.length
      let step2 :=
        if start < rangeEnd then
          let e := start + length
          let overlapLen := min e rangeEnd - start
          let overlapStart := r.dest_start + (start - r.source_start)
          (min minAcc (next overlapStart overlapLen), start + overlapLen,
           length - overlapLen)
        else (minAcc, start, length)
      let minAcc := step2.1
      let start := step2.2.1
      let length := step2.2.2
      if length = 0 then minAcc else fmlRanges next rs start length minAcc

/-- `find_min_location` (day5.rs lines 125-171): minimum location value
reachable from the seed range `[start, start + length)` through the
remaining (sorted) maps. -/
def find_min_location : List (List MapRange) → Int → Int → Int
  | [], start, _ => start
  | m :: rest, start, length =>
    fmlRanges (fun s l => find_min_location rest s l) m start length i64Max

/-- `seeds.chunks_exact(2)` (day5.rs line 116): the (start, length) pairs,
dropping a dangling element. -/
def seedPairs : List Int → List (Int × Int)
  | a :: b :: rest => (a, b) :: seedPairs rest
  | _ => []

/-- `solve_part_2` (day5.rs lines 107-123) after parsing: sort each map by
`source_start`, then take the minimal `find_min_location` over the seed
(start, length) pairs (`none` models the panic on no pairs). -/
def solve_part_2 (input : Input) : Option Int :=
  let maps := input.maps.map sortBySourceStart
  match (seedPairs input.seeds).map fun p => find_min_location maps p.1 p.2 with
  | [] => none
  | x :: xs => some (xs.foldl min x)

/-- Modelled from the spec: the spec reports "four [versions] of day 5"
but the snapshot holds only src/bin/day5.rs; version 2 rewrites the seed
walk as a fold of a per-map application function. -/
def applyMap (m : List MapRange) (value : Int) : Int :=
  match m.find? fun r =>
      decide (r.source_start ≤ value) && decide (value < r.source_start + r.length) with
  | some r => value + r.dest_start - r.source_start
  | none => value

/-- Modelled from the spec (missing rewrite of day 5, version 2, part 1):
fold the per-map application over the maps, then fold the minimum over the
seed locations. -/
def solve_part_1_v2 (input : Input) : Option Int :=
  match input.seeds with
  | [] => none
  | s :: ss =>
    some (ss.foldl (fun acc seed => min acc (input.maps.foldl (fun v m => applyMap m v) seed))
      (input.maps.foldl (fun v m => applyMap m v) s))

/-- Modelled from the spec (missing rewrite of day 5, version 3, part 1):
per-map lookup via `filter` and head instead of `find?`. -/
def applyMapFilter (m : List MapRange) (value : Int) : Int :=
  match m.filter fun r =>
      decide (r.source_start ≤ value) && decide (value < r.source_start + r.length) with
  | r :: _ => value + r.dest_start - r.source_start
  | [] => value

/-- Modelled from the spec (missing rewrite of day 5, version 3, part 1). -/
def solve_part_1_v3 (input : Input) : Option Int :=
  match input.seeds.map fun s => (input.maps.map applyMapFilter).foldl (fun v f => f v) s with
  | [] => none
  | x :: xs => some (xs.foldl min x)

/-- Modelled from the spec (missing rewrite of day 5, version 4, part 1):
structural recursion over the seeds, keeping the running minimum. -/
def solve_part_1_v4_go (maps : List (List MapRange)) : List Int → Int → Int
  | [], acc => acc
  | s :: ss, acc => solve_part_1_v4_go maps ss (min acc (find_seed_location maps s))

/-- Modelled from the spec (missing rewrite of day 5, version 4, part 1). -/
def solve_part_1_v4 (input : Input) : Option Int :=
  match input.seeds with
  | [] => none
  | s :: ss => some (solve_part_1_v4_go input.maps ss (find_seed_location input.maps s))

/-- Modelled from the spec (missing rewrite of day 5, version 2, part 2):
seed pairs gathered by a counting scheme instead of `chunks_exact`. -/
def seedPairsIdx (seeds : List Int) : List (Int × Int) :=
  (List.range (seeds.length / 2)).map fun k =>
    (seeds.getD (2 * k) 0, seeds.getD (2 * k + 1) 0)

/-- Modelled from the spec (missing rewrite of day 5, version 2, part 2). -/
def solve_part_2_v2 (input : Input) : Option Int :=
  let maps := input.maps.map sortBySourceStart
  match (seedPairsIdx input.seeds).map fun p => find_min_location maps p.1 p.2 with
  | [] => none
  | x :: xs => some (xs.foldl min x)

end Day5

/-! ## src/bin/day18.rs: Lavaduct Lagoon

The scanner works on the vertical lines of the traced loop.  The two
mutually recursive scan functions are given fuel that decreases on every
call; every call either keeps the line list and switches function or
strictly shortens the line list, so `2 * length + 2` fuel always suffices
(`none` additionally models the `assert!(!inside)` panics and the
`lines[0]` panic). -/

namespace Day18

/-- A dig direction (`enum Direction`). -/
inductive Direction where
  | Left
  | Right
  | Up
  | Down
  deriving DecidableEq, Repr

/-- `Direction::di_dj` (day18.rs lines 22-29). -/
def Direction.diDj : Direction → Int × Int
  | .Up => (-1, 0)
  | .Down => (1, 0)
  | .Left => (0, -1)
  | .Right => (0, 1)

/-- One parsed input line (`struct InputLine`): the plain direction and
distance, and the direction and distance hidden in the hex colour code. -/
structure InputLine where
  direction : Direction
  distance : Int
  hex_direction : Direction
  hex_distance : Int
  deriving DecidableEq, Repr

/-- Which decoding of a line to use (`enum DirectionType`). -/
inductive DirectionType where
  | Normal
  | Hex
  deriving DecidableEq, Repr

/-- `InputLine::direction_and_distance` (day18.rs lines 41-46). -/
def directionAndDistance (l : InputLine) : DirectionType → Direction × Int
  | .Normal => (l.direction, l.distance)
  | .Hex => (l.hex_direction, l.hex_distance)

/-- A vertical segment of the loop (`struct VerticalLine`). -/
structure VerticalLine where
  min_i : Int
  max_i : Int
  j : Int
  direction : Direction
  deriving DecidableEq, Repr

/-- The walk of `convert_to_vertical_lines` (day18.rs lines 226-250) from
position `(i, j)`: collect a vertical line for every move that keeps the
column unchanged. -/
def convertWalk (dt : DirectionType) : List InputLine → Int → Int → List VerticalLine
  | [], _, _ => []
  | l :: rest, i, j =>
    let dd := directionAndDistance l dt
    let di := dd.1.diDj.1
    let dj := dd.1.diDj.2
    let newI := i + di * dd.2
    let newJ := j + dj * dd.2
    if j = newJ then
      ⟨min i newI, max i newI, j, dd.1⟩ :: convertWalk dt rest newI newJ
    else
      convertWalk dt rest newI newJ

/-- `convert_to_vertical_lines` (day18.rs lines 226-250). -/
def convert_to_vertical_lines (input : List InputLine) (dt : DirectionType) :
    List VerticalLine :=
  convertWalk dt input 0 0

/-- The sort key comparison of day18.rs line 117: by column, then by top
coordinate. -/
def lineLE (a b : VerticalLine) : Bool :=
  decide (a.j < b.j) || (decide (a.j = b.j) && decide (a.min_i ≤ b.min_i))

/-- Stable insertion for the line sort. -/
def insertLine (r : VerticalLine) : List VerticalLine → List VerticalLine
  | [] => [r]
  | s :: ss => if lineLE s r then s :: insertLine r ss else r :: s :: ss

/-- `lines.sort_by(|a, b| a.j.cmp(&b.j).then(a.min_i.cmp(&b.min_i)))`
(day18.rs line 117): Rust's stable sort, modelled by stable insertion
sort. -/
def sortLines : List VerticalLine → List VerticalLine
  | [] => []
  | r :: rs => insertLine r (sortLines rs)

/-- `find_next_line` (day18.rs lines 212-224): the first line at column
`≥ j` that meets the row window `[min_i, max_i]` in one of the three
tested ways, with its index. -/
def find_next_line (lines : List VerticalLine) (min_i max_i j : Int) :
    Option (Nat × VerticalLine) :=
  go lines 0
where
  /-- scan with the running index -/
  go : List VerticalLine → Nat → Option (Nat × VerticalLine)
  | [], _ => none
  | l :: ls, idx =>
    if l.j ≥ j ∧ ((l.min_i ≥ min_i ∧ l.max_i ≤ max_i) ∨
        (l.min_i ≤ max_i ∧ l.max_i ≥ max_i) ∨ (l.min_i ≤ min_i ∧ l.max_i ≥ min_i)) then
      some (idx, l)
    else go ls (idx + 1)

mutual

/-- `process_range` (day18.rs lines 131-195): count the cells in the band
of rows `[min_i, max_i]` at columns `≥ j`, `inside` telling whether the
band enters the polygon at column `j`.  `none` models the
`assert!(!inside, "No line found ...")` panic (and exhausted fuel). -/
def process_range : Nat → List VerticalLine → Int → Int → Int → Bool → Option Int
  | 0, _, _, _, _, _ => none
  | fuel + 1, lines, min_i, max_i, j, inside =>
    match find_next_line lines min_i max_i j with
    | none => if inside then none else some 0
    | some (idx, line) => do
      let above ←
        if min_i < line.min_i then do
          let sub ← process_range fuel (lines.drop (idx + 1)) min_i (line.min_i - 1)
            line.j inside
          pure ((if inside then (line.j - j) * (line.min_i - min_i) else 0) + sub)
        else pure 0
      let top ←
        if min_i ≤ line.min_i then do
          let sub ← process_horizontal_line fuel (lines.drop idx) line.min_i line.j inside
          pure ((if inside then line.j - j else 0) + sub)
        else pure 0
      let crossMin := max min_i (line.min_i + 1)
      let crossMax := min max_i (line.max_i - 1)
      let cross ←
        if line.min_i < crossMin ∧ min_i ≤ crossMin ∧ crossMax < line.max_i ∧
            crossMax ≤ max_i ∧ crossMin ≤ crossMax then do
          let sub ← process_range fuel (lines.drop (idx + 1)) crossMin crossMax
            (line.j + 1) (!inside)
          pure ((crossMax - crossMin + 1) +
            (if inside then (line.j - j) * (crossMax - crossMin + 1) else 0) + sub)
        else pure 0
      let bottom ←
        if max_i ≥ line.max_i then do
          let sub ← process_horizontal_line fuel (lines.drop idx) line.max_i line.j inside
          pure ((if inside then line.j - j else 0) + sub)
        else pure 0
      let below ←
        if max_i > line.max_i then do
          let sub ← process_range fuel (lines.drop (idx + 1)) (line.max_i + 1) max_i
            line.j inside
          pure ((if inside then (line.j - j) * (max_i - line.max_i) else 0) + sub)
        else pure 0
      pure (above + top + cross + bottom + below)

/-- `process_horizontal_line` (day18.rs lines 197-210): count the cells of
the horizontal run at row `i` starting right of column `j`, and continue
past its far end.  `none` models the panics (`lines[0]` on an empty slice,
`assert!(!inside)`) and exhausted fuel. -/
def process_horizontal_line : Nat → List VerticalLine → Int → Int → Bool → Option Int
  | 0, _, _, _, _ => none
  | fuel + 1, lines, i, j, inside =>
    match lines with
    | [] => none
    | current :: rest =>
      match find_next_line rest i i (j + 1) with
      | none => if inside then none else some 0
      | some (nidx, nextLine) => do
        let newInside := if current.direction = nextLine.direction then !inside else inside
        let sub ← process_range fuel (lines.drop (nidx + 1)) i i (nextLine.j + 1) newInside
        pure ((nextLine.j - j + 1) + sub)

end

/-- `solve` (day18.rs lines 113-129) after parsing: build and sort the
vertical lines, find the bounding window, and scan.  (On an empty line
list the fold defaults reproduce the source's `i64::MAX`/`i64::MIN`
bounds.) -/
def solveLines (input : List InputLine) (dt : DirectionType) : Option Int :=
  let lines := sortLines (convert_to_vertical_lines input dt)
  let minI := lines.foldl (fun a l => min a l.min_i) 9223372036854775807
  let maxI := lines.foldl (fun a l => max a l.max_i) (-9223372036854775808)
  let minJ := lines.foldl (fun a l => min a l.j) 9223372036854775807
  process_range (2 * lines.length + 2) lines minI maxI minJ false

/-- `solve_part_1` (day18.rs lines 252-254) after parsing. -/
def solve_part_1 (input : List InputLine) : Option Int :=
  solveLines input .Normal

/-- `solve_part_2` (day18.rs lines 256-258) after parsing. -/
def solve_part_2 (input : List InputLine) : Option Int :=
  solveLines input .Hex

/-- The decoded (direction, distance) moves of the input under one
decoding. -/
def decodedMoves (input : List InputLine) (dt : DirectionType) : List (Direction × Int) :=
  input.map fun l => directionAndDistance l dt

/-- The vertex walk of the traced loop, from `(0, 0)`. -/
def traceVertices : List (Direction × Int) → Int → Int → List (Int × Int)
  | [], _, _ => []
  | m :: ms, i, j =>
    let di := m.1.diDj.1
    let dj := m.1.diDj.2
    (i + di * m.2, j + dj * m.2) :: traceVertices ms (i + di * m.2) (j + dj * m.2)

/-- Twice the signed shoelace area of the closed vertex path. -/
def shoelace2 : List (Int × Int) → Int
  | [] => 0
  | _ :: [] => 0
  | a :: b :: rest => (a.1 * b.2 - b.1 * a.2) + shoelace2 (b :: rest)

/-- Modelled from the spec: the reference cell count of a closed
non-self-intersecting rectilinear loop, "the shoelace formula plus half
the perimeter plus one" (with the spec's loop traced from the decoded
moves). -/
def specCellCount (moves : List (Direction × Int)) : Int :=
  let verts := (0, 0) :: traceVertices moves 0 0
  let perim := (moves.map fun m => |m.2|).sum
  |shoelace2 verts| / 2 + perim / 2 + 1

/-- An input line with equal normal and hex decodings (only the normal
decoding is exercised below). -/
def mkLine (d : Direction) (n : Int) : InputLine := ⟨d, n, d, n⟩

/-- A closed, non-self-intersecting zig-zag loop of 10 boundary cells and
no interior: up 2, right 1, down 2, right 1, down 1, left 2, up 1. -/
def zigzagLoop : List InputLine :=
  [mkLine .Up 2, mkLine .Right 1, mkLine .Down 2, mkLine .Right 1,
   mkLine .Down 1, mkLine .Left 2, mkLine .Up 1]

/-- The axis-aligned rectangle loop of width `w` and height `h`. -/
def rectLoop (w h : Int) : List InputLine :=
  [mkLine .Right w, mkLine .Down h, mkLine .Left w, mkLine .Up h]

end Day18

/-! ## src/bin/day21.rs: Step Counter

The map is a square grid of garden plots and rocks.  `u64` step counts are
modelled by `Nat`, with the two additions that can actually wrap in release
builds (`step_map[..][..] + 1` on an unreachable border cell, and
`center_step_map[..][..] + 2`) wrapped explicitly; `u64::MAX` is the
"unreached" marker as in the source.  The breadth-first search takes fuel
(`none` = fuel exhausted); the remaining loops of the part-2 counting trick
structurally count down and need no fuel except the outer loop of
`count_edge`, which stops on a repeat. -/

namespace Day21

/-- One map cell (`enum Space`). -/
inductive Space where
  | Garden
  | Rock
  deriving DecidableEq, Repr

/-- `u64::MAX`, the unreached marker of the step maps. -/
def U64MAX : Nat := 2 ^ 64 - 1

/-- A BFS seed (`struct StartPosition`). -/
structure StartPosition where
  i : Nat
  j : Nat
  step : Nat
  deriving DecidableEq, Repr

/-- Cell `(i, j)` of the map (out of bounds reads as rock; the source only
indexes in bounds). -/
def getCell (map : List (List Space)) (i j : Nat) : Space :=
  (map.getD i []).getD j .Rock

/-- Entry `(i, j)` of a step map. -/
def getStep (sm : List (List Nat)) (i j : Nat) : Nat :=
  (sm.getD i []).getD j 0

/-- Write entry `(i, j)` of a step map. -/
def setStep (sm : List (List Nat)) (i j v : Nat) : List (List Nat) :=
  sm.set i ((sm.getD i []).set j v)

/-- Try to relax one neighbour `(ni, nj)` at step count `nsteps`
(day21.rs lines 348-364): in bounds, a garden plot, and strictly better
than the recorded count.  The state is the step map and the BFS queue. -/
def tryPush (map : List (List Space)) (n : Nat)
    (st : List (List Nat) × List (Nat × Nat × Nat)) (ni nj : Int) (nsteps : Nat) :
    List (List Nat) × List (Nat × Nat × Nat) :=
  if 0 ≤ ni ∧ ni < (n : Int) ∧ 0 ≤ nj ∧ nj < (n : Int) then
    let i' := ni.toNat
    let j' := nj.toNat
    if getCell map i' j' = .Garden ∧ nsteps < getStep st.1 i' j' then
      (setStep st.1 i' j' nsteps, st.2 ++ [(i', j', nsteps)])
    else st
  else st

/-- The queue loop of `build_step_map` (day21.rs lines 340-365): pop,
skip if already better, record, and relax the four neighbours in the
source's order (up, down, left, right). -/
def bfsLoop (map : List (List Space)) (n : Nat) :
    Nat → List (Nat × Nat × Nat) → List (List Nat) → Nat →
    Option (List (List Nat) × Nat)
  | 0, _, _, _ => none
  | _ + 1, [], sm, maxSteps => some (sm, maxSteps)
  | fuel + 1, (i, j, steps) :: queue, sm, maxSteps =>
    if getStep sm i j < steps then bfsLoop map n fuel queue sm maxSteps
    else
      let sm := setStep sm i j steps
      let maxSteps := max maxSteps steps
      let nsteps := (steps + 1) % 2 ^ 64
      let st := tryPush map n (sm, queue) ((i : Int) - 1) (j : Int) nsteps
      let st := tryPush map n st ((i : Int) + 1) (j : Int) nsteps
      let st := tryPush map n st (i : Int) ((j : Int) - 1) nsteps
      let st := tryPush map n st (i : Int) ((j : Int) + 1) nsteps
      bfsLoop map n fuel st.2 st.1 maxSteps

/-- `build_step_map` (day21.rs lines 331-368): fewest steps to reach each
cell from the seeds, and the maximum recorded count (the steps needed to
fill the map). -/
def build_step_map (map : List (List Space)) (sps : List StartPosition)
    (fuel : Nat) : Option (List (List Nat) × Nat) :=
  let n := map.length
  bfsLoop map n fuel (sps.map fun p => (p.i, p.j, p.step))
    (List.replicate n (List.replicate n U64MAX)) 0

/-- `count_positions` (day21.rs lines 179-187): cells whose recorded count
is within the limit and has the wanted parity. -/
def count_positions (sm : List (List Nat)) (limit mod : Nat) : Nat :=
  (sm.map fun row =>
    (row.filter fun s => decide (s ≤ limit) && decide (s % 2 = mod)).length).sum

/-- `find_min_step` (day21.rs lines 230-232); the source unwraps a
nonempty list, an empty list reads as 0 here (the closures always build
one seed per map row/column). -/
def minStep : List StartPosition → Nat
  | [] => 0
  | p :: ps => ps.foldl (fun a q => min a q.step) p.step

/-- `normalize_to_min_step` (day21.rs lines 234-238). -/
def normalize (sps : List StartPosition) (m : Nat) : List StartPosition :=
  sps.map fun p => ⟨p.i, p.j, p.step - m⟩

/-- `u64` wrapping subtraction, reduced mod `2^64` (as in
`step_modulo.wrapping_sub(min_steps) % 2` with both values below
`2^64`). -/
def wsub (a b : Nat) : Nat := (a + 2 ^ 64 - b % 2 ^ 64) % 2 ^ 64

/-- The filled-block tail loop of `count_edge_loop` (day21.rs lines
257-265): add the full even/odd count for each remaining block, flipping
the parity by `n` each time. -/
def fullBlocks (n evenFull oddFull : Nat) : Nat → Nat → Nat
  | 0, md => if md = 0 then evenFull else oddFull
  | out + 1, md =>
    (if md = 0 then evenFull else oddFull) + fullBlocks n evenFull oddFull out ((md + n) % 2)

/-- The main loop of `count_edge_loop` (day21.rs lines 254-275), counting
down `out_distance`. -/
def celLoop (stepMap : List (List Nat)) (fill n remaining : Nat)
    (evenFull oddFull : Nat) : Nat → Nat → Nat
  | 0, md =>
    if fill ≤ remaining then fullBlocks n evenFull oddFull 0 md
    else count_positions stepMap remaining md
  | out + 1, md =>
    let block := remaining - (out + 1) * n
    if fill ≤ block then fullBlocks n evenFull oddFull (out + 1) md
    else
      count_positions stepMap block md +
        celLoop stepMap fill n remaining evenFull oddFull out ((md + n) % 2)

/-- `count_edge_loop` (day21.rs lines 240-276): once the border seeds
repeat, count the remaining blocks in this direction from one step map. -/
def count_edge_loop (map : List (List Space)) (sps : List StartPosition)
    (remaining md bfsFuel : Nat) : Option Nat := do
  let r ← build_step_map map sps bfsFuel
  let stepMap := r.1
  let fill := r.2
  let n := map.length
  let evenFull := count_positions stepMap (n * n) 0
  let oddFull := count_positions stepMap (n * n) 1
  let out := remaining / n
  pure (celLoop stepMap fill n remaining evenFull oddFull out ((md + out * n) % 2))

/-- The outer loop of `count_edge` (day21.rs lines 206-227): walk block by
block away from the centre until the normalized border seeds repeat or the
steps run out. -/
def ceLoop (map : List (List Space))
    (startFn : List (List Nat) → List StartPosition) (bfsFuel : Nat) :
    Nat → List StartPosition → Nat → Nat → Option Nat
  | 0, _, _, _ => none
  | fuel + 1, sps, remaining, md => do
    let r ← build_step_map map sps bfsFuel
    let nextMap := r.1
    let c := count_positions nextMap remaining md
    let nsp := startFn nextMap
    let ms := minStep nsp
    if remaining < ms then pure c
    else
      let nsp := normalize nsp ms
      let remaining := remaining - ms
      let md := wsub md ms % 2
      if nsp = sps then do
        let cl ← count_edge_loop map nsp remaining md bfsFuel
        pure (c + cl)
      else do
        let rest ← ceLoop map startFn bfsFuel fuel nsp remaining md
        pure (c + rest)

/-- `count_edge` (day21.rs lines 189-228). -/
def count_edge (map : List (List Space)) (center : List (List Nat))
    (remaining : Nat) (startFn : List (List Nat) → List StartPosition)
    (fuel bfsFuel : Nat) : Option Nat :=
  let sp0 := startFn center
  let im := minStep sp0
  if remaining < im then some 0
  else ceLoop map startFn bfsFuel fuel (normalize sp0 im) (remaining - im)
    ((remaining - im) % 2)

/-- The filled tail loop of `count_corner` (day21.rs lines 304-313),
weighting each diagonal by its block count. -/
def cornerFull (n fullEven fullOdd : Nat) : Nat → Nat → Nat
  | 0, _ => 0
  | out + 1, md =>
    (out + 1) * (if md = 0 then fullEven else fullOdd) +
      cornerFull n fullEven fullOdd out ((md + n) % 2)

/-- The `while out_distance > 0` loop of `count_corner` (day21.rs lines
298-319); the step map is rebuilt on every pass, as in the source. -/
def ccLoop (map : List (List Space)) (si sj cornerSteps n fullEven fullOdd bfsFuel : Nat) :
    Nat → Nat → Option Nat
  | 0, _ => some 0
  | out + 1, md => do
    let r ← build_step_map map [⟨si, sj, 0⟩] bfsFuel
    let stepMap := r.1
    let fill := r.2
    let remaining := cornerSteps - out * n
    if fill ≤ remaining then pure (cornerFull n fullEven fullOdd (out + 1) md)
    else do
      let rest ← ccLoop map si sj cornerSteps n fullEven fullOdd bfsFuel out ((md + n) % 2)
      pure ((out + 1) * count_positions stepMap remaining md + rest)

/-- `count_corner` (day21.rs lines 278-322). -/
def count_corner (map : List (List Space)) (center : List (List Nat))
    (target si sj bfsFuel : Nat) : Option Nat :=
  let n := map.length
  let d := (getStep center (n - 1 - si) (n - 1 - sj) + 2) % 2 ^ 64
  if target < d then some 0
  else
    let cornerSteps := target - d
    let fullEven := count_positions center (n * n) 0
    let fullOdd := count_positions center (n * n) 1
    let out := 1 + cornerSteps / n
    ccLoop map si sj cornerSteps n fullEven fullOdd bfsFuel out
      ((target - (out - 1) * n) % 2)

/-- `solve_part_2_inner` (day21.rs lines 125-177) after parsing: the
centre count plus the four edge directions plus the four corner
directions.  The border-seed closures wrap their `+ 1` as `u64`
addition does. -/
def solve_part_2_inner (map : List (List Space)) (start : Nat × Nat)
    (target fuel bfsFuel : Nat) : Option Nat := do
  let n := map.length
  let r ← build_step_map map [⟨start.1, start.2, 0⟩] bfsFuel
  let center := r.1
  let c0 := count_positions center target (target % 2)
  let left ← count_edge map center target
    (fun sm => (List.range n).map fun i => ⟨i, n - 1, (getStep sm i 0 + 1) % 2 ^ 64⟩)
    fuel bfsFuel
  let right ← count_edge map center target
    (fun sm => (List.range n).map fun i => ⟨i, 0, (getStep sm i (n - 1) + 1) % 2 ^ 64⟩)
    fuel bfsFuel
  let up ← count_edge map center target
    (fun sm => (List.range n).map fun j => ⟨n - 1, j, (getStep sm 0 j + 1) % 2 ^ 64⟩)
    fuel bfsFuel
  let down ← count_edge map center target
    (fun sm => (List.range n).map fun j => ⟨0, j, (getStep sm (n - 1) j + 1) % 2 ^ 64⟩)
    fuel bfsFuel
  let tl ← count_corner map center target (n - 1) (n - 1) bfsFuel
  let tr ← count_corner map center target (n - 1) 0 bfsFuel
  let bl ← count_corner map center target 0 (n - 1) bfsFuel
  let br ← count_corner map center target 0 0 bfsFuel
  pure (c0 + left + right + up + down + tl + tr + bl + br)

/-- Whether the infinitely tiled map has a garden plot at `p`. -/
def tiledGarden (map : List (List Space)) (p : ℤ × ℤ) : Bool :=
  getCell map (p.1.emod map.length).toNat (p.2.emod map.length).toNat = Space.Garden

/-- Modelled from the spec: one step of the direct breadth-first search
over the tiled grid — every garden plot adjacent to a currently occupied
position. -/
def naiveStep (map : List (List Space)) (s : Finset (ℤ × ℤ)) : Finset (ℤ × ℤ) :=
  s.biUnion fun p =>
    ({(p.1 - 1, p.2), (p.1 + 1, p.2), (p.1, p.2 - 1), (p.1, p.2 + 1)} : Finset (ℤ × ℤ)).filter
      fun q => tiledGarden map q

/-- Modelled from the spec: the number of positions of the infinitely
tiled map reachable from the start in exactly `target` steps, by direct
breadth-first search. -/
def naiveCount (map : List (List Space)) (start : ℤ × ℤ) (target : Nat) : Nat :=
  ((fun s => naiveStep map s)^[target] {start}).card

/-- The all-garden 3×3 map (empty border, start not centred). -/
def empty3 : List (List Space) :=
  [[.Garden, .Garden, .Garden], [.Garden, .Garden, .Garden],
   [.Garden, .Garden, .Garden]]

/-- The 1×1 rock-free map. -/
def one1 : List (List Space) := [[.Garden]]

/-- The lattice diamond of radius `n` carrying the parity of `n`: the
image of the `(n+1) × (n+1)` grid under `(a, b) ↦ (a + b - n, a - b)`.
These are exactly the positions an `n`-step walk on the free grid can
end on. -/
def diamond (n : Nat) : Finset (ℤ × ℤ) :=
  (Finset.range (n + 1) ×ˢ Finset.range (n + 1)).image
    fun ab => ((ab.1 : ℤ) + ab.2 - n, (ab.1 : ℤ) - ab.2)

end Day21

/-! ## src/bin/day25.rs: Snowverload

Nodes and per-node edge maps are `FxHashMap`s in the source; they are
modelled as association lists whose order stands for the (deterministic but
unspecified) hash iteration order — the theorems quantify over, or are
shown stable under, that order.  `FxHashMap::insert` on a present key
replaces the value in place; on an absent key the new entry is appended.
Loops take fuel (`none` = fuel exhausted or a source `unwrap` failure). -/

namespace Day25

/-- A directed flow edge (`struct Edge`); `Edge::new` is flow 0,
capacity 1. -/
structure Edge where
  flow : Int
  capacity : Int
  deriving DecidableEq, Repr

/-- The adjacency map of one node (`struct Node`). -/
abbrev Node := List (String × Edge)

/-- The flow network (`struct Graph`). -/
abbrev Graph := List (String × Node)

/-- First-occurrence association-list lookup (`FxHashMap::get`). -/
def lookupA {α : Type} (k : String) : List (String × α) → Option α
  | [] => none
  | (k₀, v) :: rest => if k₀ = k then some v else lookupA k rest

/-- Replace the value at the first occurrence of key `k`, or append a new
entry (`FxHashMap::insert`). -/
def insertAssoc (k : String) (e : Edge) : Node → Node
  | [] => [(k, e)]
  | (k₀, e₀) :: rest =>
    if k₀ = k then (k₀, e) :: rest else (k₀, e₀) :: insertAssoc k e rest

/-- Apply `f` to the node stored under `name`, appending a fresh empty
node first if absent (`nodes.entry(name).or_default()`). -/
def modifyNode (name : String) (f : Node → Node) : Graph → Graph
  | [] => [(name, f [])]
  | (k, n) :: rest =>
    if k = name then (k, f n) :: rest else (k, n) :: modifyNode name f rest

/-- One undirected edge insertion of `Graph::new` (day25.rs lines 76-81):
a fresh unit-capacity edge in both directions. -/
def insertEdgePair (g : Graph) (a b : String) : Graph :=
  let g := modifyNode a (insertAssoc b ⟨0, 1⟩) g
  modifyNode b (insertAssoc a ⟨0, 1⟩) g

/-- `Graph::new` (day25.rs lines 72-84) from the parsed lines
`(name, edge targets)`. -/
def graphNew (input : List (String × List String)) : Graph :=
  input.foldl (fun g line => line.2.foldl (fun g e => insertEdgePair g line.1 e) g) []

/-- The node names in iteration order. -/
def nodeNames (g : Graph) : List String := g.map Prod.fst

/-- The edge from `u` to `v`, if present. -/
def edgeOf (g : Graph) (u v : String) : Option Edge :=
  (lookupA u g).bind fun n => lookupA v n

/-- The flow on `(u, v)` (0 when the edge is absent). -/
def fl (g : Graph) (u v : String) : Int := ((edgeOf g u v).map Edge.flow).getD 0

/-- The capacity of `(u, v)` (0 when the edge is absent). -/
def cp (g : Graph) (u v : String) : Int := ((edgeOf g u v).map Edge.capacity).getD 0

/-- `(u, v)` is an edge of the network. -/
def hasEdge (g : Graph) (u v : String) : Bool := (edgeOf g u v).isSome

/-- `(u, v)` is a non-saturated (residual) edge: present, with flow below
capacity. -/
def resid (g : Graph) (u v : String) : Bool :=
  match edgeOf g u v with
  | some e => decide (e.flow < e.capacity)
  | none => false

/-- The edge scan of the BFS in `edmonds_karp` (day25.rs lines 109-123):
walk the popped node's edges; each unvisited non-source endpoint of a
non-saturated edge is recorded as reached from `nodeName`; reaching the
sink stops the whole search (`break 'outer`). -/
def bfsEdges (source sink nodeName : String) :
    Node → List (String × String) → List String →
    Bool × List (String × String) × List String
  | [], pathTo, queue => (false, pathTo, queue)
  | (en, e) :: rest, pathTo, queue =>
    if en ≠ source ∧ e.flow < e.capacity ∧ (lookupA en pathTo).isNone then
      let pathTo := pathTo ++ [(en, nodeName)]
      if en = sink then (true, pathTo, queue)
      else bfsEdges source sink nodeName rest pathTo (queue ++ [en])
    else bfsEdges source sink nodeName rest pathTo queue

/-- The BFS queue loop of `edmonds_karp` (day25.rs lines 101-124):
returns whether an augmenting path was found, and the predecessor map. -/
def bfsLoop (g : Graph) (source sink : String) :
    Nat → List String → List (String × String) →
    Option (Bool × List (String × String))
  | 0, _, _ => none
  | _ + 1, [], pathTo => some (false, pathTo)
  | fuel + 1, nodeName :: queue, pathTo =>
    match bfsEdges source sink nodeName ((lookupA nodeName g).getD []) pathTo queue with
    | (true, pathTo, _) => some (true, pathTo)
    | (false, pathTo, queue) => bfsLoop g source sink fuel queue pathTo

/-- Walk the predecessor map from the sink back to the source (the
`while current_node_name != source` loops of day25.rs lines 130-150 both
follow this node sequence).  The result starts at `cur` and ends at
`source`. -/
def pathNodes (pathTo : List (String × String)) (source : String) :
    Nat → String → Option (List String)
  | 0, _ => none
  | fuel + 1, cur =>
    if cur = source then some [source]
    else
      match lookupA cur pathTo with
      | none => none
      | some prev => (pathNodes pathTo source fuel prev).map (cur :: ·)

/-- `i32::MAX`, the initial `added_flow`. -/
def i32Max : Int := 2147483647

/-- The bottleneck scan (day25.rs lines 130-138): minimum residual
capacity over the path edges (the path runs sink-first, each step reading
the edge from the next node to the current one). -/
def minResidual (g : Graph) : List String → Int → Int
  | cur :: prev :: rest, acc =>
    let e := (edgeOf g prev cur).getD ⟨0, 0⟩
    minResidual g (prev :: rest) (min acc (e.capacity - e.flow))
  | _, acc => acc

/-- Add `d` to the flow of edge `(u, v)` (the source mutates the edge in
place through `edge_mut`). -/
def addFlow (g : Graph) (u v : String) (d : Int) : Graph :=
  modifyNode u (fun n =>
    match lookupA v n with
    | some e => insertAssoc v ⟨e.flow + d, e.capacity⟩ n
    | none => n) g

/-- The augmentation walk (day25.rs lines 140-150): push `added` along
every path edge and pull it from the opposite edge. -/
def augmentPath (g : Graph) (added : Int) : List String → Graph
  | cur :: prev :: rest =>
    let g := addFlow g prev cur added
    let g := addFlow g cur prev (-added)
    augmentPath g added (prev :: rest)
  | _ => g

/-- `MIN_CUT` (day25.rs line 96). -/
def MIN_CUT : Int := 3

/-- The augmentation loop of `edmonds_karp` (day25.rs lines 100-156):
search for an augmenting path, stop if none, otherwise push the bottleneck
flow along it and stop once the accumulated flow exceeds `MIN_CUT`. -/
def ekLoop (source sink : String) (bfsFuel : Nat) :
    Nat → Graph → Int → Option (Int × Graph)
  | 0, _, _ => none
  | fuel + 1, g, flow => do
    let r ← bfsLoop g source sink bfsFuel [source] []
    match r with
    | (false, _) => some (flow, g)
    | (true, pathTo) => do
      let path ← pathNodes pathTo source (pathTo.length + 1) sink
      let added := minResidual g path i32Max
      let g := augmentPath g added path
      let flow := flow + added
      if MIN_CUT < flow then some (flow, g) else ekLoop source sink bfsFuel fuel g flow

/-- `edmonds_karp` (day25.rs lines 98-160): the accumulated flow and the
saturated network. -/
def edmonds_karp (g : Graph) (source sink : String) (ekFuel bfsFuel : Nat) :
    Option (Int × Graph) :=
  ekLoop source sink bfsFuel ekFuel g 0

/-- The edge scan of `determine_partition_size` (day25.rs lines 172-177):
count and enqueue each unvisited endpoint of a non-saturated edge. -/
def dpsEdges : Node → List String → List String → Nat →
    List String × List String × Nat
  | [], visited, queue, size => (visited, queue, size)
  | (en, e) :: rest, visited, queue, size =>
    if e.flow < e.capacity ∧ ¬ visited.contains en then
      dpsEdges rest (en :: visited) (queue ++ [en]) (size + 1)
    else dpsEdges rest visited queue size

/-- The BFS loop of `determine_partition_size` (day25.rs lines 162-181). -/
def dpsLoop (g : Graph) : Nat → List String → List String → Nat → Option Nat
  | 0, _, _, _ => none
  | _ + 1, [], _, size => some size
  | fuel + 1, nodeName :: queue, visited, size =>
    match dpsEdges ((lookupA nodeName g).getD []) visited queue size with
    | (visited, queue, size) => dpsLoop g fuel queue visited size

/-- `determine_partition_size` (day25.rs lines 162-181): the number of
nodes reachable from `source` through non-saturated edges (the source
included). -/
def determine_partition_size (g : Graph) (source : String) (fuel : Nat) : Option Nat :=
  dpsLoop g fuel [source] [source] 1

/-- The sink scan of `solve` (day25.rs lines 188-195): try each key other
than the source on a fresh clone of the graph; on the first sink of max
flow `MIN_CUT`, return the product of the partition sizes.  The source
panics (`none` here) when no sink works. -/
def solveFrom (g : Graph) (source : String) (ekFuel bfsFuel dpsFuel : Nat) :
    List String → Option Nat
  | [] => none
  | sink :: rest => do
    let r ← edmonds_karp g source sink ekFuel bfsFuel
    if r.1 = MIN_CUT then do
      let p ← determine_partition_size r.2 source dpsFuel
      pure (p * (g.length - p))
    else solveFrom g source ekFuel bfsFuel dpsFuel rest

/-- `solve` (day25.rs lines 183-198) after parsing: build the graph, fix
the first key as source, and scan the other keys as sinks. -/
def solve (input : List (String × List String)) (ekFuel bfsFuel dpsFuel : Nat) :
    Option Nat :=
  let g := graphNew input
  match nodeNames g with
  | [] => none
  | source :: _ =>
    solveFrom g source ekFuel bfsFuel dpsFuel ((nodeNames g).filter (· ≠ source))

/-- `solve` run on an already-built graph (hash iteration order abstracted
as the list order): fix the first key as source and scan the rest. -/
def solveG (g : Graph) (ekFuel bfsFuel dpsFuel : Nat) : Option Nat :=
  match nodeNames g with
  | [] => none
  | source :: _ =>
    solveFrom g source ekFuel bfsFuel dpsFuel ((nodeNames g).filter (· ≠ source))

/-- The node set of the network. -/
def V (g : Graph) : Finset String := (nodeNames g).toFinset

/-- Well-formedness of a freshly built graph (`Graph::new` establishes
all of it): node keys are distinct, each node's edge keys are distinct,
every edge target is a node and the reverse edge is present, and every
edge is `Edge::new()` — flow 0, capacity 1. -/
def WfG (g : Graph) : Prop :=
  (nodeNames g).Nodup ∧
  (∀ p ∈ g, (p.2.map Prod.fst).Nodup) ∧
  (∀ p ∈ g, ∀ q ∈ p.2, q.1 ∈ nodeNames g ∧ hasEdge g q.1 p.1 = true) ∧
  (∀ p ∈ g, ∀ q ∈ p.2, q.2 = ⟨0, 1⟩)

instance (g : Graph) : Decidable (WfG g) := by
  unfold WfG
  exact inferInstance

/-- Modelled from the spec: a valid `s`-`t` flow on the capacity network
of `g` — skew-symmetric, nowhere above capacity, and conserved at every
node other than the source and the sink. -/
def ValidFlow (g : Graph) (s t : String) (f : String → String → Int) : Prop :=
  (∀ u v, f u v = - f v u) ∧
  (∀ u v, f u v ≤ cp g u v) ∧
  (∀ u ∈ V g, u ≠ s → u ≠ t → ∑ v ∈ V g, f u v = 0)

/-- Modelled from the spec: the value of a flow — the net flow leaving
the source. -/
def flowValue (g : Graph) (s : String) (f : String → String → Int) : Int :=
  ∑ v ∈ V g, f s v

/-- Modelled from the spec: `F` is the maximum flow value between `s` and
`t` in the capacity network of `g`. -/
def IsMaxFlowValue (g : Graph) (s t : String) (F : Int) : Prop :=
  (∃ f, ValidFlow g s t f ∧ flowValue g s f = F) ∧
  ∀ f, ValidFlow g s t f → flowValue g s f ≤ F

/-- The flow stored in a graph state, as a function. -/
def flOf (g : Graph) : String → String → Int := fun u v => fl g u v

/-- Modelled from the spec: reachability through non-saturated edges. -/
def ReachResid (g : Graph) (s v : String) : Prop :=
  Relation.ReflTransGen (fun a b => resid g a b = true) s v

/-- The invariant of the `edmonds_karp` augmentation loop, relative to
the starting network `g0`: the structure (nodes, edges, capacities) is
unchanged, the stored flows form a valid flow of value `flow`, and no
flow enters the source. -/
structure EKInv (g0 g : Graph) (s t : String) (flow : Int) : Prop where
  names_eq : nodeNames g = nodeNames g0
  edge_eq : ∀ u v, hasEdge g u v = hasEdge g0 u v
  cp_eq : ∀ u v, cp g u v = cp g0 u v
  ndE : ∀ p ∈ g, (p.2.map Prod.fst).Nodup
  skew : ∀ u v, fl g u v = - fl g v u
  capb : ∀ u v, fl g u v ≤ cp g u v
  conserve : ∀ u ∈ V g0, u ≠ s → u ≠ t → ∑ v ∈ V g0, fl g u v = 0
  srcNonneg : ∀ v, 0 ≤ fl g s v
  val : ∑ v ∈ V g0, fl g s v = flow

/-- A saturated cut: a node set containing the source but not the sink
out of which no non-saturated edge leads. -/
def SatCut (g0 g : Graph) (s t : String) : Prop :=
  ∃ D : Finset String, D ⊆ V g0 ∧ s ∈ D ∧ t ∉ D ∧
    ∀ u ∈ D, ∀ v, v ∉ D → resid g u v = false

/-- The predecessor map built by the BFS is parent-chained: each recorded
predecessor is the source or the key of an earlier record. -/
def Chained (source : String) (pt : List (String × String)) : Prop :=
  ∀ i (h : i < pt.length), (pt.get ⟨i, h⟩).2 = source ∨
    (pt.get ⟨i, h⟩).2 ∈ (pt.take i).map Prod.fst

/-- Rank used to show that the predecessor walk of `pathNodes`
terminates: the source has rank 0 and a recorded node has one more than
its position. -/
def rank (source : String) (pt : List (String × String)) (x : String) : Nat :=
  if x = source then 0 else (pt.map Prod.fst).indexOf x + 1

/-- All ways to insert `a` into a list. -/
def inserts {α : Type} (a : α) : List α → List (List α)
  | [] => [[a]]
  | b :: t => (a :: b :: t) :: (inserts a t).map (b :: ·)

/-- All reorderings of a list (the classic insertion-based enumeration);
used to quantify over every possible hash-map iteration order. -/
def perms {α : Type} : List α → List (List α)
  | [] => [[]]
  | a :: rest => (perms rest).bind (inserts a)

/-- A concrete four-node input whose graph is the complete graph `K4`:
between any two nodes the max flow (= min cut) is 3, and the saturated
network separates the source alone from the other three nodes. -/
def k4 : List (String × List String) :=
  [("aa", ["bb", "cc", "dd"]), ("bb", ["cc", "dd"]), ("cc", ["dd"])]

/-- A node `ss` joined by three edges to a triangle `xa xb xc` and by
three edges to a four-clique `ya yb yc yd`: the min cut between `ss` and
any other node is 3, but the residual-reachable partition — hence the
returned product — depends on which sink the scan tries first. -/
def bad : List (String × List String) :=
  [("ss", ["xa", "xb", "xc", "ya", "yb", "yc"]),
   ("xa", ["xb", "xc"]), ("xb", ["xc"]),
   ("ya", ["yb", "yc", "yd"]), ("yb", ["yc", "yd"]), ("yc", ["yd"])]

/-- The graph built from `bad` with the `ya` entry moved to the second
position — the same node/edge map under a different key iteration
order. -/
def badPerm : Graph :=
  match graphNew bad with
  | a :: b :: c :: d :: e :: t => a :: e :: b :: c :: d :: t
  | l => l

end Day25

end AoC

/-! # Theorems -/

namespace AoC

/-- C1, counterexample: not every solver binary prints two numeric
answers — day 25 is a solver binary whose `main` invokes a single solve
function and prints exactly one answer (day25.rs lines 200-207). -/
theorem c1_counterexample :
    25 ∈ solverDays ∧ mainShape 25 = some .onePart ∧
      (mainShape 25).map MainShape.printedAnswers = some 1 := by
  decide

/-- C1 (amended): every solver binary except day 25 has a `main` that
invokes a part-1 solve function and a part-2 solve function and prints
each of the two results; day 25's `main` invokes one solve function and
prints a single result. -/
theorem c1_main_shapes (d : Nat) (hd : d ∈ solverDays) :
    mainShape d = some (if d = 25 then .onePart else .twoParts) ∧
      (mainShape d).map MainShape.printedAnswers = some (if d = 25 then 1 else 2) := by
  fin_cases hd <;> decide

/-- Witness for `c1_main_shapes` at day 3. -/
theorem c1_main_shapes_witness :
    mainShape 3 = some (if 3 = 25 then .onePart else .twoParts) ∧
      (mainShape 3).map MainShape.printedAnswers = some (if 3 = 25 then 1 else 2) :=
  c1_main_shapes 3 (by decide)

/-- C2, counterexample: day 24's solver uses no concurrency coordination
at all — its part 2 is not a brute-force search across parallel workers
(day24.rs has no thread, channel, lock or atomic use; `solve_part_2`
directly solves the linear system). -/
theorem c2_counterexample :
    24 ∈ solverDays ∧ usesConcurrency 24 = false ∧
      ∀ h0 h1 h2 rest, Day24.solve_part_2 (h0 :: h1 :: h2 :: rest) =
        (Day24.find_rock_position h0 h1 h2).map fun r => r.x + r.y + r.z :=
  ⟨by decide, by decide, fun _ _ _ _ => rfl⟩

/-- C2 (amended): no solver of the repository uses any concurrency
coordination; day 24 part 2 is a sequential computation that solves the
linear system built from the first three hailstones by Gauss-Jordan
elimination and back-substitution (`find_rock_position`). -/
theorem c2_no_concurrency (d : Nat) (hd : d ∈ solverDays) :
    usesConcurrency d = false ∧
      ∀ h0 h1 h2 rest, Day24.solve_part_2 (h0 :: h1 :: h2 :: rest) =
        (Day24.find_rock_position h0 h1 h2).map fun r => r.x + r.y + r.z := by
  refine ⟨?_, fun _ _ _ _ => rfl⟩
  fin_cases hd <;> decide

/-- Witness for `c2_no_concurrency` at day 24. -/
theorem c2_no_concurrency_witness :
    usesConcurrency 24 = false ∧
      ∀ h0 h1 h2 rest, Day24.solve_part_2 (h0 :: h1 :: h2 :: rest) =
        (Day24.find_rock_position h0 h1 h2).map fun r => r.x + r.y + r.z :=
  c2_no_concurrency 24 (by decide)

/-! ### Day 24 Gauss-Jordan (C4) -/

/-- C4, counterexample: the row operations `gauss_jordan` performs do not
preserve the solution set in `I64F64` arithmetic.  The system
`{2·x = 1, 3·x = 3/2}` (all values exactly representable) is solved by
`x = 1/2`, but after the elimination (one swap, one row subtraction whose
scale `2/3` truncates) the transformed system `{3·x = 3/2, 0·x = 2⁻⁶⁴}`
has no solution — the subtraction step changed the solution set. -/
theorem c4_counterexample :
    Day24.satFx [[Day24.fxOfInt 2, Day24.fxOfInt 1], [Day24.fxOfInt 3, 3 * 2 ^ 63]]
        [2 ^ 63] = true ∧
      Day24.satFx
        (Day24.gauss_jordan
          [[Day24.fxOfInt 2, Day24.fxOfInt 1], [Day24.fxOfInt 3, 3 * 2 ^ 63]])
        [2 ^ 63] = false := by
  constructor <;> decide

theorem day24_getRowQ_set (m : List (List ℚ)) (i : Nat) (r : List ℚ) (k : Nat)
    (hi : i < m.length) :
    Day24.getRowQ (m.set i r) k = if k = i then r else Day24.getRowQ m k := by
  unfold Day24.getRowQ
  by_cases h : k = i
  · subst h
    rw [if_pos rfl, List.getD_eq_getElem?_getD, List.getElem?_set_self]
    · simp
    · omega
  · rw [if_neg h, List.getD_eq_getElem?_getD, List.getElem?_set_ne (by omega),
      List.getD_eq_getElem?_getD]

theorem day24_satQ_iff_idx (m : List (List ℚ)) (x : List ℚ) :
    Day24.satQ m x ↔ ∀ k, k < m.length → Day24.rowSatQ (Day24.getRowQ m k) x := by
  constructor
  · intro h k hk
    apply h
    rw [Day24.getRowQ, List.getD_eq_getElem?_getD, List.getElem?_eq_getElem hk]
    exact List.getElem_mem hk
  · intro h row hrow
    obtain ⟨k, hk, hrow⟩ := List.mem_iff_getElem.mp hrow
    have := h k hk
    rwa [Day24.getRowQ, List.getD_eq_getElem?_getD, List.getElem?_eq_getElem hk,
      hrow] at this

theorem day24_updateRowQ_length (prow : List ℚ) (scale : ℚ) (row : List ℚ)
    (j k : Nat) : (Day24.updateRowQ prow scale row j k).length = row.length := by
  induction k generalizing row j with
  | zero => rfl
  | succ k ih => rw [Day24.updateRowQ, ih, List.length_set]

theorem day24_updateRowQ_getD (prow : List ℚ) (scale : ℚ) (row : List ℚ)
    (j k t : Nat) (hk : j + k ≤ row.length) :
    (Day24.updateRowQ prow scale row j k).getD t 0 =
      if j ≤ t ∧ t < j + k then row.getD t 0 - prow.getD t 0 * scale
      else row.getD t 0 := by
  induction k generalizing row j with
  | zero =>
    rw [Day24.updateRowQ]
    simp only [Nat.add_zero]
    rw [if_neg (by omega)]
  | succ k ih =>
    rw [Day24.updateRowQ, ih _ _ (by rw [List.length_set]; omega)]
    by_cases ht : t = j
    · subst ht
      rw [if_neg (by omega)]
      rw [if_pos ⟨Nat.le_refl t, by omega⟩]
      rw [List.getD_eq_getElem?_getD, List.getElem?_set_self (by omega)]
      simp
    · by_cases hrange : j + 1 ≤ t ∧ t < j + 1 + k
      · rw [if_pos hrange, if_pos (by omega)]
        rw [List.getD_eq_getElem?_getD, List.getElem?_set_ne (by omega)]
        simp only [List.getD_eq_getElem?_getD]
      · rw [if_neg hrange, if_neg (by omega)]
        rw [List.getD_eq_getElem?_getD, List.getElem?_set_ne (by omega)]
        simp only [List.getD_eq_getElem?_getD]

theorem day24_dotQ_eq_sum (a x : List ℚ) (h : x.length ≤ a.length) :
    Day24.dotQ a x = ∑ t ∈ Finset.range x.length, a.getD t 0 * x.getD t 0 := by
  induction x generalizing a with
  | nil => cases a <;> simp [Day24.dotQ]
  | cons v vs ih =>
    cases a with
    | nil => simp at h
    | cons b bs =>
      rw [Day24.dotQ, ih bs (by simpa using h), List.length_cons,
        Finset.sum_range_succ']
      simp [List.getD_cons_succ, List.getD_cons_zero]
      ring

/-- The updated row of `eliminateRowQ` is, entry by entry, the full
elementary row operation `row i - scale · row pr`, provided the pivot is
nonzero and both rows vanish left of the pivot column. -/
theorem day24_eliminateRowQ_row (m : List (List ℚ)) (pr pc i N : Nat)
    (hprN : (Day24.getRowQ m pr).length = N)
    (hiN : (Day24.getRowQ m i).length = N)
    (hpcN : pc < N)
    (hpiv : Day24.getEntryQ m pr pc ≠ 0)
    (hzero : ∀ c, c < pc → Day24.getEntryQ m pr c = 0 ∧ Day24.getEntryQ m i c = 0)
    (t : Nat) :
    (Day24.updateRowQ (Day24.getRowQ m pr)
        (Day24.getEntryQ m i pc / Day24.getEntryQ m pr pc)
        ((Day24.getRowQ m i).set pc 0) (pc + 1) (N - (pc + 1))).getD t 0 =
      (Day24.getRowQ m i).getD t 0 -
        (Day24.getRowQ m pr).getD t 0 *
          (Day24.getEntryQ m i pc / Day24.getEntryQ m pr pc) := by
  have hlen : pc + 1 + (N - (pc + 1)) ≤ ((Day24.getRowQ m i).set pc 0).length := by
    rw [List.length_set, hiN]; omega
  rw [day24_updateRowQ_getD _ _ _ _ _ _ hlen]
  by_cases h1 : pc + 1 ≤ t ∧ t < pc + 1 + (N - (pc + 1))
  · rw [if_pos h1]
    rw [List.getD_eq_getElem?_getD ((Day24.getRowQ m i).set pc 0),
      List.getElem?_set_ne (by omega)]
    simp only [List.getD_eq_getElem?_getD]
  · rw [if_neg h1]
    by_cases ht : t = pc
    · subst ht
      simp only [Day24.getEntryQ] at hpiv ⊢
      have h0 : (Day24.getRowQ m i).getD t 0 -
          (Day24.getRowQ m pr).getD t 0 *
            ((Day24.getRowQ m i).getD t 0 / (Day24.getRowQ m pr).getD t 0) = 0 := by
        rw [mul_comm, div_mul_cancel₀ _ hpiv, sub_self]
      rw [List.getD_eq_getElem?_getD ((Day24.getRowQ m i).set t 0),
        List.getElem?_set_self (by omega)]
      simp only [Option.getD_some]
      exact h0.symm
    · by_cases htN : t < N
      · have htpc : t < pc := by omega
        obtain ⟨hz1, hz2⟩ := hzero t htpc
        simp only [Day24.getEntryQ] at hz1 hz2
        rw [List.getD_eq_getElem?_getD ((Day24.getRowQ m i).set pc 0),
          List.getElem?_set_ne (by omega), ← List.getD_eq_getElem?_getD, hz1, hz2]
        ring
      · have g1 : ((Day24.getRowQ m i).set pc 0).getD t 0 = 0 := by
          apply List.getD_eq_default
          rw [List.length_set, hiN]; omega
        have g2 : (Day24.getRowQ m i).getD t 0 = 0 := by
          apply List.getD_eq_default; rw [hiN]; omega
        have g3 : (Day24.getRowQ m pr).getD t 0 = 0 := by
          apply List.getD_eq_default; rw [hprN]; omega
        rw [g1, g2, g3]
        ring

/-- C4 (amended): over exact rational arithmetic the elementary row
operations performed by `gauss_jordan` do preserve the solution set of the
represented linear system — any row swap, and the row-subtraction update
whenever the pivot entry is nonzero and both involved rows vanish left of
the pivot column (as the elimination's own invariant provides); in the
`I64F64` fixed-point arithmetic the code actually uses, the truncating
subtraction step can change the solution set (see the counterexample), so
back-substitution is only guaranteed against the rounded system. -/
theorem c4_exact_row_ops :
    (∀ (m : List (List ℚ)) (a b : Nat) (x : List ℚ), a < m.length → b < m.length →
      (Day24.satQ (Day24.swapRowsQ m a b) x ↔ Day24.satQ m x)) ∧
    ∀ (m : List (List ℚ)) (pr pc i : Nat) (x : List ℚ),
      pr < i → i < m.length →
      (Day24.getRowQ m pr).length = x.length + 1 →
      (Day24.getRowQ m i).length = x.length + 1 →
      pc < x.length + 1 →
      Day24.getEntryQ m pr pc ≠ 0 →
      (∀ c, c < pc → Day24.getEntryQ m pr c = 0 ∧ Day24.getEntryQ m i c = 0) →
      (Day24.satQ (Day24.eliminateRowQ m pr pc i (x.length + 1)) x ↔
        Day24.satQ m x) := by
  constructor
  · intro m a b x ha hb
    rw [day24_satQ_iff_idx, day24_satQ_iff_idx]
    have hlen : (Day24.swapRowsQ m a b).length = m.length := by
      unfold Day24.swapRowsQ
      simp
    have hrow : ∀ k, k < m.length →
        Day24.getRowQ (Day24.swapRowsQ m a b) k =
          Day24.getRowQ m (if k = b then a else if k = a then b else k) := by
      intro k hk
      unfold Day24.swapRowsQ
      rw [day24_getRowQ_set _ _ _ _ (by simpa using hb)]
      by_cases hkb : k = b
      · simp [hkb]
      · rw [if_neg hkb, day24_getRowQ_set _ _ _ _ ha, if_neg hkb]
        by_cases hka : k = a <;> simp [hka]
    constructor
    · intro h k hk
      have hswap : (if k = a then b else if k = b then a else k) < m.length := by
        split_ifs <;> omega
      have := h (if k = a then b else if k = b then a else k) (by rwa [hlen])
      rw [hrow _ hswap] at this
      by_cases hka : k = a <;> by_cases hkb : k = b <;>
        simp only [hka, hkb, if_pos, if_neg, ite_true, ite_false] at this ⊢ <;>
        simp_all
    · intro h k hk
      rw [hlen] at hk
      rw [hrow _ hk]
      apply h
      split_ifs <;> omega
  · intro m pr pc i x hpri hi hprN hiN hpcN hpiv hzero
    have hprlt : pr < m.length := lt_trans hpri hi
    have hrowchar := day24_eliminateRowQ_row m pr pc i (x.length + 1) hprN hiN
      hpcN hpiv hzero
    set scale := Day24.getEntryQ m i pc / Day24.getEntryQ m pr pc with hscale
    set newRow := Day24.updateRowQ (Day24.getRowQ m pr) scale
      ((Day24.getRowQ m i).set pc 0) (pc + 1) (x.length + 1 - (pc + 1)) with hnew
    have hnewlen : newRow.length = x.length + 1 := by
      rw [hnew, day24_updateRowQ_length, List.length_set, hiN]
    have hdotnew : Day24.dotQ newRow x =
        Day24.dotQ (Day24.getRowQ m i) x - scale * Day24.dotQ (Day24.getRowQ m pr) x := by
      rw [day24_dotQ_eq_sum _ _ (by omega), day24_dotQ_eq_sum _ _ (by omega),
        day24_dotQ_eq_sum _ _ (by omega), Finset.mul_sum, ← Finset.sum_sub_distrib]
      apply Finset.sum_congr rfl
      intro t _
      rw [hrowchar t]
      ring
    have hrhsnew : newRow.getD x.length 0 =
        (Day24.getRowQ m i).getD x.length 0 -
          scale * (Day24.getRowQ m pr).getD x.length 0 := by
      rw [hrowchar x.length]
      ring
    have hsetrow : ∀ k, k < m.length →
        Day24.getRowQ (Day24.eliminateRowQ m pr pc i (x.length + 1)) k =
          if k = i then newRow else Day24.getRowQ m k := by
      intro k hk
      unfold Day24.eliminateRowQ
      rw [day24_getRowQ_set _ _ _ _ hi]
    have hellen : (Day24.eliminateRowQ m pr pc i (x.length + 1)).length = m.length := by
      unfold Day24.eliminateRowQ
      rw [List.length_set]
    rw [day24_satQ_iff_idx, day24_satQ_iff_idx]
    constructor
    · intro h k hk
      have hprSat := h pr (by omega)
      rw [hsetrow pr (by omega), if_neg (by omega)] at hprSat
      by_cases hki : k = i
      · subst hki
        have hkSat := h k (by omega)
        rw [hsetrow k (by omega), if_pos rfl] at hkSat
        unfold Day24.rowSatQ at hkSat hprSat ⊢
        rw [hdotnew, hrhsnew, hprSat] at hkSat
        linarith
      · have hkSat := h k (by omega)
        rwa [hsetrow k (by omega), if_neg hki] at hkSat
    · intro h k hk
      rw [hellen] at hk
      rw [hsetrow k hk]
      by_cases hki : k = i
      · subst hki
        have hkSat := h k hk
        have hprSat := h pr hprlt
        rw [if_pos rfl]
        unfold Day24.rowSatQ at hkSat hprSat ⊢
        rw [hdotnew, hrhsnew, hkSat, hprSat]
      · rw [if_neg hki]
        exact h k hk

/-- Witness for `c4_exact_row_ops`: both row operations on the concrete
system `{x = 2, 3·x = 4}`. -/
theorem c4_exact_row_ops_witness :
    (Day24.satQ (Day24.swapRowsQ [[1, 2], [3, 4]] 0 1) [5] ↔
      Day24.satQ [[1, 2], [3, 4]] [5]) ∧
    (Day24.satQ (Day24.eliminateRowQ [[1, 2], [3, 4]] 0 0 1 2) [5] ↔
      Day24.satQ [[1, 2], [3, 4]] [5]) :=
  ⟨c4_exact_row_ops.1 [[1, 2], [3, 4]] 0 1 [5] (by decide) (by decide),
   c4_exact_row_ops.2 [[1, 2], [3, 4]] 0 0 1 [5] (by decide) (by decide)
     (by decide) (by decide) (by decide)
     (by norm_num [Day24.getEntryQ, Day24.getRowQ])
     (fun c hc => absurd hc (Nat.not_lt_zero c))⟩

/-! ### Day 18 scanner (C6) -/

/-- C6, counterexample: on the closed, non-self-intersecting rectilinear
loop `zigzagLoop` the scanner returns 9 cells, while the loop covers 10
cells (as the shoelace formula plus half the perimeter plus one also
says) — the scanner undercounts this simple loop by one. -/
theorem c6_counterexample :
    Day18.solveLines Day18.zigzagLoop .Normal = some 9 ∧
      Day18.specCellCount (Day18.decodedMoves Day18.zigzagLoop .Normal) = 10 := by
  constructor <;> rfl

theorem day18_rect_convert (w h : Int) (hw : 1 ≤ w) (hh : 1 ≤ h) :
    Day18.convert_to_vertical_lines (Day18.rectLoop w h) .Normal =
      [⟨0, h, w, .Down⟩, ⟨0, h, 0, .Up⟩] := by
  simp only [Day18.rectLoop, Day18.convert_to_vertical_lines, Day18.convertWalk,
    Day18.mkLine, Day18.directionAndDistance, Day18.Direction.diDj]
  split_ifs with hA hB hC hD <;> try omega
  all_goals
    simp only [List.cons.injEq, Day18.VerticalLine.mk.injEq, and_true, true_and,
      List.nil_eq, and_imp]
  all_goals omega

theorem day18_rect_lines (w h : Int) (hw : 1 ≤ w) (hh : 1 ≤ h) :
    Day18.sortLines
        (Day18.convert_to_vertical_lines (Day18.rectLoop w h) .Normal) =
      [⟨0, h, 0, .Up⟩, ⟨0, h, w, .Down⟩] := by
  rw [day18_rect_convert w h hw hh]
  have hle : Day18.lineLE ⟨0, h, 0, .Up⟩ ⟨0, h, w, .Down⟩ = true := by
    simp only [Day18.lineLE, Bool.or_eq_true, decide_eq_true_eq]
    left
    omega
  simp [Day18.sortLines, Day18.insertLine, hle]

/-- C6 (amended): the definitional halves of the claim hold —
`solve_part_1` and `solve_part_2` run the same scanner on the normal and
hex decodings respectively — and the scanner is correct on every
axis-aligned rectangle loop, where it returns `(w+1)*(h+1)` cells, the
value of the shoelace formula plus half the perimeter plus one; but the
scanner is not correct for every closed non-self-intersecting rectilinear
loop (see the counterexample, which it undercounts). -/
theorem c6_rectangles (w h : Int) (hw : 1 ≤ w) (hh : 1 ≤ h) :
    Day18.solve_part_1 (Day18.rectLoop w h) = some ((w + 1) * (h + 1)) ∧
    Day18.specCellCount (Day18.decodedMoves (Day18.rectLoop w h) .Normal) =
      (w + 1) * (h + 1) ∧
    ∀ input, Day18.solve_part_1 input = Day18.solveLines input .Normal ∧
      Day18.solve_part_2 input = Day18.solveLines input .Hex := by
  have hU : ((⟨0, h, 0, .Up⟩ : Day18.VerticalLine)).j = 0 := rfl
  refine ⟨?_, ?_, fun _ => ⟨rfl, rfl⟩⟩
  · show Day18.solveLines (Day18.rectLoop w h) .Normal = _
    rw [Day18.solveLines]
    rw [day18_rect_lines w h hw hh]
    have hminI : (min (min 9223372036854775807 (0 : Int)) 0) = 0 := by omega
    have hmaxI : (max (max (-9223372036854775808) h) h) = h := by omega
    have hminJ : (min (min 9223372036854775807 (0 : Int)) w) = 0 := by omega
    have hfnl1 : Day18.find_next_line
        [⟨0, h, 0, .Up⟩, ⟨0, h, w, .Down⟩] 0 h 0 = some (0, ⟨0, h, 0, .Up⟩) := by
      rw [Day18.find_next_line]
      rw [Day18.find_next_line.go]
      dsimp only
      rw [if_pos ⟨by omega, Or.inl ⟨by omega, by omega⟩⟩]
    have hfnl2 : Day18.find_next_line [(⟨0, h, w, .Down⟩ : Day18.VerticalLine)]
        0 0 (0 + 1) = some (0, ⟨0, h, w, .Down⟩) := by
      rw [Day18.find_next_line]
      rw [Day18.find_next_line.go]
      dsimp only
      rw [if_pos ⟨by omega, Or.inr (Or.inl ⟨by omega, by omega⟩)⟩]
    have hfnl3 : Day18.find_next_line [(⟨0, h, w, .Down⟩ : Day18.VerticalLine)]
        0 0 (w + 1) = none := by
      rw [Day18.find_next_line]
      rw [Day18.find_next_line.go]
      dsimp only
      rw [if_neg (by rintro ⟨h1, -⟩; omega), Day18.find_next_line.go]
    have hfnl6 : Day18.find_next_line [(⟨0, h, w, .Down⟩ : Day18.VerticalLine)]
        h h (0 + 1) = some (0, ⟨0, h, w, .Down⟩) := by
      rw [Day18.find_next_line]
      rw [Day18.find_next_line.go]
      dsimp only
      rw [if_pos ⟨by omega, Or.inr (Or.inl ⟨by omega, by omega⟩)⟩]
    have hfnl7 : Day18.find_next_line [(⟨0, h, w, .Down⟩ : Day18.VerticalLine)]
        h h (w + 1) = none := by
      rw [Day18.find_next_line]
      rw [Day18.find_next_line.go]
      dsimp only
      rw [if_neg (by rintro ⟨h1, -⟩; omega), Day18.find_next_line.go]
    have hprEmpty : ∀ f a b c, Day18.process_range (f + 1) [] a b c false = some 0 := by
      intro f a b c
      rw [Day18.process_range]
      rfl
    have hpr3 : ∀ f, Day18.process_range (f + 1)
        [(⟨0, h, w, .Down⟩ : Day18.VerticalLine)] 0 0 (w + 1) false = some 0 := by
      intro f
      rw [Day18.process_range, hfnl3]
      rfl
    have hpr7 : ∀ f, Day18.process_range (f + 1)
        [(⟨0, h, w, .Down⟩ : Day18.VerticalLine)] h h (w + 1) false = some 0 := by
      intro f
      rw [Day18.process_range, hfnl7]
      rfl
    have hphTop : ∀ f, Day18.process_horizontal_line (f + 2)
        [⟨0, h, 0, .Up⟩, ⟨0, h, w, .Down⟩] 0 0 false = some (w + 1) := by
      intro f
      rw [Day18.process_horizontal_line, hfnl2]
      have hdir : ((⟨0, h, 0, .Up⟩ : Day18.VerticalLine).direction =
          (⟨0, h, w, .Down⟩ : Day18.VerticalLine).direction) = False := by
        simp
      simp only [List.drop_succ_cons, List.drop_zero, hdir, if_false, hpr3 f,
        Option.bind_eq_bind, Option.some_bind]
      show some (w - 0 + 1 + 0) = some (w + 1)
      norm_num
    have hphBot : ∀ f, Day18.process_horizontal_line (f + 2)
        [⟨0, h, 0, .Up⟩, ⟨0, h, w, .Down⟩] h 0 false = some (w + 1) := by
      intro f
      rw [Day18.process_horizontal_line, hfnl6]
      have hdir : ((⟨0, h, 0, .Up⟩ : Day18.VerticalLine).direction =
          (⟨0, h, w, .Down⟩ : Day18.VerticalLine).direction) = False := by
        simp
      simp only [List.drop_succ_cons, List.drop_zero, hdir, if_false, hpr7 f,
        Option.bind_eq_bind, Option.some_bind]
      show some (w - 0 + 1 + 0) = some (w + 1)
      norm_num
    have hph5top : Day18.process_horizontal_line 5
        [⟨0, h, 0, .Up⟩, ⟨0, h, w, .Down⟩] 0 0 false = some (w + 1) := by
      have := hphTop 3
      norm_num at this
      exact this
    have hph5bot : Day18.process_horizontal_line 5
        [⟨0, h, 0, .Up⟩, ⟨0, h, w, .Down⟩] h 0 false = some (w + 1) := by
      have := hphBot 3
      norm_num at this
      exact this
    show Day18.process_range (2 * List.length [(⟨0, h, 0, .Up⟩ : Day18.VerticalLine),
        ⟨0, h, w, .Down⟩] + 2) [⟨0, h, 0, .Up⟩, ⟨0, h, w, .Down⟩]
        (9223372036854775807 ⊓ 0 ⊓ 0) (-9223372036854775808 ⊔ h ⊔ h)
        (9223372036854775807 ⊓ 0 ⊓ w) false = some ((w + 1) * (h + 1))
    rw [hminI, hmaxI, hminJ]
    show Day18.process_range (5 + 1) _ _ _ _ _ = _
    rw [Day18.process_range, hfnl1]
    dsimp only
    have hprE4 : ∀ a b c : Int, Day18.process_range 4 [] a b c false = some 0 := by
      intro a b c
      have := hprEmpty 3 a b c
      norm_num at this
      exact this
    rcases (by omega : h = 1 ∨ 2 ≤ h) with rfl | h2
    · have hcn : ¬((0 : Int) < 0 ⊔ (0 + 1) ∧ (0 : Int) ≤ 0 ⊔ (0 + 1) ∧
          (1 : Int) ⊓ (1 - 1) < 1 ∧ (1 : Int) ⊓ (1 - 1) ≤ 1 ∧
          (0 : Int) ⊔ (0 + 1) ≤ 1 ⊓ (1 - 1)) := by omega
      simp only [List.drop_zero, List.drop_succ_cons, hph5top, hph5bot, hcn,
        Option.bind_eq_bind, Option.some_bind, Option.pure_def, le_refl,
        lt_self_iff_false, if_true, if_false, gt_iff_lt, ge_iff_le,
        Bool.false_eq_true, ite_true, ite_false]
      norm_num
      ring
    · have hcp : ((0 : Int) < 0 ⊔ (0 + 1) ∧ (0 : Int) ≤ 0 ⊔ (0 + 1) ∧
          h ⊓ (h - 1) < h ∧ h ⊓ (h - 1) ≤ h ∧ (0 : Int) ⊔ (0 + 1) ≤ h ⊓ (h - 1)) := by
        refine ⟨?_, ?_, ?_, ?_, ?_⟩ <;> omega
      have hfnl4 : Day18.find_next_line [(⟨0, h, w, .Down⟩ : Day18.VerticalLine)]
          (0 ⊔ (0 + 1)) (h ⊓ (h - 1)) (0 + 1) = some (0, ⟨0, h, w, .Down⟩) := by
        rw [Day18.find_next_line]
        rw [Day18.find_next_line.go]
        dsimp only
        rw [if_pos ⟨by omega, Or.inr (Or.inl ⟨by omega, by omega⟩)⟩]
      have hprInner : Day18.process_range 5
          [(⟨0, h, w, .Down⟩ : Day18.VerticalLine)] (0 ⊔ (0 + 1)) (h ⊓ (h - 1))
          (0 + 1) true = some ((h - 1) + (w - 1) * (h - 1)) := by
        show Day18.process_range (4 + 1) _ _ _ _ _ = _
        rw [Day18.process_range, hfnl4]
        dsimp only
        have ha : ¬(0 ⊔ (0 + 1) < (0 : Int)) := by omega
        have hb : ¬(0 ⊔ (0 + 1) ≤ (0 : Int)) := by omega
        have hc : ((0 : Int) < 0 ⊔ (0 + 1) ⊔ (0 + 1) ∧ 0 ⊔ (0 + 1) ≤ 0 ⊔ (0 + 1) ⊔ (0 + 1) ∧
            h ⊓ (h - 1) ⊓ (h - 1) < h ∧ h ⊓ (h - 1) ⊓ (h - 1) ≤ h ⊓ (h - 1) ∧
            0 ⊔ (0 + 1) ⊔ (0 + 1) ≤ h ⊓ (h - 1) ⊓ (h - 1)) := by
          refine ⟨?_, ?_, ?_, ?_, ?_⟩ <;> omega
        have hd : ¬(h ⊓ (h - 1) ≥ h) := by omega
        have he : ¬(h ⊓ (h - 1) > h) := by omega
        simp only [ha, hb, hc, hd, he, List.drop_succ_cons, List.drop_nil,
          Bool.not_true, hprE4, Option.bind_eq_bind, Option.some_bind,
          Option.pure_def, if_true, if_false, ite_true, ite_false,
          Bool.true_eq_false, gt_iff_lt, ge_iff_le]
        have e1 : h ⊓ (h - 1) = h - 1 := by omega
        have e2 : (0 : Int) ⊔ (0 + 1) ⊔ (0 + 1) = 1 := by omega
        have e3 : (0 : Int) ⊔ (0 + 1) = 1 := by omega
        have e4 : (h - 1) ⊓ (h - 1) = h - 1 := by omega
        have e5 : (1 : Int) ⊔ 1 = 1 := by omega
        have e7 : (1 : Int) ⊔ (0 + 1) = 1 := by omega
        simp only [e1, e2, e3, e4, e5, e7]
        rw [if_pos (by norm_num)]
        congr 1
        ring
      simp only [List.drop_zero, List.drop_succ_cons, hph5top, hph5bot, hcp,
        Bool.not_false, hprInner, Option.bind_eq_bind, Option.some_bind,
        Option.pure_def, le_refl, lt_self_iff_false, if_true, if_false,
        gt_iff_lt, ge_iff_le, Bool.false_eq_true, ite_true, ite_false]
      have e1 : h ⊓ (h - 1) = h - 1 := by omega
      have e2 : (0 : Int) ⊔ (0 + 1) = 1 := by omega
      simp only [e1, e2]
      rw [if_pos (by norm_num)]
      congr 1
      ring
  · simp only [Day18.specCellCount, Day18.decodedMoves, Day18.rectLoop,
      Day18.mkLine, Day18.directionAndDistance, Day18.Direction.diDj,
      Day18.traceVertices, Day18.shoelace2, List.map_cons, List.map_nil,
      List.sum_cons, List.sum_nil]
    have hw0 : |w| = w := abs_of_nonneg (by omega)
    have hh0 : |h| = h := abs_of_nonneg (by omega)
    rw [hw0, hh0]
    ring_nf
    rw [abs_neg, abs_of_nonneg (by positivity : (0 : Int) ≤ w * h * 2)]
    have d1 : (w * h * 2) / 2 = w * h := by omega
    have d2 : (w * 2 + h * 2) / 2 = w + h := by omega
    rw [d1, d2]
    ring

/-- Witness for `c6_rectangles` at the 3×2 rectangle. -/
theorem c6_rectangles_witness :
    Day18.solve_part_1 (Day18.rectLoop 3 2) = some ((3 + 1) * (2 + 1)) ∧
    Day18.specCellCount (Day18.decodedMoves (Day18.rectLoop 3 2) .Normal) =
      (3 + 1) * (2 + 1) ∧
    ∀ input, Day18.solve_part_1 input = Day18.solveLines input .Normal ∧
      Day18.solve_part_2 input = Day18.solveLines input .Hex :=
  c6_rectangles 3 2 (by norm_num) (by norm_num)

/-! ### Day 21 step counting (C5) -/

/-- C5, counterexample: on the all-garden 3×3 map (outermost rows and
columns rock-free) with the start at `(0, 1)` and 3 steps, the
step-expansion trick returns 14 while the direct breadth-first search
over the tiled grid reaches 16 positions. -/
theorem c5_counterexample :
    Day21.solve_part_2_inner Day21.empty3 (0, 1) 3 10 50 = some 14 ∧
      Day21.naiveCount Day21.empty3 (0, 1) 3 = 16 := by
  constructor
  · rfl
  · rfl

theorem day21_tiledGarden_one (p : ℤ × ℤ) :
    Day21.tiledGarden Day21.one1 p = true := by
  have hm : ∀ a : ℤ, a.emod 1 = 0 := fun a => Int.emod_one a
  simp only [Day21.tiledGarden, Day21.one1, List.length_cons, List.length_nil,
    Nat.cast_one, zero_add, hm, decide_eq_true_eq]
  rfl

theorem day21_mem_diamond (n : Nat) (x y : ℤ) :
    (x, y) ∈ Day21.diamond n ↔
      x.natAbs + y.natAbs ≤ n ∧ (x + y + n) % 2 = 0 := by
  unfold Day21.diamond
  simp only [Finset.mem_image, Finset.mem_product, Finset.mem_range, Prod.exists,
    Prod.mk.injEq]
  constructor
  · rintro ⟨a, b, ⟨ha, hb⟩, rfl, rfl⟩
    omega
  · rintro ⟨habs, hpar⟩
    refine ⟨((x + y + n) / 2).toNat, ((x - y + n) / 2).toNat, ⟨?_, ?_⟩, ?_, ?_⟩ <;>
      omega

theorem day21_iter_diamond (n : Nat) :
    (fun s => Day21.naiveStep Day21.one1 s)^[n] {((0 : ℤ), (0 : ℤ))} =
      Day21.diamond n := by
  induction n with
  | zero =>
    ext ⟨x, y⟩
    rw [Function.iterate_zero, id_eq, day21_mem_diamond, Finset.mem_singleton,
      Prod.mk.injEq]
    omega
  | succ n ih =>
    rw [Function.iterate_succ_apply', ih]
    ext ⟨x, y⟩
    rw [day21_mem_diamond]
    unfold Day21.naiveStep
    simp only [Finset.mem_biUnion, Finset.mem_filter, Finset.mem_insert,
      Finset.mem_singleton, day21_tiledGarden_one, and_true, Prod.exists,
      Prod.mk.injEq]
    constructor
    · rintro ⟨qx, qy, hq, hmem⟩
      rw [day21_mem_diamond] at hq
      rcases hmem with ⟨rfl, rfl⟩ | ⟨rfl, rfl⟩ | ⟨rfl, rfl⟩ | ⟨rfl, rfl⟩ <;> omega
    · rintro ⟨habs, hpar⟩
      rcases lt_trichotomy x 0 with hx | hx | hx
      · exact ⟨x + 1, y, by rw [day21_mem_diamond]; omega, Or.inl ⟨by omega, rfl⟩⟩
      · rcases lt_trichotomy y 0 with hy | hy | hy
        · exact ⟨x, y + 1, by rw [day21_mem_diamond]; omega,
            Or.inr (Or.inr (Or.inl ⟨rfl, by omega⟩))⟩
        · refine ⟨1, 0, by rw [day21_mem_diamond]; omega, Or.inl ⟨by omega, by omega⟩⟩
        · exact ⟨x, y - 1, by rw [day21_mem_diamond]; omega,
            Or.inr (Or.inr (Or.inr ⟨rfl, by omega⟩))⟩
      · exact ⟨x - 1, y, by rw [day21_mem_diamond]; omega,
          Or.inr (Or.inl ⟨by omega, rfl⟩)⟩

theorem day21_naive_one (n : Nat) :
    Day21.naiveCount Day21.one1 (0, 0) n = (n + 1) ^ 2 := by
  unfold Day21.naiveCount
  rw [day21_iter_diamond]
  unfold Day21.diamond
  rw [Finset.card_image_of_injective _ (by
    rintro ⟨a, b⟩ ⟨c, d⟩ hab
    simp only [Prod.mk.injEq] at hab ⊢
    omega)]
  rw [Finset.card_product, Finset.card_range]
  ring

theorem day21_bfs_one0 (f : Nat) :
    Day21.build_step_map Day21.one1 [⟨0, 0, 0⟩] (f + 2) = some ([[0]], 0) := by
  show Day21.bfsLoop Day21.one1 1 (f + 1 + 1) [(0, 0, 0)] [[Day21.U64MAX]] 0 = _
  rw [Day21.bfsLoop]
  norm_num [Day21.getStep, Day21.U64MAX, Day21.setStep, Day21.tryPush]
  rw [Day21.bfsLoop]

theorem day21_cp_one (s L md : Nat) :
    Day21.count_positions [[s]] L md =
      if s ≤ L ∧ s % 2 = md then 1 else 0 := by
  unfold Day21.count_positions
  by_cases h1 : s ≤ L <;> by_cases h2 : s % 2 = md <;>
    simp [List.filter_cons, h1, h2]

theorem day21_fullBlocks_one (out md : Nat) (hmd : md < 2) :
    Day21.fullBlocks 1 1 0 out md =
      if md = 0 then out / 2 + 1 else (out + 1) / 2 := by
  induction out generalizing md with
  | zero =>
    rcases (by omega : md = 0 ∨ md = 1) with rfl | rfl <;>
      simp [Day21.fullBlocks]
  | succ o ih =>
    rw [Day21.fullBlocks, ih ((md + 1) % 2) (by omega)]
    rcases (by omega : md = 0 ∨ md = 1) with rfl | rfl <;> norm_num <;> omega

theorem day21_cornerFull_one (m md : Nat) (hmd : md < 2) :
    Day21.cornerFull 1 1 0 m md =
      if (m + md) % 2 = 0 then (m / 2) * (m / 2 + 1) else ((m + 1) / 2) ^ 2 := by
  induction m generalizing md with
  | zero =>
    rcases (by omega : md = 0 ∨ md = 1) with rfl | rfl <;>
      simp [Day21.cornerFull]
  | succ o ih =>
    rw [Day21.cornerFull, ih ((md + 1) % 2) (by omega)]
    obtain ⟨k, hk | hk⟩ := Nat.even_or_odd' o <;> subst hk <;>
      rcases (by omega : md = 0 ∨ md = 1) with rfl | rfl <;>
      (have e1 : (2 * k) / 2 = k := by omega
       have e2 : (2 * k + 1) / 2 = k := by omega
       have e3 : (2 * k + 1 + 1) / 2 = k + 1 := by omega
       have e4 : (2 * k + 1 + 1 + 1) / 2 = k + 1 := by omega
       split_ifs <;>
         first
           | (exfalso; assumption)
           | (exfalso; omega)
           | (simp only [e1, e2, e3, e4]; ring))

theorem day21_celLoop_one (rem out md : Nat) :
    Day21.celLoop [[0]] 0 1 rem 1 0 out md = Day21.fullBlocks 1 1 0 out md := by
  cases out <;> (rw [Day21.celLoop]; rw [if_pos (Nat.zero_le _)])

theorem day21_cel_one (rem md b : Nat) :
    Day21.count_edge_loop Day21.one1 [⟨0, 0, 0⟩] rem md (b + 2) =
      some (Day21.fullBlocks 1 1 0 rem ((md + rem) % 2)) := by
  unfold Day21.count_edge_loop
  rw [day21_bfs_one0]
  simp only [Option.bind_eq_bind, Option.some_bind,
    show Day21.one1.length = 1 from rfl, Nat.div_one, Nat.mul_one]
  rw [day21_cp_one, day21_cp_one]
  norm_num
  rw [day21_celLoop_one]

theorem day21_wsub_one (md : Nat) (hmd : md < 2) :
    Day21.wsub md 1 % 2 = (md + 1) % 2 := by
  rcases (by omega : md = 0 ∨ md = 1) with rfl | rfl <;> rfl

theorem day21_ceLoop_one (F : List (List Nat) → List Day21.StartPosition)
    (hF : F [[0]] = [⟨0, 0, 1⟩]) (f rem md b : Nat) (hmd : md < 2) :
    Day21.ceLoop Day21.one1 F (b + 2) (f + 1) [⟨0, 0, 0⟩] rem md =
      some ((if md = 0 then 1 else 0) +
        if rem = 0 then 0 else
          Day21.fullBlocks 1 1 0 (rem - 1) ((md + rem) % 2)) := by
  rw [Day21.ceLoop]
  rw [day21_bfs_one0]
  simp only [Option.bind_eq_bind, Option.some_bind, hF]
  rw [day21_cp_one]
  have hms : Day21.minStep [⟨0, 0, 1⟩] = 1 := rfl
  rw [hms]
  have hcp : (0 ≤ rem ∧ 0 % 2 = md) = (md = 0) := by
    simp only [Nat.zero_le, true_and, Nat.zero_mod, eq_comm]
  rcases Nat.eq_zero_or_pos rem with rfl | hrem
  · rw [if_pos (by omega)]
    rcases (by omega : md = 0 ∨ md = 1) with rfl | rfl <;> rfl
  · rw [if_neg (by omega)]
    have hnorm : Day21.normalize [⟨0, 0, 1⟩] 1 = [⟨0, 0, 0⟩] := rfl
    rw [hnorm, if_pos rfl, day21_wsub_one md hmd, day21_cel_one]
    simp only [Option.bind_eq_bind, Option.some_bind, hcp]
    rw [if_neg (show ¬rem = 0 from by omega)]
    rw [show ((md + 1) % 2 + (rem - 1)) % 2 = (md + rem) % 2 from by omega]
    rfl

theorem day21_count_edge_one (F : List (List Nat) → List Day21.StartPosition)
    (hF : F [[0]] = [⟨0, 0, 1⟩]) (f target b : Nat) :
    Day21.count_edge Day21.one1 [[0]] target F (f + 1) (b + 2) =
      some (if target = 0 then 0 else
        (if (target - 1) % 2 = 0 then 1 else 0) +
          if target = 1 then 0 else
            Day21.fullBlocks 1 1 0 (target - 2) 0) := by
  unfold Day21.count_edge
  rw [hF]
  dsimp only
  have hms : Day21.minStep [⟨0, 0, 1⟩] = 1 := rfl
  rw [hms]
  rcases Nat.eq_zero_or_pos target with rfl | htgt
  · rw [if_pos (by omega)]
    norm_num
  · rw [if_neg (by omega)]
    have hnorm : Day21.normalize [⟨0, 0, 1⟩] 1 = [⟨0, 0, 0⟩] := rfl
    rw [hnorm, day21_ceLoop_one F hF f (target - 1) ((target - 1) % 2) b (by omega)]
    rw [show ((target - 1) % 2 + (target - 1)) % 2 = 0 from by omega,
      show target - 1 - 1 = target - 2 from by omega]
    rw [if_neg (show ¬target = 0 from by omega)]
    congr 2
    by_cases h1 : target = 1
    · subst h1; rfl
    · rw [if_neg (show ¬target - 1 = 0 from by omega), if_neg h1]

theorem day21_ccLoop_one (cs md b : Nat) :
    Day21.ccLoop Day21.one1 0 0 cs 1 1 0 (b + 2) (cs + 1) md =
      some (Day21.cornerFull 1 1 0 (cs + 1) md) := by
  rw [Day21.ccLoop]
  rw [day21_bfs_one0]
  simp only [Option.bind_eq_bind, Option.some_bind]
  rw [if_pos (by omega)]
  rfl

theorem day21_count_corner_one (target b : Nat) :
    Day21.count_corner Day21.one1 [[0]] target 0 0 (b + 2) =
      some (if target < 2 then 0 else Day21.cornerFull 1 1 0 (target - 1) 0) := by
  unfold Day21.count_corner
  simp only [show Day21.one1.length = 1 from rfl]
  have hd : (Day21.getStep [[0]] (1 - 1 - 0) (1 - 1 - 0) + 2) % 2 ^ 64 = 2 := by
    norm_num [Day21.getStep]
  rw [hd]
  rcases Nat.lt_or_ge target 2 with h2 | h2
  · rw [if_pos (by omega), if_pos h2]
  · rw [if_neg (by omega), if_neg (by omega)]
    rw [day21_cp_one, day21_cp_one]
    norm_num
    rw [show (target - (target - 2)) % 2 = 0 from by omega,
      show 1 + (target - 2) = (target - 2) + 1 from by omega,
      day21_ccLoop_one]
    rw [show target - 2 + 1 = target - 1 from by omega]

/-- C5 (amended): the step-expansion trick is not equivalent to the naive
tiled breadth-first search for every rock-free-border square map (see the
counterexample), but it is on the 1×1 rock-free map: there, for every
step count `n` (and any sufficient fuel), `solve_part_2_inner` returns
exactly the naive count, which is `(n + 1)²`. -/
theorem c5_one_by_one (n f b : Nat) (hf : 1 ≤ f) (hb : 2 ≤ b) :
    Day21.solve_part_2_inner Day21.one1 (0, 0) n f b =
      some (Day21.naiveCount Day21.one1 (0, 0) n) ∧
    Day21.naiveCount Day21.one1 (0, 0) n = (n + 1) ^ 2 := by
  refine ⟨?_, day21_naive_one n⟩
  obtain ⟨f', rfl⟩ : ∃ f', f = f' + 1 := ⟨f - 1, by omega⟩
  obtain ⟨b', rfl⟩ : ∃ b', b = b' + 2 := ⟨b - 2, by omega⟩
  rw [day21_naive_one]
  unfold Day21.solve_part_2_inner
  rw [day21_bfs_one0]
  simp only [Option.bind_eq_bind, Option.some_bind]
  simp only [show Day21.one1.length = 1 from rfl, Nat.sub_self]
  have eL := day21_count_edge_one
    (fun sm => (List.range 1).map fun i =>
      (⟨i, 0, (Day21.getStep sm i 0 + 1) % 2 ^ 64⟩ : Day21.StartPosition)) (by rfl) f' n b'
  have eU := day21_count_edge_one
    (fun sm => (List.range 1).map fun j =>
      (⟨0, j, (Day21.getStep sm 0 j + 1) % 2 ^ 64⟩ : Day21.StartPosition)) (by rfl) f' n b'
  rw [eL, eU, day21_count_corner_one n b']
  simp only [Option.some_bind]
  rw [day21_cp_one]
  obtain ⟨m, hm | hm⟩ := Nat.even_or_odd' n <;> subst hm
  · rcases Nat.eq_zero_or_pos m with rfl | hm1
    · rfl
    obtain ⟨k, rfl⟩ : ∃ k, m = k + 1 := ⟨m - 1, by omega⟩
    rw [if_pos (show (0:Nat) ≤ 2 * (k + 1) ∧ 0 % 2 = 2 * (k + 1) % 2 from by omega)]
    rw [if_neg (show ¬2 * (k + 1) = 0 from by omega)]
    rw [if_neg (show ¬(2 * (k + 1) - 1) % 2 = 0 from by omega)]
    rw [if_neg (show ¬2 * (k + 1) = 1 from by omega)]
    rw [show 2 * (k + 1) - 2 = 2 * k from by omega]
    rw [day21_fullBlocks_one (2 * k) 0 (by omega), if_pos rfl]
    rw [show 2 * k / 2 = k from by omega]
    rw [if_neg (show ¬2 * (k + 1) < 2 from by omega)]
    rw [show 2 * (k + 1) - 1 = 2 * k + 1 from by omega]
    rw [day21_cornerFull_one (2 * k + 1) 0 (by omega)]
    rw [if_neg (show ¬(2 * k + 1 + 0) % 2 = 0 from by omega)]
    rw [show (2 * k + 1 + 1) / 2 = k + 1 from by omega]
    congr 1
    ring
  · rcases Nat.eq_zero_or_pos m with rfl | hm1
    · rfl
    obtain ⟨k, rfl⟩ : ∃ k, m = k + 1 := ⟨m - 1, by omega⟩
    rw [if_neg (show ¬((0:Nat) ≤ 2 * (k + 1) + 1 ∧
      0 % 2 = (2 * (k + 1) + 1) % 2) from by omega)]
    rw [if_neg (show ¬2 * (k + 1) + 1 = 0 from by omega)]
    rw [if_pos (show (2 * (k + 1) + 1 - 1) % 2 = 0 from by omega)]
    rw [if_neg (show ¬2 * (k + 1) + 1 = 1 from by omega)]
    rw [show 2 * (k + 1) + 1 - 2 = 2 * k + 1 from by omega]
    rw [day21_fullBlocks_one (2 * k + 1) 0 (by omega), if_pos rfl]
    rw [show (2 * k + 1) / 2 = k from by omega]
    rw [if_neg (show ¬2 * (k + 1) + 1 < 2 from by omega)]
    rw [show 2 * (k + 1) + 1 - 1 = 2 * k + 2 from by omega]
    rw [day21_cornerFull_one (2 * k + 2) 0 (by omega)]
    rw [if_pos (show (2 * k + 2 + 0) % 2 = 0 from by omega)]
    rw [show (2 * k + 2) / 2 = k + 1 from by omega]
    congr 1
    ring

/-- Witness for the C5 amended theorem at `n = 4`, `fuel = 1`,
`bfsFuel = 2`. -/
theorem c5_one_by_one_witness :
    (1 ≤ 1 ∧ 2 ≤ 2) ∧
      (Day21.solve_part_2_inner Day21.one1 (0, 0) 4 1 2 =
          some (Day21.naiveCount Day21.one1 (0, 0) 4) ∧
        Day21.naiveCount Day21.one1 (0, 0) 4 = (4 + 1) ^ 2) :=
  ⟨⟨le_refl 1, le_refl 2⟩, c5_one_by_one 4 1 2 (le_refl 1) (le_refl 2)⟩

/-! ### Day 2 / day 5 version agreement (C7) -/

theorem day2_part1_fold (games : List Day2.Game) (a : Nat) :
    games.foldl (fun acc g => if Day2.gamePossible g then acc + g.id else acc) a =
      a + Day2.solve_part_1_v3 games := by
  induction games generalizing a with
  | nil => simp [Day2.solve_part_1_v3]
  | cons g gs ih =>
    by_cases h : Day2.gamePossible g <;>
      (simp [Day2.solve_part_1_v3, h, ih]; try omega)

theorem day2_part1_eq_v3 (games : List Day2.Game) :
    Day2.solve_part_1 games = Day2.solve_part_1_v3 games := by
  induction games with
  | nil => rfl
  | cons g gs ih =>
    by_cases h : Day2.gamePossible g <;>
      simp [Day2.solve_part_1, Day2.solve_part_1_v3, List.filterMap_cons, h] <;>
      simp [Day2.solve_part_1] at ih <;> omega

theorem day2_reveal_fold (rs : List Day2.Reveal) (a b c : Nat) :
    rs.foldl (fun (m : Nat × Nat × Nat) r =>
        (max m.1 (r.red.getD 0), max m.2.1 (r.green.getD 0), max m.2.2 (r.blue.getD 0)))
      (a, b, c) =
      ((rs.filterMap Day2.Reveal.red).foldl max a,
       (rs.filterMap Day2.Reveal.green).foldl max b,
       (rs.filterMap Day2.Reveal.blue).foldl max c) := by
  induction rs generalizing a b c with
  | nil => rfl
  | cons r rs ih =>
    cases hr : r.red <;> cases hg : r.green <;> cases hb : r.blue <;>
      simp [List.filterMap_cons, hr, hg, hb, ih]

theorem day2_part2_fold (games : List Day2.Game) (a : Nat) :
    games.foldl
      (fun acc g =>
        let m := g.reveals.foldl
          (fun (m : Nat × Nat × Nat) r =>
            (max m.1 (r.red.getD 0), max m.2.1 (r.green.getD 0),
             max m.2.2 (r.blue.getD 0)))
          (0, 0, 0)
        acc + m.1 * m.2.1 * m.2.2)
      a = a + Day2.solve_part_2_v3 games := by
  induction games generalizing a with
  | nil => simp [Day2.solve_part_2_v3]
  | cons g gs ih =>
    rw [List.foldl_cons]
    show (gs.foldl _ (a + _) = _)
    rw [ih]
    simp only [day2_reveal_fold, Day2.solve_part_2_v3, Day2.gamePower]
    omega

theorem day2_part2_eq_v3 (games : List Day2.Game) :
    Day2.solve_part_2 games = Day2.solve_part_2_v3 games := by
  induction games with
  | nil => rfl
  | cons g gs ih =>
    simp [Day2.solve_part_2, Day2.solve_part_2_v3, List.map_cons, List.sum_cons] at *
    omega

theorem day5_rangeTest_filterMapEq (m : List Day5.MapRange) (v : Int) :
    Day5.applyMapFilter m v = Day5.applyMap m v := by
  induction m with
  | nil => rfl
  | cons r rs ih =>
    simp only [Day5.applyMapFilter, Day5.applyMap, List.filter_cons,
      List.find?_cons] at ih ⊢
    by_cases h : (decide (r.source_start ≤ v) &&
        decide (v < r.source_start + r.length)) = true
    · simp [h]
    · simp only [Bool.not_eq_true] at h
      simp only [h]
      exact ih

theorem day5_fsl_foldl (maps : List (List Day5.MapRange)) (v : Int) :
    Day5.find_seed_location maps v = maps.foldl (fun v m => Day5.applyMap m v) v := by
  induction maps generalizing v with
  | nil => rfl
  | cons m rest ih =>
    rw [List.foldl_cons]
    show Day5.find_seed_location (m :: rest) v = _
    rw [Day5.find_seed_location, Day5.applyMap]
    cases h : m.find? fun r =>
        decide (r.source_start ≤ v) && decide (v < r.source_start + r.length) <;>
      simp [h, ih]

theorem day5_v4_go_eq (maps : List (List Day5.MapRange)) (ss : List Int) (acc : Int) :
    Day5.solve_part_1_v4_go maps ss acc =
      ss.foldl (fun a t => min a (Day5.find_seed_location maps t)) acc := by
  induction ss generalizing acc with
  | nil => rfl
  | cons s ss ih => simp [Day5.solve_part_1_v4_go, ih]

theorem day5_seedPairsIdx_cons (a b : Int) (rest : List Int) :
    Day5.seedPairsIdx (a :: b :: rest) = (a, b) :: Day5.seedPairsIdx rest := by
  simp only [Day5.seedPairsIdx, List.length_cons]
  have hlen : (rest.length + 1 + 1) / 2 = rest.length / 2 + 1 := by omega
  rw [hlen, List.range_succ_eq_map, List.map_cons, List.map_map]
  congr 1

theorem day5_seedPairsIdx_eq (seeds : List Int) :
    Day5.seedPairsIdx seeds = Day5.seedPairs seeds := by
  induction seeds using Day5.seedPairs.induct with
  | case1 a b rest ih =>
    rw [Day5.seedPairs, day5_seedPairsIdx_cons, ih]
  | case2 l h =>
    match l, h with
    | [], _ => rfl
    | [a], _ => simp [Day5.seedPairsIdx, Day5.seedPairs]
    | a :: b :: t, h => exact absurd rfl (h a b t)

/-- C7 (spec-modelled): the day-2 solver versions all agree on every
parsed input, and so do the day-5 solver versions (version 1 is embedded
from src/bin/day2.rs and src/bin/day5.rs; the other versions, absent from
the snapshot, are modelled from the spec as independent rewrites). -/
theorem c7_versions_agree :
    (∀ games : List Day2.Game,
      Day2.solve_part_1 games = Day2.solve_part_1_v2 games ∧
      Day2.solve_part_1 games = Day2.solve_part_1_v3 games ∧
      Day2.solve_part_2 games = Day2.solve_part_2_v2 games ∧
      Day2.solve_part_2 games = Day2.solve_part_2_v3 games) ∧
    ∀ input : Day5.Input,
      Day5.solve_part_1 input = Day5.solve_part_1_v2 input ∧
      Day5.solve_part_1 input = Day5.solve_part_1_v3 input ∧
      Day5.solve_part_1 input = Day5.solve_part_1_v4 input ∧
      Day5.solve_part_2 input = Day5.solve_part_2_v2 input := by
  constructor
  · intro games
    refine ⟨?_, day2_part1_eq_v3 games, ?_, day2_part2_eq_v3 games⟩
    · rw [Day2.solve_part_1_v2, day2_part1_fold, day2_part1_eq_v3, Nat.zero_add]
    · rw [Day2.solve_part_2_v2, day2_part2_fold, day2_part2_eq_v3, Nat.zero_add]
  · intro input
    have hone : ∀ s : Int,
        Day5.find_seed_location input.maps s =
          input.maps.foldl (fun v m => Day5.applyMap m v) s := fun s =>
      day5_fsl_foldl input.maps s
    refine ⟨?_, ?_, ?_, ?_⟩
    · rw [Day5.solve_part_1, Day5.solve_part_1_v2]
      cases input.seeds with
      | nil => rfl
      | cons s ss => simp [List.foldl_map, hone]
    · rw [Day5.solve_part_1, Day5.solve_part_1_v3]
      have hmap : input.seeds.map (Day5.find_seed_location input.maps) =
          input.seeds.map fun s =>
            (input.maps.map Day5.applyMapFilter).foldl (fun v f => f v) s := by
        apply List.map_congr_left
        intro s _
        rw [hone, List.foldl_map]
        clear hone
        induction input.maps generalizing s with
        | nil => rfl
        | cons m rest ih => simp [day5_rangeTest_filterMapEq, ih]
      rw [hmap]
    · rw [Day5.solve_part_1, Day5.solve_part_1_v4]
      cases input.seeds with
      | nil => rfl
      | cons s ss => simp [day5_v4_go_eq, List.foldl_map]
    · rw [Day5.solve_part_2, Day5.solve_part_2_v2, day5_seedPairsIdx_eq]

/-- C9: `read_input` fails exactly in the two cases the claim lists — no
filename argument (after the skipped program name), or a failing file
read, the latter with a message naming the offending filename; in every
other case it returns the full file contents. -/
theorem c9_read_input (args : List String) (fs : String → Option String)
    (ioErr : String) :
    (args.drop 1 = [] →
      read_input args fs ioErr = .error "Missing required filename arg") ∧
    ∀ fn rest, args.drop 1 = fn :: rest →
      (∀ c, fs fn = some c → read_input args fs ioErr = .ok c) ∧
      (fs fn = none → read_input args fs ioErr =
        .error ("Error reading file from '" ++ fn ++ "': " ++ ioErr)) := by
  constructor
  · intro h
    simp [read_input, h]
  · intro fn rest h
    constructor
    · intro c hc
      simp [read_input, h, hc]
    · intro hc
      simp [read_input, h, hc]

/-- Witness for `c9_read_input`: a run with a program name, a filename
argument and a readable file returns the contents. -/
theorem c9_read_input_witness :
    read_input ["prog", "input.txt"]
      (fun s => if s = "input.txt" then some "contents" else none) "ioerr" =
      .ok "contents" :=
  ((c9_read_input ["prog", "input.txt"]
      (fun s => if s = "input.txt" then some "contents" else none) "ioerr").2
    "input.txt" [] rfl).1 "contents" (by decide)


/-! ### Day 25: association-list groundwork -/

theorem day25_lookupA_eq_some_mem {α : Type} (k : String) (v : α) :
    ∀ l : List (String × α), Day25.lookupA k l = some v → (k, v) ∈ l := by
  intro l
  induction l with
  | nil => intro h; exact absurd h (by simp [Day25.lookupA])
  | cons p rest ih =>
    obtain ⟨k₀, w⟩ := p
    intro h
    rw [Day25.lookupA] at h
    by_cases hk : k₀ = k
    · rw [if_pos hk] at h
      subst hk
      injection h with h
      subst h
      exact List.mem_cons_self _ _
    · rw [if_neg hk] at h
      exact List.mem_cons_of_mem _ (ih h)

theorem day25_mem_lookupA {α : Type} (k : String) (v : α) :
    ∀ l : List (String × α), (l.map Prod.fst).Nodup → (k, v) ∈ l →
      Day25.lookupA k l = some v := by
  intro l
  induction l with
  | nil => intro _ h; exact absurd h (by simp)
  | cons p rest ih =>
    obtain ⟨k₀, w⟩ := p
    intro hnd h
    rw [List.map_cons, List.nodup_cons] at hnd
    rw [Day25.lookupA]
    rcases List.mem_cons.mp h with h | h
    · cases h
      rw [if_pos rfl]
    · have hk : k₀ ≠ k := by
        intro he
        exact hnd.1 (he ▸ (List.mem_map.mpr ⟨(k, v), h, rfl⟩))
      rw [if_neg hk]
      exact ih hnd.2 h

theorem day25_lookupA_isSome {α : Type} (k : String) :
    ∀ l : List (String × α), (Day25.lookupA k l).isSome = true ↔ k ∈ l.map Prod.fst := by
  intro l
  induction l with
  | nil => simp [Day25.lookupA]
  | cons p rest ih =>
    obtain ⟨k₀, w⟩ := p
    rw [Day25.lookupA]
    by_cases hk : k₀ = k
    · simp [hk]
    · simp only [if_neg hk, List.map_cons, List.mem_cons, ih]
      constructor
      · exact Or.inr
      · rintro (h | h)
        · exact absurd h.symm hk
        · exact h

theorem day25_lookupA_eq_none {α : Type} (k : String) (l : List (String × α)) :
    Day25.lookupA k l = none ↔ k ∉ l.map Prod.fst := by
  rw [← day25_lookupA_isSome k l]
  cases Day25.lookupA k l <;> simp

theorem day25_lookupA_append_left {α : Type} (k : String) (l₁ l₂ : List (String × α))
    (h : k ∈ l₁.map Prod.fst) :
    Day25.lookupA k (l₁ ++ l₂) = Day25.lookupA k l₁ := by
  induction l₁ with
  | nil => exact absurd h (by simp)
  | cons p rest ih =>
    obtain ⟨k₀, w⟩ := p
    rw [List.cons_append, Day25.lookupA, Day25.lookupA]
    by_cases hk : k₀ = k
    · rw [if_pos hk, if_pos hk]
    · rw [if_neg hk, if_neg hk]
      exact ih (by
        rcases List.mem_cons.mp h with h | h
        · exact absurd h.symm hk
        · exact h)

theorem day25_lookupA_append_right {α : Type} (k : String) (l₁ l₂ : List (String × α))
    (h : k ∉ l₁.map Prod.fst) :
    Day25.lookupA k (l₁ ++ l₂) = Day25.lookupA k l₂ := by
  induction l₁ with
  | nil => rfl
  | cons p rest ih =>
    obtain ⟨k₀, w⟩ := p
    rw [List.cons_append, Day25.lookupA]
    have hk : k₀ ≠ k := by
      intro he
      exact h (by simp [he])
    rw [if_neg hk]
    exact ih (fun hm => h (List.mem_cons_of_mem _ hm))

theorem day25_insertAssoc_keys_of_mem (k : String) (e : Day25.Edge) :
    ∀ n : Day25.Node, k ∈ n.map Prod.fst →
      (Day25.insertAssoc k e n).map Prod.fst = n.map Prod.fst := by
  intro n
  induction n with
  | nil => intro h; exact absurd h (by simp)
  | cons p rest ih =>
    obtain ⟨k₀, w⟩ := p
    intro h
    rw [Day25.insertAssoc]
    by_cases hk : k₀ = k
    · rw [if_pos hk]
      rfl
    · rw [if_neg hk, List.map_cons, List.map_cons, ih (by
        rcases List.mem_cons.mp h with h | h
        · exact absurd h.symm hk
        · exact h)]

theorem day25_lookupA_insertAssoc_self (k : String) (e : Day25.Edge) :
    ∀ n : Day25.Node, Day25.lookupA k (Day25.insertAssoc k e n) = some e := by
  intro n
  induction n with
  | nil => simp [Day25.insertAssoc, Day25.lookupA]
  | cons p rest ih =>
    obtain ⟨k₀, w⟩ := p
    rw [Day25.insertAssoc]
    by_cases hk : k₀ = k
    · rw [if_pos hk, Day25.lookupA, if_pos hk]
    · rw [if_neg hk, Day25.lookupA, if_neg hk]
      exact ih

theorem day25_lookupA_insertAssoc_ne (k k' : String) (e : Day25.Edge) (hk : k' ≠ k) :
    ∀ n : Day25.Node, Day25.lookupA k' (Day25.insertAssoc k e n) = Day25.lookupA k' n := by
  intro n
  induction n with
  | nil =>
    show Day25.lookupA k' [(k, e)] = none
    rw [Day25.lookupA, if_neg (show ¬k = k' from fun h => hk h.symm)]
    rfl
  | cons p rest ih =>
    obtain ⟨k₀, w⟩ := p
    rw [Day25.insertAssoc]
    by_cases h0 : k₀ = k
    · rw [if_pos h0, Day25.lookupA, Day25.lookupA]
      rw [if_neg (h0 ▸ fun h => hk h.symm), if_neg (h0 ▸ fun h => hk h.symm)]
    · rw [if_neg h0, Day25.lookupA, Day25.lookupA]
      by_cases h1 : k₀ = k'
      · rw [if_pos h1, if_pos h1]
      · rw [if_neg h1, if_neg h1]
        exact ih

theorem day25_mem_insertAssoc (k : String) (e : Day25.Edge) (q : String × Day25.Edge) :
    ∀ n : Day25.Node, q ∈ Day25.insertAssoc k e n → q ∈ n ∨ q = (k, e) := by
  intro n
  induction n with
  | nil => intro h; simp [Day25.insertAssoc] at h; exact Or.inr (by rw [h])
  | cons p rest ih =>
    obtain ⟨k₀, w⟩ := p
    intro h
    rw [Day25.insertAssoc] at h
    by_cases hk : k₀ = k
    · rw [if_pos hk] at h
      rcases List.mem_cons.mp h with h | h
      · exact Or.inr (by rw [h, hk])
      · exact Or.inl (List.mem_cons_of_mem _ h)
    · rw [if_neg hk] at h
      rcases List.mem_cons.mp h with h | h
      · exact Or.inl (h ▸ List.mem_cons_self _ _)
      · rcases ih h with h | h
        · exact Or.inl (List.mem_cons_of_mem _ h)
        · exact Or.inr h

theorem day25_insertAssoc_keys_of_not_mem (k : String) (e : Day25.Edge) :
    ∀ n : Day25.Node, k ∉ n.map Prod.fst →
      (Day25.insertAssoc k e n).map Prod.fst = n.map Prod.fst ++ [k] := by
  intro n
  induction n with
  | nil => intro _; rfl
  | cons p rest ih =>
    obtain ⟨k₀, w⟩ := p
    intro h
    rw [Day25.insertAssoc]
    have hk : k₀ ≠ k := fun he => h (by simp [he])
    rw [if_neg hk, List.map_cons, ih (fun hm => h (List.mem_cons_of_mem _ hm))]
    rfl

theorem day25_insertAssoc_keys_nodup (k : String) (e : Day25.Edge) (n : Day25.Node)
    (h : (n.map Prod.fst).Nodup) : ((Day25.insertAssoc k e n).map Prod.fst).Nodup := by
  by_cases hk : k ∈ n.map Prod.fst
  · rw [day25_insertAssoc_keys_of_mem k e n hk]
    exact h
  · rw [day25_insertAssoc_keys_of_not_mem k e n hk]
    simp [List.nodup_append, h, hk]

theorem day25_modifyNode_names_of_not_mem (name : String) (f : Day25.Node → Day25.Node) :
    ∀ g : Day25.Graph, name ∉ Day25.nodeNames g →
      Day25.nodeNames (Day25.modifyNode name f g) = Day25.nodeNames g ++ [name] := by
  intro g
  induction g with
  | nil => intro _; rfl
  | cons p rest ih =>
    obtain ⟨k, n⟩ := p
    intro h
    rw [Day25.modifyNode]
    have hk : k ≠ name := fun he => h (by simp [Day25.nodeNames, he])
    rw [if_neg hk]
    show _ :: Day25.nodeNames (Day25.modifyNode name f rest) = _
    rw [ih (fun hm => h (List.mem_cons_of_mem _ hm))]
    rfl

theorem day25_modifyNode_names_of_mem (name : String) (f : Day25.Node → Day25.Node) :
    ∀ g : Day25.Graph, name ∈ Day25.nodeNames g →
      Day25.nodeNames (Day25.modifyNode name f g) = Day25.nodeNames g := by
  intro g
  induction g with
  | nil => intro h; exact absurd h (by simp [Day25.nodeNames])
  | cons p rest ih =>
    obtain ⟨k, n⟩ := p
    intro h
    rw [Day25.modifyNode]
    by_cases hk : k = name
    · rw [if_pos hk]
      rfl
    · rw [if_neg hk]
      show _ :: Day25.nodeNames (Day25.modifyNode name f rest) = _
      rw [ih (by
        rcases List.mem_cons.mp h with h | h
        · exact absurd h.symm hk
        · exact h)]
      rfl

theorem day25_lookupA_modifyNode_self (name : String) (f : Day25.Node → Day25.Node) :
    ∀ g : Day25.Graph,
      Day25.lookupA name (Day25.modifyNode name f g) =
        some (f ((Day25.lookupA name g).getD [])) := by
  intro g
  induction g with
  | nil => simp [Day25.modifyNode, Day25.lookupA]
  | cons p rest ih =>
    obtain ⟨k, n⟩ := p
    rw [Day25.modifyNode]
    by_cases hk : k = name
    · rw [if_pos hk, Day25.lookupA, if_pos hk, Day25.lookupA, if_pos hk]
      rfl
    · rw [if_neg hk, Day25.lookupA, if_neg hk, Day25.lookupA, if_neg hk]
      exact ih

theorem day25_lookupA_modifyNode_ne (name k : String) (f : Day25.Node → Day25.Node)
    (hk : k ≠ name) :
    ∀ g : Day25.Graph,
      Day25.lookupA k (Day25.modifyNode name f g) = Day25.lookupA k g := by
  intro g
  induction g with
  | nil =>
    show Day25.lookupA k [(name, f [])] = none
    rw [Day25.lookupA, if_neg (show ¬name = k from fun h => hk h.symm)]
    rfl
  | cons p rest ih =>
    obtain ⟨k₀, n⟩ := p
    rw [Day25.modifyNode]
    by_cases h0 : k₀ = name
    · rw [if_pos h0, Day25.lookupA, Day25.lookupA]
      rw [if_neg (h0 ▸ fun h => hk h.symm), if_neg (h0 ▸ fun h => hk h.symm)]
    · rw [if_neg h0, Day25.lookupA, Day25.lookupA]
      by_cases h1 : k₀ = k
      · rw [if_pos h1, if_pos h1]
      · rw [if_neg h1, if_neg h1]
        exact ih

theorem day25_mem_modifyNode (name : String) (f : Day25.Node → Day25.Node)
    (p : String × Day25.Node) :
    ∀ g : Day25.Graph, p ∈ Day25.modifyNode name f g →
      p ∈ g ∨ ∃ n, p = (name, f n) ∧ ((name, n) ∈ g ∨ n = []) := by
  intro g
  induction g with
  | nil =>
    intro h
    simp only [Day25.modifyNode, List.mem_singleton] at h
    exact Or.inr ⟨[], h, Or.inr rfl⟩
  | cons q rest ih =>
    obtain ⟨k, n⟩ := q
    intro h
    rw [Day25.modifyNode] at h
    by_cases hk : k = name
    · rw [if_pos hk] at h
      rcases List.mem_cons.mp h with h | h
      · exact Or.inr ⟨n, by rw [h, hk], Or.inl (by rw [hk]; exact List.mem_cons_self _ _)⟩
      · exact Or.inl (List.mem_cons_of_mem _ h)
    · rw [if_neg hk] at h
      rcases List.mem_cons.mp h with h | h
      · exact Or.inl (h ▸ List.mem_cons_self _ _)
      · rcases ih h with h | ⟨m, hm, hmem⟩
        · exact Or.inl (List.mem_cons_of_mem _ h)
        · rcases hmem with hmem | hmem
          · exact Or.inr ⟨m, hm, Or.inl (List.mem_cons_of_mem _ hmem)⟩
          · exact Or.inr ⟨m, hm, Or.inr hmem⟩

/-! ### Day 25: pointwise facts about the network operations -/

theorem day25_mem_names_iff (g : Day25.Graph) (u : String) :
    u ∈ Day25.nodeNames g ↔ ∃ n, Day25.lookupA u g = some n := by
  rw [Day25.nodeNames, ← day25_lookupA_isSome u g]
  cases h : Day25.lookupA u g <;> simp [h]

theorem day25_hasEdge_iff (g : Day25.Graph) (u v : String) :
    Day25.hasEdge g u v = true ↔ ∃ e, Day25.edgeOf g u v = some e := by
  rw [Day25.hasEdge]
  cases h : Day25.edgeOf g u v <;> simp [h]

theorem day25_fl_of_edge (g : Day25.Graph) (u v : String) (e : Day25.Edge)
    (h : Day25.edgeOf g u v = some e) : Day25.fl g u v = e.flow := by
  rw [Day25.fl, h]
  rfl

theorem day25_cp_of_edge (g : Day25.Graph) (u v : String) (e : Day25.Edge)
    (h : Day25.edgeOf g u v = some e) : Day25.cp g u v = e.capacity := by
  rw [Day25.cp, h]
  rfl

theorem day25_fl_of_no_edge (g : Day25.Graph) (u v : String)
    (h : Day25.hasEdge g u v = false) : Day25.fl g u v = 0 := by
  rw [Day25.hasEdge] at h
  rw [Day25.fl]
  cases he : Day25.edgeOf g u v
  · rfl
  · rw [he] at h
    exact absurd h (by simp)

theorem day25_cp_of_no_edge (g : Day25.Graph) (u v : String)
    (h : Day25.hasEdge g u v = false) : Day25.cp g u v = 0 := by
  rw [Day25.hasEdge] at h
  rw [Day25.cp]
  cases he : Day25.edgeOf g u v
  · rfl
  · rw [he] at h
    exact absurd h (by simp)

theorem day25_wf_edge_mem (g : Day25.Graph) (hw : Day25.WfG g) (u v : String)
    (h : Day25.hasEdge g u v = true) :
    u ∈ Day25.nodeNames g ∧ v ∈ Day25.nodeNames g ∧
      Day25.hasEdge g v u = true ∧ Day25.cp g u v = 1 ∧ Day25.fl g u v = 0 := by
  obtain ⟨e, he⟩ := (day25_hasEdge_iff g u v).mp h
  rw [Day25.edgeOf] at he
  cases hn : Day25.lookupA u g with
  | none => rw [hn] at he; exact absurd he (by simp)
  | some n =>
    rw [hn] at he
    simp only [Option.some_bind] at he
    have hmemn : (u, n) ∈ g := day25_lookupA_eq_some_mem u n g hn
    have hmeme : (v, e) ∈ n := day25_lookupA_eq_some_mem v e n he
    obtain ⟨hnd, hndE, hcl, hcap⟩ := hw
    have h1 := hcl (u, n) hmemn (v, e) hmeme
    have h2 : e = ⟨0, 1⟩ := hcap (u, n) hmemn (v, e) hmeme
    have hee : Day25.edgeOf g u v = some e := by
      rw [Day25.edgeOf, hn]
      simpa using he
    refine ⟨(day25_mem_names_iff g u).mpr ⟨n, hn⟩, h1.1, h1.2, ?_, ?_⟩
    · rw [day25_cp_of_edge g u v e hee, h2]
    · rw [day25_fl_of_edge g u v e hee, h2]

theorem day25_wf_fl_zero (g : Day25.Graph) (hw : Day25.WfG g) (u v : String) :
    Day25.fl g u v = 0 := by
  cases h : Day25.hasEdge g u v
  · exact day25_fl_of_no_edge g u v h
  · exact (day25_wf_edge_mem g hw u v h).2.2.2.2

theorem day25_wf_cp_bounds (g : Day25.Graph) (hw : Day25.WfG g) (u v : String) :
    0 ≤ Day25.cp g u v ∧ Day25.cp g u v ≤ 1 := by
  cases h : Day25.hasEdge g u v
  · rw [day25_cp_of_no_edge g u v h]
    exact ⟨le_refl 0, by omega⟩
  · rw [(day25_wf_edge_mem g hw u v h).2.2.2.1]
    exact ⟨by omega, le_refl 1⟩

theorem day25_addFlow_names (g : Day25.Graph) (u v : String) (d : Int)
    (hu : u ∈ Day25.nodeNames g) :
    Day25.nodeNames (Day25.addFlow g u v d) = Day25.nodeNames g :=
  day25_modifyNode_names_of_mem u _ g hu

theorem day25_addFlow_edgeOf_other (g : Day25.Graph) (u v a b : String) (d : Int)
    (h : ¬(a = u ∧ b = v)) :
    Day25.edgeOf (Day25.addFlow g u v d) a b = Day25.edgeOf g a b := by
  rw [Day25.addFlow, Day25.edgeOf, Day25.edgeOf]
  by_cases ha : a = u
  · subst ha
    have hb : b ≠ v := fun hb => h ⟨rfl, hb⟩
    rw [day25_lookupA_modifyNode_self]
    cases hn : Day25.lookupA a g with
    | none =>
      simp only [Option.some_bind, Option.none_bind, Option.getD_none]
      rfl
    | some n =>
      simp only [Option.some_bind, Option.getD_some]
      cases he : Day25.lookupA v n with
      | none => rfl
      | some e => exact day25_lookupA_insertAssoc_ne v b _ hb n
  · rw [day25_lookupA_modifyNode_ne u a _ ha]

theorem day25_addFlow_edgeOf_self (g : Day25.Graph) (u v : String) (d : Int)
    (hu : u ∈ Day25.nodeNames g) :
    Day25.edgeOf (Day25.addFlow g u v d) u v =
      (Day25.edgeOf g u v).map fun e => ⟨e.flow + d, e.capacity⟩ := by
  obtain ⟨n, hn⟩ := (day25_mem_names_iff g u).mp hu
  rw [Day25.addFlow, Day25.edgeOf, Day25.edgeOf, hn, day25_lookupA_modifyNode_self, hn]
  simp only [Option.some_bind, Option.getD_some]
  cases he : Day25.lookupA v n with
  | none => exact he
  | some e =>
    rw [day25_lookupA_insertAssoc_self]
    rfl

theorem day25_addFlow_fl_self (g : Day25.Graph) (u v : String) (d : Int)
    (hu : u ∈ Day25.nodeNames g) (he : Day25.hasEdge g u v = true) :
    Day25.fl (Day25.addFlow g u v d) u v = Day25.fl g u v + d := by
  obtain ⟨e, hee⟩ := (day25_hasEdge_iff g u v).mp he
  rw [Day25.fl, Day25.fl, day25_addFlow_edgeOf_self g u v d hu, hee]
  rfl

theorem day25_addFlow_fl_other (g : Day25.Graph) (u v a b : String) (d : Int)
    (h : ¬(a = u ∧ b = v)) :
    Day25.fl (Day25.addFlow g u v d) a b = Day25.fl g a b := by
  rw [Day25.fl, Day25.fl, day25_addFlow_edgeOf_other g u v a b d h]

theorem day25_addFlow_cp (g : Day25.Graph) (u v a b : String) (d : Int)
    (hu : u ∈ Day25.nodeNames g) :
    Day25.cp (Day25.addFlow g u v d) a b = Day25.cp g a b := by
  by_cases h : a = u ∧ b = v
  · obtain ⟨rfl, rfl⟩ := h
    rw [Day25.cp, Day25.cp, day25_addFlow_edgeOf_self g a b d hu]
    cases Day25.edgeOf g a b <;> rfl
  · rw [Day25.cp, Day25.cp, day25_addFlow_edgeOf_other g u v a b d h]

theorem day25_addFlow_hasEdge (g : Day25.Graph) (u v a b : String) (d : Int)
    (hu : u ∈ Day25.nodeNames g) :
    Day25.hasEdge (Day25.addFlow g u v d) a b = Day25.hasEdge g a b := by
  by_cases h : a = u ∧ b = v
  · obtain ⟨rfl, rfl⟩ := h
    rw [Day25.hasEdge, Day25.hasEdge, day25_addFlow_edgeOf_self g a b d hu]
    cases Day25.edgeOf g a b <;> rfl
  · rw [Day25.hasEdge, Day25.hasEdge, day25_addFlow_edgeOf_other g u v a b d h]

theorem day25_addFlow_ndE (g : Day25.Graph) (u v : String) (d : Int)
    (hnd : ∀ p ∈ g, (p.2.map Prod.fst).Nodup) :
    ∀ p ∈ Day25.addFlow g u v d, (p.2.map Prod.fst).Nodup := by
  intro p hp
  rcases day25_mem_modifyNode u _ p g hp with h | ⟨n, hpn, hmem⟩
  · exact hnd p h
  · have hkeys : ∀ m : Day25.Node,
        ((match Day25.lookupA v m with
          | some e => Day25.insertAssoc v ⟨e.flow + d, e.capacity⟩ m
          | none => m).map Prod.fst) = m.map Prod.fst := by
      intro m
      cases he : Day25.lookupA v m with
      | none => rfl
      | some e =>
        exact day25_insertAssoc_keys_of_mem v _ m
          ((day25_lookupA_isSome v m).mp (by rw [he]; rfl))
    subst hpn
    rcases hmem with hmem | hmem
    · dsimp only
      rw [hkeys n]
      exact hnd (u, n) hmem
    · subst hmem
      dsimp only
      rw [hkeys []]
      exact List.nodup_nil

/-! ### Day 25: `Graph::new` builds a well-formed network -/

theorem day25_addE_edgeOf (g : Day25.Graph) (x y u v : String) :
    Day25.edgeOf (Day25.modifyNode x (Day25.insertAssoc y ⟨0, 1⟩) g) u v =
      if u = x ∧ v = y then some ⟨0, 1⟩ else Day25.edgeOf g u v := by
  by_cases hu : u = x
  · subst hu
    rw [Day25.edgeOf, day25_lookupA_modifyNode_self]
    simp only [Option.some_bind]
    by_cases hv : v = y
    · subst hv
      rw [if_pos (show True ∧ v = v from ⟨trivial, rfl⟩), day25_lookupA_insertAssoc_self]
    · rw [if_neg (fun h => hv h.2), day25_lookupA_insertAssoc_ne y v _ hv]
      rw [Day25.edgeOf]
      cases hn : Day25.lookupA u g
      · rfl
      · rfl
  · rw [if_neg (fun h => hu h.1), Day25.edgeOf, Day25.edgeOf,
      day25_lookupA_modifyNode_ne x u _ hu]

theorem day25_addE_hasEdge (g : Day25.Graph) (x y u v : String) :
    Day25.hasEdge (Day25.modifyNode x (Day25.insertAssoc y ⟨0, 1⟩) g) u v = true ↔
      ((u = x ∧ v = y) ∨ Day25.hasEdge g u v = true) := by
  rw [Day25.hasEdge, day25_addE_edgeOf]
  by_cases h : u = x ∧ v = y
  · simp [h]
  · rw [if_neg h, ← Day25.hasEdge]
    simp [h]

theorem day25_modifyNode_names_mono (name : String) (f : Day25.Node → Day25.Node)
    (g : Day25.Graph) (u : String) (h : u ∈ Day25.nodeNames g) :
    u ∈ Day25.nodeNames (Day25.modifyNode name f g) := by
  by_cases hm : name ∈ Day25.nodeNames g
  · rw [day25_modifyNode_names_of_mem name f g hm]
    exact h
  · rw [day25_modifyNode_names_of_not_mem name f g hm]
    exact List.mem_append_left _ h

theorem day25_modifyNode_mem_self (name : String) (f : Day25.Node → Day25.Node)
    (g : Day25.Graph) : name ∈ Day25.nodeNames (Day25.modifyNode name f g) := by
  by_cases hm : name ∈ Day25.nodeNames g
  · rw [day25_modifyNode_names_of_mem name f g hm]
    exact hm
  · rw [day25_modifyNode_names_of_not_mem name f g hm]
    exact List.mem_append_right _ (List.mem_singleton.mpr rfl)

theorem day25_modifyNode_names_nodup (name : String) (f : Day25.Node → Day25.Node)
    (g : Day25.Graph) (h : (Day25.nodeNames g).Nodup) :
    (Day25.nodeNames (Day25.modifyNode name f g)).Nodup := by
  by_cases hm : name ∈ Day25.nodeNames g
  · rw [day25_modifyNode_names_of_mem name f g hm]
    exact h
  · rw [day25_modifyNode_names_of_not_mem name f g hm]
    simp [List.nodup_append, h, hm]

theorem day25_addE_ndE (g : Day25.Graph) (x y : String)
    (h : ∀ p ∈ g, (p.2.map Prod.fst).Nodup) :
    ∀ p ∈ Day25.modifyNode x (Day25.insertAssoc y ⟨0, 1⟩) g,
      (p.2.map Prod.fst).Nodup := by
  intro p hp
  rcases day25_mem_modifyNode x _ p g hp with hm | ⟨n, hpn, hmem⟩
  · exact h p hm
  · subst hpn
    dsimp only
    rcases hmem with hmem | hmem
    · exact day25_insertAssoc_keys_nodup y _ n (h (x, n) hmem)
    · subst hmem
      exact day25_insertAssoc_keys_nodup y _ [] List.nodup_nil

theorem day25_addE_entry_cases (g : Day25.Graph) (x y : String)
    (p : String × Day25.Node) (q : String × Day25.Edge)
    (hp : p ∈ Day25.modifyNode x (Day25.insertAssoc y ⟨0, 1⟩) g) (hq : q ∈ p.2) :
    (∃ n, (p.1, n) ∈ g ∧ q ∈ n) ∨ (p.1 = x ∧ q = (y, ⟨0, 1⟩)) := by
  rcases day25_mem_modifyNode x _ p g hp with hm | ⟨n, hpn, hmem⟩
  · exact Or.inl ⟨p.2, hm, hq⟩
  · subst hpn
    dsimp only at hq ⊢
    rcases day25_mem_insertAssoc y _ q n hq with hqn | hqe
    · rcases hmem with hmem | hmem
      · exact Or.inl ⟨n, hmem, hqn⟩
      · subst hmem
        exact absurd hqn (List.not_mem_nil q)
    · exact Or.inr ⟨rfl, hqe⟩

theorem day25_insertEdgePair_wf (g : Day25.Graph) (a b : String) (hw : Day25.WfG g) :
    Day25.WfG (Day25.insertEdgePair g a b) := by
  obtain ⟨hnd, hndE, hcl, hcap⟩ := hw
  rw [Day25.insertEdgePair]
  refine ⟨?_, ?_, ?_, ?_⟩
  · exact day25_modifyNode_names_nodup b _ _
      (day25_modifyNode_names_nodup a _ g hnd)
  · exact day25_addE_ndE _ b a (day25_addE_ndE g a b hndE)
  · intro p hp q hq
    rcases day25_addE_entry_cases _ b a p q hp hq with ⟨n, hn, hqn⟩ | ⟨hpb, hqa⟩
    · rcases day25_addE_entry_cases g a b (p.1, n) q hn hqn with ⟨m, hm, hqm⟩ | ⟨hpa, hqb⟩
      · have hfacts := hcl (p.1, m) hm q hqm
        refine ⟨?_, ?_⟩
        · exact day25_modifyNode_names_mono b _ _ _
            (day25_modifyNode_names_mono a _ g _ hfacts.1)
        · exact (day25_addE_hasEdge _ b a q.1 p.1).mpr
            (Or.inr ((day25_addE_hasEdge g a b q.1 p.1).mpr (Or.inr hfacts.2)))
      · refine ⟨?_, ?_⟩
        · rw [hqb]
          exact day25_modifyNode_mem_self b _ _
        · rw [hqb, hpa]
          show Day25.hasEdge _ b a = true
          exact (day25_addE_hasEdge _ b a b a).mpr (Or.inl ⟨rfl, rfl⟩)
    · refine ⟨?_, ?_⟩
      · rw [hqa]
        exact day25_modifyNode_names_mono b _ _ _ (day25_modifyNode_mem_self a _ g)
      · rw [hqa, hpb]
        show Day25.hasEdge _ a b = true
        exact (day25_addE_hasEdge _ b a a b).mpr
          (Or.inr ((day25_addE_hasEdge g a b a b).mpr (Or.inl ⟨rfl, rfl⟩)))
  · intro p hp q hq
    rcases day25_addE_entry_cases _ b a p q hp hq with ⟨n, hn, hqn⟩ | ⟨hpb, hqa⟩
    · rcases day25_addE_entry_cases g a b (p.1, n) q hn hqn with ⟨m, hm, hqm⟩ | ⟨hpa, hqb⟩
      · exact hcap (p.1, m) hm q hqm
      · rw [hqb]
    · rw [hqa]

theorem day25_foldl_insertEdgePair_wf (a : String) :
    ∀ (l : List String) (g : Day25.Graph), Day25.WfG g →
      Day25.WfG (l.foldl (fun g e => Day25.insertEdgePair g a e) g) := by
  intro l
  induction l with
  | nil => intro g hw; exact hw
  | cons e rest ih =>
    intro g hw
    rw [List.foldl_cons]
    exact ih _ (day25_insertEdgePair_wf g a e hw)

theorem day25_graphNew_wf (input : List (String × List String)) :
    Day25.WfG (Day25.graphNew input) := by
  rw [Day25.graphNew]
  have h : ∀ (l : List (String × List String)) (g : Day25.Graph), Day25.WfG g →
      Day25.WfG (l.foldl
        (fun g line => line.2.foldl (fun g e => Day25.insertEdgePair g line.1 e) g) g) := by
    intro l
    induction l with
    | nil => intro g hw; exact hw
    | cons line rest ih =>
      intro g hw
      rw [List.foldl_cons]
      exact ih _ (day25_foldl_insertEdgePair_wf line.1 line.2 g hw)
  exact h input [] ⟨List.nodup_nil, by simp, by simp, by simp⟩

/-! ### Day 25: sums, walks, and the bottleneck scan -/

theorem day25_sum_update (S : Finset String) (f g : String → Int) (b : String) (d : Int)
    (hb : b ∈ S) (hch : g b = f b + d) (hother : ∀ v, v ≠ b → g v = f v) :
    ∑ v ∈ S, g v = (∑ v ∈ S, f v) + d := by
  rw [← Finset.add_sum_erase S g hb, ← Finset.add_sum_erase S f hb, hch]
  have he : ∑ v ∈ S.erase b, g v = ∑ v ∈ S.erase b, f v :=
    Finset.sum_congr rfl (fun v hv => hother v (Finset.ne_of_mem_erase hv))
  rw [he]
  ring

theorem day25_sum_congr_of_eq (S : Finset String) (f g : String → Int)
    (h : ∀ v, f v = g v) : ∑ v ∈ S, f v = ∑ v ∈ S, g v :=
  Finset.sum_congr rfl (fun v _ => h v)

theorem day25_zip_tail_mem (w : List String) (pr : String × String)
    (h : pr ∈ w.zip w.tail) : pr.1 ∈ w ∧ pr.2 ∈ w :=
  ⟨(List.mem_zip h).1, List.mem_of_mem_tail (List.mem_zip h).2⟩

theorem day25_zip_tail_ne (w : List String) (hnd : w.Nodup) (pr : String × String)
    (h : pr ∈ w.zip w.tail) : pr.1 ≠ pr.2 := by
  induction w with
  | nil => exact absurd h (by simp)
  | cons a rest ih =>
    cases rest with
    | nil => exact absurd h (by simp)
    | cons b t =>
      rw [List.nodup_cons] at hnd
      rw [List.tail_cons, List.zip_cons_cons] at h
      rcases List.mem_cons.mp h with h | h
      · subst h
        intro he
        dsimp only at he
        exact hnd.1 (by rw [he]; exact List.mem_cons_self _ _)
      · exact ih hnd.2 h

theorem day25_zip_tail_fst_ne_getLast (w : List String) (hnd : w.Nodup)
    (hne : w ≠ []) (pr : String × String) (h : pr ∈ w.zip w.tail) :
    pr.1 ≠ w.getLast hne := by
  induction w with
  | nil => exact absurd h (by simp)
  | cons a rest ih =>
    cases rest with
    | nil => exact absurd h (by simp)
    | cons b t =>
      rw [List.nodup_cons] at hnd
      rw [List.tail_cons, List.zip_cons_cons] at h
      rw [List.getLast_cons (by simp : b :: t ≠ [])]
      rcases List.mem_cons.mp h with h | h
      · subst h
        intro he
        dsimp only at he
        exact hnd.1 (by rw [he]; exact List.getLast_mem _)
      · exact ih hnd.2 (by simp) h

theorem day25_residual_getD (g : Day25.Graph) (u v : String) :
    ((Day25.edgeOf g u v).getD ⟨0, 0⟩).capacity - ((Day25.edgeOf g u v).getD ⟨0, 0⟩).flow =
      Day25.cp g u v - Day25.fl g u v := by
  cases h : Day25.edgeOf g u v <;> simp [Day25.cp, Day25.fl, h]

theorem day25_minResidual_le_acc (g : Day25.Graph) :
    ∀ (w : List String) (acc : Int), Day25.minResidual g w acc ≤ acc := by
  intro w
  induction w with
  | nil => intro acc; exact le_refl acc
  | cons cur rest ih =>
    intro acc
    cases rest with
    | nil => exact le_refl acc
    | cons prev t =>
      exact le_trans (ih _) (min_le_left _ _)

theorem day25_minResidual_le_pair (g : Day25.Graph) :
    ∀ (w : List String) (acc : Int) (pr : String × String), pr ∈ w.zip w.tail →
      Day25.minResidual g w acc ≤ Day25.cp g pr.2 pr.1 - Day25.fl g pr.2 pr.1 := by
  intro w
  induction w with
  | nil => intro acc pr h; exact absurd h (by simp)
  | cons cur rest ih =>
    intro acc pr h
    cases rest with
    | nil => exact absurd h (by simp)
    | cons prev t =>
      rw [List.tail_cons, List.zip_cons_cons] at h
      rcases List.mem_cons.mp h with h | h
      · subst h
        dsimp only
        rw [← day25_residual_getD g prev cur]
        exact le_trans
          (day25_minResidual_le_acc g (prev :: t)
            (min acc (((Day25.edgeOf g prev cur).getD ⟨0, 0⟩).capacity -
              ((Day25.edgeOf g prev cur).getD ⟨0, 0⟩).flow)))
          (min_le_right _ _)
      · exact ih _ pr (by rw [List.tail_cons]; exact h)

theorem day25_minResidual_ge (g : Day25.Graph) (L : Int) :
    ∀ (w : List String) (acc : Int),
      (∀ pr ∈ w.zip w.tail, L ≤ Day25.cp g pr.2 pr.1 - Day25.fl g pr.2 pr.1) →
      L ≤ acc → L ≤ Day25.minResidual g w acc := by
  intro w
  induction w with
  | nil => intro acc _ h; exact h
  | cons cur rest ih =>
    intro acc hp hacc
    cases rest with
    | nil => exact hacc
    | cons prev t =>
      refine ih _ (fun pr hpr => hp pr ?_) ?_
      · rw [List.tail_cons, List.zip_cons_cons]
        exact List.mem_cons_of_mem _ (by rw [List.tail_cons] at hpr; exact hpr)
      · rw [le_min_iff]
        refine ⟨hacc, ?_⟩
        rw [day25_residual_getD g prev cur]
        exact hp (cur, prev) (by
          rw [List.tail_cons, List.zip_cons_cons]
          exact List.mem_cons_self _ _)

/-! ### Day 25: effect of augmenting along a walk -/

theorem day25_augStep_facts (g : Day25.Graph) (cur prev : String) (added : Int)
    (hpn : prev ∈ Day25.nodeNames g) (hcn : cur ∈ Day25.nodeNames g)
    (hne : cur ≠ prev)
    (hepc : Day25.hasEdge g prev cur = true) (hecp : Day25.hasEdge g cur prev = true) :
    Day25.nodeNames (Day25.addFlow (Day25.addFlow g prev cur added) cur prev (-added)) =
        Day25.nodeNames g ∧
    (∀ a b, Day25.cp (Day25.addFlow (Day25.addFlow g prev cur added) cur prev (-added)) a b =
        Day25.cp g a b) ∧
    (∀ a b, Day25.hasEdge (Day25.addFlow (Day25.addFlow g prev cur added) cur prev (-added)) a b =
        Day25.hasEdge g a b) ∧
    Day25.fl (Day25.addFlow (Day25.addFlow g prev cur added) cur prev (-added)) prev cur =
        Day25.fl g prev cur + added ∧
    Day25.fl (Day25.addFlow (Day25.addFlow g prev cur added) cur prev (-added)) cur prev =
        Day25.fl g cur prev - added ∧
    (∀ a b, ¬(a = prev ∧ b = cur) → ¬(a = cur ∧ b = prev) →
        Day25.fl (Day25.addFlow (Day25.addFlow g prev cur added) cur prev (-added)) a b =
          Day25.fl g a b) ∧
    ((∀ p ∈ g, (p.2.map Prod.fst).Nodup) →
        ∀ p ∈ Day25.addFlow (Day25.addFlow g prev cur added) cur prev (-added),
          (p.2.map Prod.fst).Nodup) := by
  have h1n : Day25.nodeNames (Day25.addFlow g prev cur added) = Day25.nodeNames g :=
    day25_addFlow_names g prev cur added hpn
  have hcn1 : cur ∈ Day25.nodeNames (Day25.addFlow g prev cur added) := by
    rw [h1n]; exact hcn
  refine ⟨?_, ?_, ?_, ?_, ?_, ?_, ?_⟩
  · rw [day25_addFlow_names _ cur prev (-added) hcn1, h1n]
  · intro a b
    rw [day25_addFlow_cp _ cur prev a b (-added) hcn1,
      day25_addFlow_cp g prev cur a b added hpn]
  · intro a b
    rw [day25_addFlow_hasEdge _ cur prev a b (-added) hcn1,
      day25_addFlow_hasEdge g prev cur a b added hpn]
  · rw [day25_addFlow_fl_other _ cur prev prev cur (-added) (fun h => hne h.1.symm),
      day25_addFlow_fl_self g prev cur added hpn hepc]
  · have he1 : Day25.hasEdge (Day25.addFlow g prev cur added) cur prev = true := by
      rw [day25_addFlow_hasEdge g prev cur cur prev added hpn]
      exact hecp
    rw [day25_addFlow_fl_self _ cur prev (-added) hcn1 he1,
      day25_addFlow_fl_other g prev cur cur prev added (fun h => hne h.1)]
    ring
  · intro a b h1 h2
    rw [day25_addFlow_fl_other _ cur prev a b (-added) h2,
      day25_addFlow_fl_other g prev cur a b added h1]
  · intro h
    exact day25_addFlow_ndE _ cur prev (-added) (day25_addFlow_ndE g prev cur added h)

theorem day25_augmentPath_struct (added : Int) :
    ∀ (w : List String) (g : Day25.Graph),
      (∀ x ∈ w, x ∈ Day25.nodeNames g) →
      (∀ pr ∈ w.zip w.tail, Day25.hasEdge g pr.2 pr.1 = true ∧
          Day25.hasEdge g pr.1 pr.2 = true) →
      w.Nodup →
      Day25.nodeNames (Day25.augmentPath g added w) = Day25.nodeNames g ∧
      (∀ u v, Day25.cp (Day25.augmentPath g added w) u v = Day25.cp g u v) ∧
      (∀ u v, Day25.hasEdge (Day25.augmentPath g added w) u v = Day25.hasEdge g u v) ∧
      ((∀ p ∈ g, (p.2.map Prod.fst).Nodup) →
        ∀ p ∈ Day25.augmentPath g added w, (p.2.map Prod.fst).Nodup) := by
  intro w
  induction w with
  | nil =>
    intro g _ _ _
    exact ⟨rfl, fun _ _ => rfl, fun _ _ => rfl, fun h => h⟩
  | cons cur rest ih =>
    cases rest with
    | nil =>
      intro g _ _ _
      exact ⟨rfl, fun _ _ => rfl, fun _ _ => rfl, fun h => h⟩
    | cons prev t =>
      intro g hmem hpairs hnd
      have hpn : prev ∈ Day25.nodeNames g :=
        hmem prev (List.mem_cons_of_mem _ (List.mem_cons_self _ _))
      have hcn : cur ∈ Day25.nodeNames g := hmem cur (List.mem_cons_self _ _)
      have hp1 := hpairs (cur, prev) (by
        rw [List.tail_cons, List.zip_cons_cons]
        exact List.mem_cons_self _ _)
      have hne : cur ≠ prev := by
        rw [List.nodup_cons] at hnd
        exact fun h => hnd.1 (h ▸ List.mem_cons_self _ _)
      obtain ⟨sn, scp, she, _, _, _, sndE⟩ :=
        day25_augStep_facts g cur prev added hpn hcn hne hp1.1 hp1.2
      rw [Day25.augmentPath]
      have hmem2 : ∀ x ∈ prev :: t,
          x ∈ Day25.nodeNames
            (Day25.addFlow (Day25.addFlow g prev cur added) cur prev (-added)) := by
        intro x hx
        rw [sn]
        exact hmem x (List.mem_cons_of_mem _ hx)
      have hpairs2 : ∀ pr ∈ (prev :: t).zip (prev :: t).tail,
          Day25.hasEdge (Day25.addFlow (Day25.addFlow g prev cur added) cur prev (-added))
              pr.2 pr.1 = true ∧
            Day25.hasEdge (Day25.addFlow (Day25.addFlow g prev cur added) cur prev (-added))
              pr.1 pr.2 = true := by
        intro pr hpr
        rw [she, she]
        exact hpairs pr (by
          rw [List.tail_cons, List.zip_cons_cons]
          exact List.mem_cons_of_mem _ hpr)
      obtain ⟨in', icp, ihe, indE⟩ :=
        ih _ hmem2 hpairs2 (List.Nodup.of_cons hnd)
      refine ⟨by rw [in', sn], ?_, ?_, ?_⟩
      · intro u v
        rw [icp u v, scp u v]
      · intro u v
        rw [ihe u v, she u v]
      · intro h
        exact indE (sndE h)

theorem day25_augmentPath_skew (added : Int) :
    ∀ (w : List String) (g : Day25.Graph),
      (∀ x ∈ w, x ∈ Day25.nodeNames g) →
      (∀ pr ∈ w.zip w.tail, Day25.hasEdge g pr.2 pr.1 = true ∧
          Day25.hasEdge g pr.1 pr.2 = true) →
      w.Nodup →
      (∀ u v, Day25.fl g u v = - Day25.fl g v u) →
      ∀ u v, Day25.fl (Day25.augmentPath g added w) u v =
        - Day25.fl (Day25.augmentPath g added w) v u := by
  intro w
  induction w with
  | nil => intro g _ _ _ hs; exact hs
  | cons cur rest ih =>
    cases rest with
    | nil => intro g _ _ _ hs; exact hs
    | cons prev t =>
      intro g hmem hpairs hnd hs
      have hpn : prev ∈ Day25.nodeNames g :=
        hmem prev (List.mem_cons_of_mem _ (List.mem_cons_self _ _))
      have hcn : cur ∈ Day25.nodeNames g := hmem cur (List.mem_cons_self _ _)
      have hp1 := hpairs (cur, prev) (by
        rw [List.tail_cons, List.zip_cons_cons]
        exact List.mem_cons_self _ _)
      have hne : cur ≠ prev := by
        rw [List.nodup_cons] at hnd
        exact fun h => hnd.1 (h ▸ List.mem_cons_self _ _)
      obtain ⟨sn, scp, she, spc, scpf, soth, _⟩ :=
        day25_augStep_facts g cur prev added hpn hcn hne hp1.1 hp1.2
      rw [Day25.augmentPath]
      refine ih _ (fun x hx => by rw [sn]; exact hmem x (List.mem_cons_of_mem _ hx))
        (fun pr hpr => by
          rw [she, she]
          exact hpairs pr (by
            rw [List.tail_cons, List.zip_cons_cons]
            exact List.mem_cons_of_mem _ hpr))
        (List.Nodup.of_cons hnd) ?_
      intro u v
      by_cases h1 : u = prev ∧ v = cur
      · obtain ⟨rfl, rfl⟩ := h1
        rw [spc, scpf, hs u v]
        ring
      · by_cases h2 : u = cur ∧ v = prev
        · obtain ⟨rfl, rfl⟩ := h2
          rw [spc, scpf, hs u v]
          ring
        · rw [soth u v h1 h2, soth v u (fun h => h2 ⟨h.2, h.1⟩) (fun h => h1 ⟨h.2, h.1⟩)]
          exact hs u v

theorem day25_augmentPath_capb (added : Int) :
    ∀ (w : List String) (g : Day25.Graph),
      (∀ x ∈ w, x ∈ Day25.nodeNames g) →
      (∀ pr ∈ w.zip w.tail, Day25.hasEdge g pr.2 pr.1 = true ∧
          Day25.hasEdge g pr.1 pr.2 = true ∧
          added ≤ Day25.cp g pr.2 pr.1 - Day25.fl g pr.2 pr.1) →
      w.Nodup → 0 ≤ added →
      (∀ u v, Day25.fl g u v ≤ Day25.cp g u v) →
      ∀ u v, Day25.fl (Day25.augmentPath g added w) u v ≤
        Day25.cp (Day25.augmentPath g added w) u v := by
  intro w
  induction w with
  | nil => intro g _ _ _ _ hc; exact hc
  | cons cur rest ih =>
    cases rest with
    | nil => intro g _ _ _ _ hc; exact hc
    | cons prev t =>
      intro g hmem hpairs hnd hpos hc
      have hpn : prev ∈ Day25.nodeNames g :=
        hmem prev (List.mem_cons_of_mem _ (List.mem_cons_self _ _))
      have hcn : cur ∈ Day25.nodeNames g := hmem cur (List.mem_cons_self _ _)
      have hp1 := hpairs (cur, prev) (by
        rw [List.tail_cons, List.zip_cons_cons]
        exact List.mem_cons_self _ _)
      have hne : cur ≠ prev := by
        rw [List.nodup_cons] at hnd
        exact fun h => hnd.1 (h ▸ List.mem_cons_self _ _)
      have hcnmem : cur ∉ prev :: t := by
        rw [List.nodup_cons] at hnd
        exact hnd.1
      obtain ⟨sn, scp, she, spc, scpf, soth, _⟩ :=
        day25_augStep_facts g cur prev added hpn hcn hne hp1.1 hp1.2.1
      rw [Day25.augmentPath]
      refine ih _ (fun x hx => by rw [sn]; exact hmem x (List.mem_cons_of_mem _ hx))
        (fun pr hpr => ?_) (List.Nodup.of_cons hnd) hpos ?_
      · have hmold := hpairs pr (by
          rw [List.tail_cons, List.zip_cons_cons]
          exact List.mem_cons_of_mem _ hpr)
        have hprm := day25_zip_tail_mem (prev :: t) pr hpr
        have hflq : Day25.fl (Day25.addFlow (Day25.addFlow g prev cur added) cur prev
            (-added)) pr.2 pr.1 = Day25.fl g pr.2 pr.1 := by
          refine soth pr.2 pr.1 (fun h => hcnmem ?_) (fun h => hcnmem ?_)
          · rw [← h.2]
            exact hprm.1
          · rw [← h.1]
            exact hprm.2
        rw [she, she, scp, hflq]
        exact hmold
      · intro u v
        by_cases h1 : u = prev ∧ v = cur
        · obtain ⟨rfl, rfl⟩ := h1
          rw [spc, scp]
          have hb := hp1.2.2
          dsimp only at hb
          omega
        · by_cases h2 : u = cur ∧ v = prev
          · obtain ⟨rfl, rfl⟩ := h2
            rw [scpf, scp]
            have := hc u v
            omega
          · rw [soth u v h1 h2, scp]
            exact hc u v

theorem day25_augmentPath_src (added : Int) (s : String) :
    ∀ (w : List String) (g : Day25.Graph),
      (∀ x ∈ w, x ∈ Day25.nodeNames g) →
      (∀ pr ∈ w.zip w.tail, Day25.hasEdge g pr.2 pr.1 = true ∧
          Day25.hasEdge g pr.1 pr.2 = true) →
      (∀ pr ∈ w.zip w.tail, pr.1 ≠ s) →
      w.Nodup → 0 ≤ added →
      (∀ v, 0 ≤ Day25.fl g s v) →
      ∀ v, 0 ≤ Day25.fl (Day25.augmentPath g added w) s v := by
  intro w
  induction w with
  | nil => intro g _ _ _ _ _ hv; exact hv
  | cons cur rest ih =>
    cases rest with
    | nil => intro g _ _ _ _ _ hv; exact hv
    | cons prev t =>
      intro g hmem hpairs hns hnd hpos hv
      have hpn : prev ∈ Day25.nodeNames g :=
        hmem prev (List.mem_cons_of_mem _ (List.mem_cons_self _ _))
      have hcn : cur ∈ Day25.nodeNames g := hmem cur (List.mem_cons_self _ _)
      have hfirst : ((cur, prev) : String × String) ∈
          (cur :: prev :: t).zip (cur :: prev :: t).tail := by
        rw [List.tail_cons, List.zip_cons_cons]
        exact List.mem_cons_self _ _
      have hp1 := hpairs (cur, prev) hfirst
      have hcs : cur ≠ s := hns (cur, prev) hfirst
      have hne : cur ≠ prev := by
        rw [List.nodup_cons] at hnd
        exact fun h => hnd.1 (h ▸ List.mem_cons_self _ _)
      obtain ⟨sn, scp, she, spc, scpf, soth, _⟩ :=
        day25_augStep_facts g cur prev added hpn hcn hne hp1.1 hp1.2
      rw [Day25.augmentPath]
      refine ih _ (fun x hx => by rw [sn]; exact hmem x (List.mem_cons_of_mem _ hx))
        (fun pr hpr => by
          rw [she, she]
          exact hpairs pr (by
            rw [List.tail_cons, List.zip_cons_cons]
            exact List.mem_cons_of_mem _ hpr))
        (fun pr hpr => hns pr (by
          rw [List.tail_cons, List.zip_cons_cons]
          exact List.mem_cons_of_mem _ hpr))
        (List.Nodup.of_cons hnd) hpos ?_
      intro v
      by_cases h1 : s = prev ∧ v = cur
      · obtain ⟨rfl, rfl⟩ := h1
        rw [spc]
        have := hv v
        omega
      · have h2 : ¬(s = cur ∧ v = prev) := fun h => hcs h.1.symm
        rw [soth s v h1 h2]
        exact hv v

theorem day25_augmentPath_rowsum (added : Int) (S : Finset String) :
    ∀ (w : List String) (g : Day25.Graph) (hne : w ≠ []),
      (∀ x ∈ w, x ∈ Day25.nodeNames g) →
      (∀ x ∈ w, x ∈ S) →
      (∀ pr ∈ w.zip w.tail, Day25.hasEdge g pr.2 pr.1 = true ∧
          Day25.hasEdge g pr.1 pr.2 = true) →
      w.Nodup →
      ∀ u, ∑ v ∈ S, Day25.fl (Day25.augmentPath g added w) u v =
        (∑ v ∈ S, Day25.fl g u v) +
          (if u = w.getLast hne then added else 0) -
          (if u = w.head hne then added else 0) := by
  intro w
  induction w with
  | nil => intro g hne; exact absurd rfl hne
  | cons cur rest ih =>
    cases rest with
    | nil =>
      intro g _ _ _ _ _ u
      show (∑ v ∈ S, Day25.fl g u v) = _
      rw [List.getLast_singleton, List.head_cons]
      split_ifs <;> ring
    | cons prev t =>
      intro g hne hmem hS hpairs hnd u
      have hpn : prev ∈ Day25.nodeNames g :=
        hmem prev (List.mem_cons_of_mem _ (List.mem_cons_self _ _))
      have hcn : cur ∈ Day25.nodeNames g := hmem cur (List.mem_cons_self _ _)
      have hp1 := hpairs (cur, prev) (by
        rw [List.tail_cons, List.zip_cons_cons]
        exact List.mem_cons_self _ _)
      have hnecp : cur ≠ prev := by
        rw [List.nodup_cons] at hnd
        exact fun h => hnd.1 (h ▸ List.mem_cons_self _ _)
      obtain ⟨sn, scp, she, spc, scpf, soth, _⟩ :=
        day25_augStep_facts g cur prev added hpn hcn hnecp hp1.1 hp1.2
      rw [Day25.augmentPath]
      have hrec := ih (Day25.addFlow (Day25.addFlow g prev cur added) cur prev (-added))
        (by simp)
        (fun x hx => by rw [sn]; exact hmem x (List.mem_cons_of_mem _ hx))
        (fun x hx => hS x (List.mem_cons_of_mem _ hx))
        (fun pr hpr => by
          rw [she, she]
          exact hpairs pr (by
            rw [List.tail_cons, List.zip_cons_cons]
            exact List.mem_cons_of_mem _ hpr))
        (List.Nodup.of_cons hnd) u
      rw [hrec]
      have hstep : ∑ v ∈ S,
          Day25.fl (Day25.addFlow (Day25.addFlow g prev cur added) cur prev (-added)) u v =
          (∑ v ∈ S, Day25.fl g u v) +
            (if u = prev then added else 0) - (if u = cur then added else 0) := by
        by_cases h1 : u = prev
        · subst h1
          rw [if_pos rfl, if_neg (fun h => hnecp h.symm)]
          rw [day25_sum_update S (Day25.fl g u) _ cur added
            (hS cur (List.mem_cons_self _ _)) (by rw [spc])
            (fun v hv => soth u v (fun h => hv h.2) (fun h => hnecp h.1.symm))]
          ring
        · by_cases h2 : u = cur
          · subst h2
            rw [if_neg h1, if_pos rfl]
            rw [day25_sum_update S (Day25.fl g u) _ prev (-added)
              (hS prev (List.mem_cons_of_mem _ (List.mem_cons_self _ _)))
              (by rw [scpf]; ring)
              (fun v hv => soth u v (fun h => h1 h.1) (fun h => hv h.2))]
            ring
          · rw [if_neg h1, if_neg h2]
            rw [day25_sum_congr_of_eq S _ (Day25.fl g u)
              (fun v => soth u v (fun h => h1 h.1) (fun h => h2 h.1))]
            ring
      rw [hstep, List.getLast_cons (by simp : prev :: t ≠ []), List.head_cons]
      by_cases hu : u = prev
      · subst hu
        rw [List.head_cons]
        ring
      · rw [List.head_cons]
        ring

/-! ### Day 25: walking the predecessor map back to the source -/

theorem day25_indexOf_take_lt (p : String) :
    ∀ (l : List String) (i : Nat), p ∈ l.take i → l.indexOf p < i := by
  intro l
  induction l with
  | nil => intro i h; rw [List.take_nil] at h; exact absurd h (List.not_mem_nil p)
  | cons a rest ih =>
    intro i h
    cases i with
    | zero => exact absurd h (by simp)
    | succ j =>
      rw [List.take_succ_cons] at h
      by_cases hap : a = p
      · rw [hap, List.indexOf_cons_self]
        exact Nat.succ_pos j
      · rcases List.mem_cons.mp h with h | h
        · exact absurd h.symm hap
        · rw [List.indexOf_cons_ne rest hap]
          exact Nat.succ_lt_succ (ih j h)

theorem day25_chained_rank_lt (source : String) (pt : List (String × String))
    (hnd : (pt.map Prod.fst).Nodup) (hch : Day25.Chained source pt)
    (hsrc : source ∉ pt.map Prod.fst) (c p : String)
    (hc : Day25.lookupA c pt = some p) :
    Day25.rank source pt p < Day25.rank source pt c := by
  have hmem : (c, p) ∈ pt := day25_lookupA_eq_some_mem c p pt hc
  obtain ⟨⟨i, h⟩, hget⟩ := List.mem_iff_get.mp hmem
  have hkey : (pt.map Prod.fst).get ⟨i, by rw [List.length_map]; exact h⟩ = c := by
    rw [List.get_map, hget]
  have hcm : c ∈ pt.map Prod.fst := by
    rw [← hkey]
    exact List.get_mem _ _ _
  have hcs : c ≠ source := fun he => hsrc (he ▸ hcm)
  have hidx : (pt.map Prod.fst).indexOf c = i := by
    rw [← hkey]
    exact List.get_indexOf hnd _
  have hrc : Day25.rank source pt c = i + 1 := by
    rw [Day25.rank, if_neg hcs, hidx]
  rw [hrc]
  by_cases hps : p = source
  · rw [Day25.rank, if_pos hps]
    exact Nat.succ_pos i
  · rw [Day25.rank, if_neg hps]
    have := hch i h
    rw [hget] at this
    rcases this with hv | hv
    · exact absurd hv hps
    · rw [List.map_take] at hv
      exact Nat.succ_lt_succ (day25_indexOf_take_lt p _ i hv)

theorem day25_chained_val (source : String) (pt : List (String × String))
    (hch : Day25.Chained source pt) (c p : String)
    (hc : Day25.lookupA c pt = some p) :
    p = source ∨ p ∈ pt.map Prod.fst := by
  have hmem : (c, p) ∈ pt := day25_lookupA_eq_some_mem c p pt hc
  obtain ⟨⟨i, h⟩, hget⟩ := List.mem_iff_get.mp hmem
  have := hch i h
  rw [hget] at this
  rcases this with hv | hv
  · exact Or.inl hv
  · exact Or.inr (List.map_subset Prod.fst (List.take_subset i pt) hv)

theorem day25_pathNodes_sound (source : String) (pt : List (String × String))
    (hnd : (pt.map Prod.fst).Nodup) (hch : Day25.Chained source pt)
    (hsrc : source ∉ pt.map Prod.fst) :
    ∀ (fuel : Nat) (cur : String) (w : List String),
      Day25.pathNodes pt source fuel cur = some w →
      w.head? = some cur ∧ w.getLast? = some source ∧ w.Nodup ∧
        (∀ pr ∈ w.zip w.tail, Day25.lookupA pr.1 pt = some pr.2) ∧
        (∀ x ∈ w, Day25.rank source pt x ≤ Day25.rank source pt cur) := by
  intro fuel
  induction fuel with
  | zero => intro cur w h; exact absurd h (by rw [Day25.pathNodes]; simp)
  | succ f ih =>
    intro cur w h
    rw [Day25.pathNodes] at h
    by_cases hcs : cur = source
    · rw [if_pos hcs] at h
      injection h with h
      subst h
      subst hcs
      refine ⟨rfl, rfl, List.nodup_singleton _, ?_, ?_⟩
      · intro pr hpr
        exact absurd hpr (by simp)
      · intro x hx
        rw [List.mem_singleton.mp hx]
    · rw [if_neg hcs] at h
      cases hl : Day25.lookupA cur pt with
      | none => rw [hl] at h; exact absurd h (by simp)
      | some prev =>
        rw [hl] at h
        dsimp only at h
        cases hw : Day25.pathNodes pt source f prev with
        | none => rw [hw] at h; exact absurd h (by simp)
        | some w0 =>
          rw [hw] at h
          rw [show ((some w0).map fun x => cur :: x) = some (cur :: w0) from rfl] at h
          have hw0 := ih prev w0 hw
          have hrlt : Day25.rank source pt prev < Day25.rank source pt cur :=
            day25_chained_rank_lt source pt hnd hch hsrc cur prev hl
          cases w0 with
          | nil => exact absurd hw0.1 (by simp)
          | cons a w1 =>
            have ha : a = prev := by
              have := hw0.1
              rw [List.head?_cons] at this
              injection this
            subst ha
            injection h with h
            subst h
            refine ⟨rfl, ?_, ?_, ?_, ?_⟩
            · rw [List.getLast?_cons_cons]
              exact hw0.2.1
            · rw [List.nodup_cons]
              refine ⟨?_, hw0.2.2.1⟩
              intro hmem
              have := hw0.2.2.2.2 cur hmem
              omega
            · intro pr hpr
              rw [List.tail_cons, List.zip_cons_cons] at hpr
              rcases List.mem_cons.mp hpr with hpr | hpr
              · subst hpr
                exact hl
              · exact hw0.2.2.2.1 pr hpr
            · intro x hx
              rcases List.mem_cons.mp hx with hx | hx
              · subst hx
                exact le_refl _
              · exact le_trans (hw0.2.2.2.2 x hx) (le_of_lt hrlt)

theorem day25_pathNodes_some (source : String) (pt : List (String × String))
    (hnd : (pt.map Prod.fst).Nodup) (hch : Day25.Chained source pt)
    (hsrc : source ∉ pt.map Prod.fst) :
    ∀ (fuel : Nat) (cur : String), (cur = source ∨ cur ∈ pt.map Prod.fst) →
      Day25.rank source pt cur < fuel →
      ∃ w, Day25.pathNodes pt source fuel cur = some w := by
  intro fuel
  induction fuel with
  | zero => intro cur _ h; exact absurd h (Nat.not_lt_zero _)
  | succ f ih =>
    intro cur hcur hrk
    rw [Day25.pathNodes]
    by_cases hcs : cur = source
    · rw [if_pos hcs]
      exact ⟨[source], rfl⟩
    · rw [if_neg hcs]
      have hcm : cur ∈ pt.map Prod.fst := by
        rcases hcur with h | h
        · exact absurd h hcs
        · exact h
      obtain ⟨prev, hl⟩ : ∃ prev, Day25.lookupA cur pt = some prev := by
        have := (day25_lookupA_isSome cur pt).mpr hcm
        cases hx : Day25.lookupA cur pt
        · rw [hx] at this; exact absurd this (by simp)
        · exact ⟨_, rfl⟩
      rw [hl]
      have hrlt : Day25.rank source pt prev < Day25.rank source pt cur :=
        day25_chained_rank_lt source pt hnd hch hsrc cur prev hl
      obtain ⟨w, hw⟩ := ih prev (day25_chained_val source pt hch cur prev hl)
        (by omega)
      refine ⟨cur :: w, ?_⟩
      dsimp only
      rw [hw]
      rfl

/-! ### Day 25: the breadth-first search of `edmonds_karp` -/

theorem day25_chained_append (source : String) (pt : List (String × String))
    (x : String × String) (hch : Day25.Chained source pt)
    (hx : x.2 = source ∨ x.2 ∈ pt.map Prod.fst) :
    Day25.Chained source (pt ++ [x]) := by
  intro i h
  rw [List.length_append, List.length_singleton] at h
  by_cases hi : i < pt.length
  · have hget : (pt ++ [x]).get ⟨i, by rw [List.length_append]; omega⟩ =
        pt.get ⟨i, hi⟩ := List.get_append i hi
    rw [hget]
    rcases hch i hi with hv | hv
    · exact Or.inl hv
    · refine Or.inr ?_
      rw [List.take_append_of_le_length (by omega)]
      exact hv
  · have hieq : i = pt.length := by omega
    subst hieq
    have h2 : pt.length < (pt ++ [x]).length := by
      rw [List.length_append, List.length_singleton]
      omega
    have hget : (pt ++ [x]).get ⟨pt.length, h2⟩ = x := by
      rw [List.get_eq_getElem, List.getElem_append_right (le_refl pt.length)]
      simp
    rw [hget]
    rcases hx with hv | hv
    · exact Or.inl hv
    · refine Or.inr ?_
      rw [List.take_append_of_le_length (le_refl _), List.take_length]
      exact hv

theorem day25_bfsEdges_spec (g : Day25.Graph) (source sink u : String) (n : Day25.Node)
    (hn : Day25.lookupA u g = some n) (hndn : (n.map Prod.fst).Nodup) :
    ∀ (edges : Day25.Node) (pt : List (String × String)) (queue : List String)
      (found : Bool) (pt2 : List (String × String)) (q2 : List String),
      Day25.bfsEdges source sink u edges pt queue = (found, pt2, q2) →
      (∀ q ∈ edges, q ∈ n) →
      (pt.map Prod.fst).Nodup →
      source ∉ pt.map Prod.fst →
      sink ∉ pt.map Prod.fst →
      Day25.Chained source pt →
      (∀ e ∈ pt, Day25.resid g e.2 e.1 = true ∧ e.1 ≠ source) →
      (∀ x ∈ queue, x = source ∨ x ∈ pt.map Prod.fst) →
      (u = source ∨ u ∈ pt.map Prod.fst) →
      ((pt2.map Prod.fst).Nodup ∧
        source ∉ pt2.map Prod.fst ∧
        Day25.Chained source pt2 ∧
        (∀ e ∈ pt2, Day25.resid g e.2 e.1 = true ∧ e.1 ≠ source)) ∧
      (∀ x ∈ pt.map Prod.fst, x ∈ pt2.map Prod.fst) ∧
      (∀ x ∈ q2, x = source ∨ x ∈ pt2.map Prod.fst) ∧
      (∀ x ∈ queue, x ∈ q2) ∧
      (found = false →
        (∀ q ∈ edges, q.2.flow < q.2.capacity →
          q.1 = source ∨ q.1 ∈ pt2.map Prod.fst) ∧
        sink ∉ pt2.map Prod.fst ∧
        (∀ x ∈ pt2.map Prod.fst, x ∈ pt.map Prod.fst ∨ x ∈ q2) ∧
        q2.length + pt.length = queue.length + pt2.length) ∧
      (found = true → sink ∈ pt2.map Prod.fst) := by
  intro edges
  induction edges with
  | nil =>
    intro pt queue found pt2 q2 hres hq hnd hsrc hsink hch hrec hqok hu
    rw [Day25.bfsEdges] at hres
    injection hres with h1 h2
    injection h2 with h2 h3
    subst h1
    subst h2
    subst h3
    refine ⟨⟨hnd, hsrc, hch, hrec⟩, fun x hx => hx, hqok, fun x hx => hx, ?_, ?_⟩
    · intro _
      exact ⟨fun q hq' => absurd hq' (List.not_mem_nil q), hsink,
        fun x hx => Or.inl hx, by omega⟩
    · intro h
      exact absurd h (by simp)
  | cons q0 rest ih =>
    intro pt queue found pt2 q2 hres hq hnd hsrc hsink hch hrec hqok hu
    obtain ⟨en, e⟩ := q0
    rw [Day25.bfsEdges] at hres
    by_cases hcond : en ≠ source ∧ e.flow < e.capacity ∧ (Day25.lookupA en pt).isNone
    · rw [if_pos hcond] at hres
      have hfresh : en ∉ pt.map Prod.fst := by
        intro hm
        have := (day25_lookupA_isSome en pt).mpr hm
        rw [Option.isNone_iff_eq_none.mp hcond.2.2] at this
        exact absurd this (by simp)
      have hresid : Day25.resid g u en = true := by
        have hl : Day25.lookupA en n = some e :=
          day25_mem_lookupA en e n hndn (hq (en, e) (List.mem_cons_self _ _))
        rw [Day25.resid]
        rw [show Day25.edgeOf g u en = some e from by
          rw [Day25.edgeOf, hn]; simpa using hl]
        exact decide_eq_true hcond.2.1
      have hkeys : (pt ++ [(en, u)]).map Prod.fst = pt.map Prod.fst ++ [en] := by
        simp
      have hnd2 : ((pt ++ [(en, u)]).map Prod.fst).Nodup := by
        rw [hkeys]
        simp [List.nodup_append, hnd, hfresh]
      have hsrc2 : source ∉ (pt ++ [(en, u)]).map Prod.fst := by
        rw [hkeys]
        simp only [List.mem_append, List.mem_singleton]
        rintro (h | h)
        · exact hsrc h
        · exact hcond.1 h.symm
      have hch2 : Day25.Chained source (pt ++ [(en, u)]) :=
        day25_chained_append source pt (en, u) hch hu
      have hrec2 : ∀ e2 ∈ pt ++ [(en, u)],
          Day25.resid g e2.2 e2.1 = true ∧ e2.1 ≠ source := by
        intro e2 he2
        rcases List.mem_append.mp he2 with he2 | he2
        · exact hrec e2 he2
        · rw [List.mem_singleton.mp he2]
          exact ⟨hresid, hcond.1⟩
      have hmono1 : ∀ x ∈ pt.map Prod.fst, x ∈ (pt ++ [(en, u)]).map Prod.fst := by
        intro x hx
        rw [hkeys]
        exact List.mem_append_left _ hx
      have henk : en ∈ (pt ++ [(en, u)]).map Prod.fst := by
        rw [hkeys]
        exact List.mem_append_right _ (List.mem_singleton.mpr rfl)
      have hksplit : ∀ x ∈ (pt ++ [(en, u)]).map Prod.fst,
          x ∈ pt.map Prod.fst ∨ x = en := by
        intro x hx
        rw [hkeys] at hx
        rcases List.mem_append.mp hx with hx | hx
        · exact Or.inl hx
        · exact Or.inr (List.mem_singleton.mp hx)
      by_cases hsk : en = sink
      · rw [if_pos hsk] at hres
        injection hres with h1 h2
        injection h2 with h2 h3
        subst h1
        subst h2
        subst h3
        refine ⟨⟨hnd2, hsrc2, hch2, hrec2⟩, hmono1, ?_, fun x hx => hx, ?_, ?_⟩
        · intro x hx
          rcases hqok x hx with h | h
          · exact Or.inl h
          · exact Or.inr (hmono1 x h)
        · intro h
          exact absurd h (by simp)
        · intro _
          rw [← hsk]
          exact henk
      · rw [if_neg hsk] at hres
        have hsink2 : sink ∉ (pt ++ [(en, u)]).map Prod.fst := by
          rw [hkeys]
          simp only [List.mem_append, List.mem_singleton]
          rintro (h | h)
          · exact hsink h
          · exact hsk h.symm
        have hqok2 : ∀ x ∈ queue ++ [en],
            x = source ∨ x ∈ (pt ++ [(en, u)]).map Prod.fst := by
          intro x hx
          rcases List.mem_append.mp hx with hx | hx
          · rcases hqok x hx with h | h
            · exact Or.inl h
            · exact Or.inr (hmono1 x h)
          · rw [List.mem_singleton.mp hx]
            exact Or.inr henk
        have hu2 : u = source ∨ u ∈ (pt ++ [(en, u)]).map Prod.fst := by
          rcases hu with h | h
          · exact Or.inl h
          · exact Or.inr (hmono1 u h)
        obtain ⟨hinv, hmono, hqk, hqmono, hfalse, htrue⟩ :=
          ih _ _ found pt2 q2 hres
            (fun q hq' => hq q (List.mem_cons_of_mem _ hq'))
            hnd2 hsrc2 hsink2 hch2 hrec2 hqok2 hu2
        have hqmono' : ∀ x ∈ queue, x ∈ q2 :=
          fun x hx => hqmono x (List.mem_append_left _ hx)
        refine ⟨hinv, fun x hx => hmono x (hmono1 x hx), hqk, hqmono', ?_, htrue⟩
        intro hf
        obtain ⟨hscan, hsk2, hnew, hlen⟩ := hfalse hf
        refine ⟨?_, hsk2, ?_, ?_⟩
        · intro q hq' hflow
          rcases List.mem_cons.mp hq' with hq' | hq'
          · subst hq'
            exact Or.inr (hmono en henk)
          · exact hscan q hq' hflow
        · intro x hx
          rcases hnew x hx with hx2 | hx2
          · rcases hksplit x hx2 with hx3 | hx3
            · exact Or.inl hx3
            · subst hx3
              exact Or.inr (hqmono x (List.mem_append_right _
                (List.mem_singleton.mpr rfl)))
          · exact Or.inr hx2
        · rw [List.length_append, List.length_append, List.length_singleton,
            List.length_singleton] at hlen
          omega
    · rw [if_neg hcond] at hres
      obtain ⟨hinv, hmono, hqk, hqmono, hfalse, htrue⟩ :=
        ih _ _ found pt2 q2 hres
          (fun q hq' => hq q (List.mem_cons_of_mem _ hq'))
          hnd hsrc hsink hch hrec hqok hu
      refine ⟨hinv, hmono, hqk, hqmono, ?_, htrue⟩
      intro hf
      obtain ⟨hscan, hsk2, hnew, hlen⟩ := hfalse hf
      refine ⟨?_, hsk2, hnew, hlen⟩
      intro q hq' hflow
      rcases List.mem_cons.mp hq' with hq' | hq'
      · subst hq'
        dsimp only at hflow
        push_neg at hcond
        by_cases h1 : en = source
        · exact Or.inl h1
        · have h3 := hcond h1 hflow
          have h4 : en ∈ pt.map Prod.fst := by
            rw [← day25_lookupA_isSome en pt]
            cases ho : Day25.lookupA en pt
            · exact absurd (by rw [ho]; rfl) h3
            · rfl
          exact Or.inr (hmono en h4)
      · exact hscan q hq' hflow

theorem day25_resid_entry (g : Day25.Graph) (u v : String) (n : Day25.Node)
    (hlu : Day25.lookupA u g = some n) (hv : Day25.resid g u v = true) :
    ∃ e, (v, e) ∈ n ∧ e.flow < e.capacity := by
  rw [Day25.resid] at hv
  cases hev : Day25.edgeOf g u v with
  | none => rw [hev] at hv; exact absurd hv (by simp)
  | some e =>
    rw [hev] at hv
    have hl : Day25.lookupA v n = some e := by
      rw [Day25.edgeOf, hlu] at hev
      simpa using hev
    exact ⟨e, day25_lookupA_eq_some_mem v e n hl, of_decide_eq_true hv⟩

theorem day25_resid_none (g : Day25.Graph) (u v : String)
    (hlu : Day25.lookupA u g = none) : Day25.resid g u v = false := by
  rw [Day25.resid, show Day25.edgeOf g u v = none from by rw [Day25.edgeOf, hlu]; rfl]

theorem day25_bfsLoop_sound (g : Day25.Graph) (source sink : String)
    (hgnd : ∀ p ∈ g, (p.2.map Prod.fst).Nodup) :
    ∀ (fuel : Nat) (queue : List String) (pt : List (String × String))
      (found : Bool) (pt2 : List (String × String)),
      Day25.bfsLoop g source sink fuel queue pt = some (found, pt2) →
      (pt.map Prod.fst).Nodup →
      source ∉ pt.map Prod.fst →
      sink ∉ pt.map Prod.fst →
      Day25.Chained source pt →
      (∀ e ∈ pt, Day25.resid g e.2 e.1 = true ∧ e.1 ≠ source) →
      (∀ x ∈ queue, x = source ∨ x ∈ pt.map Prod.fst) →
      (∀ x, (x = source ∨ x ∈ pt.map Prod.fst) → x ∈ queue ∨
        (∀ v, Day25.resid g x v = true → v = source ∨ v ∈ pt.map Prod.fst)) →
      ((pt2.map Prod.fst).Nodup ∧ source ∉ pt2.map Prod.fst ∧
        Day25.Chained source pt2 ∧
        (∀ e ∈ pt2, Day25.resid g e.2 e.1 = true ∧ e.1 ≠ source)) ∧
      (found = false → sink ∉ pt2.map Prod.fst ∧
        ∀ x, (x = source ∨ x ∈ pt2.map Prod.fst) →
          ∀ v, Day25.resid g x v = true → v = source ∨ v ∈ pt2.map Prod.fst) ∧
      (found = true → sink ∈ pt2.map Prod.fst) := by
  intro fuel
  induction fuel with
  | zero =>
    intro queue pt found pt2 hres
    exact absurd hres (by rw [Day25.bfsLoop]; simp)
  | succ f ih =>
    intro queue pt found pt2 hres hnd hsrc hsink hch hrec hqok hcov
    cases queue with
    | nil =>
      rw [Day25.bfsLoop] at hres
      injection hres with hres
      injection hres with h1 h2
      subst h2
      refine ⟨⟨hnd, hsrc, hch, hrec⟩, ?_, ?_⟩
      · intro _
        refine ⟨hsink, ?_⟩
        intro x hx v hv
        rcases hcov x hx with hq | hok
        · exact absurd hq (List.not_mem_nil x)
        · exact hok v hv
      · intro htr
        rw [← h1] at htr
        exact absurd htr (by simp)
    | cons u rest =>
      rw [Day25.bfsLoop] at hres
      rcases hr : Day25.bfsEdges source sink u ((Day25.lookupA u g).getD []) pt rest
        with ⟨bf, bpt, bq⟩
      rw [hr] at hres
      have hu : u = source ∨ u ∈ pt.map Prod.fst :=
        hqok u (List.mem_cons_self _ _)
      have hqokr : ∀ x ∈ rest, x = source ∨ x ∈ pt.map Prod.fst :=
        fun x hx => hqok x (List.mem_cons_of_mem _ hx)
      cases hlu : Day25.lookupA u g with
      | none =>
        rw [hlu] at hr
        rw [show (Option.getD (none : Option Day25.Node) []) = [] from rfl,
          Day25.bfsEdges] at hr
        injection hr with h1 h2
        injection h2 with h2 h3
        subst h1
        subst h2
        subst h3
        refine ih rest pt found pt2 hres hnd hsrc hsink hch hrec hqokr ?_
        intro x hx
        rcases hcov x hx with hq | hok
        · rcases List.mem_cons.mp hq with hq | hq
          · refine Or.inr ?_
            intro v hv
            rw [hq, day25_resid_none g u v hlu] at hv
            exact absurd hv (by simp)
          · exact Or.inl hq
        · exact Or.inr hok
      | some n =>
        have hngd : (n.map Prod.fst).Nodup :=
          hgnd (u, n) (day25_lookupA_eq_some_mem u n g hlu)
        rw [hlu] at hr
        rw [show (Option.getD (some n) []) = n from rfl] at hr
        obtain ⟨hinv, hmono, hqk, hqmono, hfalse, htrue⟩ :=
          day25_bfsEdges_spec g source sink u n hlu hngd n pt rest bf bpt bq hr
            (fun q hq => hq) hnd hsrc hsink hch hrec hqokr hu
        cases bf with
        | true =>
          injection hres with hres
          injection hres with h1 h2
          subst h1
          subst h2
          exact ⟨hinv, fun hff => absurd hff (by simp), fun _ => htrue rfl⟩
        | false =>
          obtain ⟨hscan, hsk2, hnew, _⟩ := hfalse rfl
          have hpoku : ∀ v, Day25.resid g u v = true →
              v = source ∨ v ∈ bpt.map Prod.fst := by
            intro v hv
            obtain ⟨e, hmem, hfl⟩ := day25_resid_entry g u v n hlu hv
            exact hscan (v, e) hmem hfl
          refine ih bq bpt found pt2 hres hinv.1 hinv.2.1 hsk2 hinv.2.2.1
            hinv.2.2.2 hqk ?_
          intro x hx
          have hold : x = source ∨ x ∈ pt.map Prod.fst → x ∈ bq ∨
              (∀ v, Day25.resid g x v = true →
                v = source ∨ v ∈ bpt.map Prod.fst) := by
            intro hx2
            rcases hcov x hx2 with hq | hok
            · rcases List.mem_cons.mp hq with hq | hq
              · subst hq
                exact Or.inr hpoku
              · exact Or.inl (hqmono x hq)
            · refine Or.inr ?_
              intro v hv
              rcases hok v hv with h | h
              · exact Or.inl h
              · exact Or.inr (hmono v h)
          rcases hx with hx | hx
          · exact hold (Or.inl hx)
          · rcases hnew x hx with hx2 | hx2
            · exact hold (Or.inr hx2)
            · exact Or.inl hx2

theorem day25_nodup_subset_length (l m : List String) (hnd : l.Nodup)
    (hsub : ∀ x ∈ l, x ∈ m) : l.length ≤ m.length := by
  calc l.length = l.toFinset.card := (List.toFinset_card_of_nodup hnd).symm
  _ ≤ m.toFinset.card := Finset.card_le_card (fun x hx =>
      List.mem_toFinset.mpr (hsub x (List.mem_toFinset.mp hx)))
  _ ≤ m.length := List.toFinset_card_le m

theorem day25_bfsLoop_some (g : Day25.Graph) (source sink : String)
    (hgnd : ∀ p ∈ g, (p.2.map Prod.fst).Nodup)
    (hclose : ∀ u v, Day25.resid g u v = true → v ∈ Day25.nodeNames g) :
    ∀ (fuel : Nat) (queue : List String) (pt : List (String × String)),
      (pt.map Prod.fst).Nodup →
      source ∉ pt.map Prod.fst →
      sink ∉ pt.map Prod.fst →
      Day25.Chained source pt →
      (∀ e ∈ pt, Day25.resid g e.2 e.1 = true ∧ e.1 ≠ source) →
      (∀ x ∈ queue, x = source ∨ x ∈ pt.map Prod.fst) →
      queue.length + ((Day25.nodeNames g).length - (pt.map Prod.fst).length) < fuel →
      ∃ r, Day25.bfsLoop g source sink fuel queue pt = some r := by
  intro fuel
  induction fuel with
  | zero =>
    intro queue pt _ _ _ _ _ _ hm
    exact absurd hm (Nat.not_lt_zero _)
  | succ f ih =>
    intro queue pt hnd hsrc hsink hch hrec hqok hm
    cases queue with
    | nil => exact ⟨(false, pt), by rw [Day25.bfsLoop]⟩
    | cons u rest =>
      rw [Day25.bfsLoop]
      have hu : u = source ∨ u ∈ pt.map Prod.fst :=
        hqok u (List.mem_cons_self _ _)
      have hqokr : ∀ x ∈ rest, x = source ∨ x ∈ pt.map Prod.fst :=
        fun x hx => hqok x (List.mem_cons_of_mem _ hx)
      cases hlu : Day25.lookupA u g with
      | none =>
        rw [show (Option.getD (none : Option Day25.Node) []) = [] from rfl,
          Day25.bfsEdges]
        obtain ⟨r, hrr⟩ := ih rest pt hnd hsrc hsink hch hrec hqokr (by
          rw [List.length_cons] at hm
          omega)
        exact ⟨r, hrr⟩
      | some n =>
        have hngd : (n.map Prod.fst).Nodup :=
          hgnd (u, n) (day25_lookupA_eq_some_mem u n g hlu)
        rw [show (Option.getD (some n) []) = n from rfl]
        rcases hr : Day25.bfsEdges source sink u n pt rest with ⟨bf, bpt, bq⟩
        obtain ⟨hinv, hmono, hqk, hqmono, hfalse, htrue⟩ :=
          day25_bfsEdges_spec g source sink u n hlu hngd n pt rest bf bpt bq hr
            (fun q hq => hq) hnd hsrc hsink hch hrec hqokr hu
        cases bf with
        | true => exact ⟨(true, bpt), rfl⟩
        | false =>
          obtain ⟨_, hsk2, _, hlen⟩ := hfalse rfl
          have hkeysub : ∀ x ∈ bpt.map Prod.fst, x ∈ Day25.nodeNames g := by
            intro x hx
            obtain ⟨e, he, hxe⟩ := List.mem_map.mp hx
            have := hinv.2.2.2 e he
            exact hxe ▸ hclose e.2 e.1 this.1
          have hble : (bpt.map Prod.fst).length ≤ (Day25.nodeNames g).length :=
            day25_nodup_subset_length _ _ hinv.1 hkeysub
          have hptle : (pt.map Prod.fst).length ≤ (bpt.map Prod.fst).length :=
            day25_nodup_subset_length _ _ hnd hmono
          obtain ⟨r, hrr⟩ := ih bq bpt hinv.1 hinv.2.1 hsk2 hinv.2.2.1 hinv.2.2.2
            hqk (by
              rw [List.length_cons] at hm
              rw [List.length_map] at hble hptle
              rw [List.length_map] at hm ⊢
              omega)
          exact ⟨r, hrr⟩

/-! ### Day 25: cut bounds for valid flows -/

theorem day25_skew_sum_zero (f : String → String → Int)
    (hskew : ∀ u v, f u v = - f v u) (D : Finset String) :
    ∑ u ∈ D, ∑ v ∈ D, f u v = 0 := by
  have hA : ∑ u ∈ D, ∑ v ∈ D, f u v = ∑ v ∈ D, ∑ u ∈ D, f u v := Finset.sum_comm
  have hB : ∑ v ∈ D, ∑ u ∈ D, f u v = - ∑ u ∈ D, ∑ v ∈ D, f u v := by
    calc ∑ v ∈ D, ∑ u ∈ D, f u v = ∑ v ∈ D, ∑ u ∈ D, -(f v u) :=
          Finset.sum_congr rfl (fun v _ => Finset.sum_congr rfl (fun u _ => hskew u v))
    _ = ∑ v ∈ D, -∑ u ∈ D, f v u :=
          Finset.sum_congr rfl (fun v _ => Finset.sum_neg_distrib)
    _ = - ∑ v ∈ D, ∑ u ∈ D, f v u := Finset.sum_neg_distrib
    _ = - ∑ u ∈ D, ∑ v ∈ D, f u v := rfl
  omega

theorem day25_cut_value (V D : Finset String) (f : String → String → Int) (s : String)
    (hD : D ⊆ V) (hs : s ∈ D)
    (hcons : ∀ u ∈ D, u ≠ s → ∑ v ∈ V, f u v = 0)
    (hskew : ∀ u v, f u v = - f v u) :
    ∑ v ∈ V, f s v = ∑ u ∈ D, ∑ v ∈ V \ D, f u v := by
  have h1 : ∑ u ∈ D, ∑ v ∈ V, f u v = ∑ v ∈ V, f s v :=
    Finset.sum_eq_single_of_mem s hs (fun u hu hne => hcons u hu hne)
  have h2 : ∀ u, ∑ v ∈ V, f u v = (∑ v ∈ V \ D, f u v) + ∑ v ∈ D, f u v :=
    fun u => (Finset.sum_sdiff hD).symm
  have h3 : ∑ u ∈ D, ∑ v ∈ V, f u v =
      (∑ u ∈ D, ∑ v ∈ V \ D, f u v) + ∑ u ∈ D, ∑ v ∈ D, f u v := by
    rw [← Finset.sum_add_distrib]
    exact Finset.sum_congr rfl (fun u _ => h2 u)
  rw [day25_skew_sum_zero f hskew D] at h3
  omega

theorem day25_cut_le (V D : Finset String) (f c : String → String → Int)
    (hfc : ∀ u v, f u v ≤ c u v) :
    ∑ u ∈ D, ∑ v ∈ V \ D, f u v ≤ ∑ u ∈ D, ∑ v ∈ V \ D, c u v :=
  Finset.sum_le_sum (fun u _ => Finset.sum_le_sum (fun v _ => hfc u v))

/-! ### Day 25: small walk helpers -/

theorem day25_resid_hasEdge (g : Day25.Graph) (u v : String)
    (h : Day25.resid g u v = true) : Day25.hasEdge g u v = true := by
  rw [Day25.resid] at h
  rw [Day25.hasEdge]
  cases he : Day25.edgeOf g u v
  · rw [he] at h
    exact absurd h (by simp)
  · rfl

theorem day25_resid_lt (g : Day25.Graph) (u v : String)
    (h : Day25.resid g u v = true) : Day25.fl g u v < Day25.cp g u v := by
  rw [Day25.resid] at h
  cases he : Day25.edgeOf g u v
  · rw [he] at h
    exact absurd h (by simp)
  · rw [he] at h
    rw [day25_fl_of_edge g u v _ he, day25_cp_of_edge g u v _ he]
    exact of_decide_eq_true h

theorem day25_not_resid (g : Day25.Graph) (u v : String)
    (h : Day25.resid g u v = false) (he : Day25.hasEdge g u v = true) :
    Day25.cp g u v ≤ Day25.fl g u v := by
  rw [Day25.resid] at h
  obtain ⟨e, hee⟩ := (day25_hasEdge_iff g u v).mp he
  rw [hee] at h
  rw [day25_fl_of_edge g u v _ hee, day25_cp_of_edge g u v _ hee]
  have := of_decide_eq_false h
  omega

theorem day25_mem_walk_cases (x : String) :
    ∀ (w : List String) (hne : w ≠ []), x ∈ w →
      x = w.getLast hne ∨ ∃ pr ∈ w.zip w.tail, pr.1 = x := by
  intro w
  induction w with
  | nil => intro hne; exact absurd rfl hne
  | cons a rest ih =>
    intro hne hx
    cases rest with
    | nil =>
      refine Or.inl ?_
      rw [List.getLast_singleton]
      exact List.mem_singleton.mp hx
    | cons b t =>
      rcases List.mem_cons.mp hx with hx | hx
      · refine Or.inr ⟨(a, b), ?_, hx.symm⟩
        rw [List.tail_cons, List.zip_cons_cons]
        exact List.mem_cons_self _ _
      · rcases ih (by simp) hx with h | ⟨pr, hpr, hpx⟩
        · refine Or.inl ?_
          rw [List.getLast_cons (by simp : b :: t ≠ [])]
          exact h
        · refine Or.inr ⟨pr, ?_, hpx⟩
          rw [List.tail_cons, List.zip_cons_cons]
          exact List.mem_cons_of_mem _ hpr

theorem day25_zip_last :
    ∀ (a b : String) (t : List String),
      ∃ pr ∈ (a :: b :: t).zip (a :: b :: t).tail,
        pr.2 = (a :: b :: t).getLast (by simp) := by
  intro a b t
  induction t generalizing a b with
  | nil =>
    refine ⟨(a, b), ?_, ?_⟩
    · rw [List.tail_cons, List.zip_cons_cons]
      exact List.mem_cons_self _ _
    · rw [List.getLast_cons (by simp : [b] ≠ [])]
      rfl
  | cons c t' ih =>
    obtain ⟨pr, hpr, hlast⟩ := ih b c
    refine ⟨pr, ?_, ?_⟩
    · rw [List.tail_cons, List.zip_cons_cons]
      exact List.mem_cons_of_mem _ (by
        rw [List.tail_cons] at hpr
        exact hpr)
    · rw [List.getLast_cons (by simp : b :: c :: t' ≠ [])]
      exact hlast

theorem day25_satcut_max (g0 gf : Day25.Graph) (s t : String) (f : Int)
    (hinv : Day25.EKInv g0 gf s t f) (hcut : Day25.SatCut g0 gf s t) :
    Day25.IsMaxFlowValue g0 s t f := by
  obtain ⟨D, hD, hs, ht, hsat⟩ := hcut
  have hvalid : Day25.ValidFlow g0 s t (Day25.flOf gf) := by
    refine ⟨hinv.skew, ?_, hinv.conserve⟩
    intro u v
    rw [← hinv.cp_eq u v]
    exact hinv.capb u v
  have hcuteq : ∀ u ∈ D, ∀ v ∈ Day25.V g0 \ D,
      Day25.fl gf u v = Day25.cp g0 u v := by
    intro u hu v hv
    have hres : Day25.resid gf u v = false := hsat u hu v (Finset.mem_sdiff.mp hv).2
    cases hedge : Day25.hasEdge gf u v with
    | false =>
      rw [day25_fl_of_no_edge gf u v hedge]
      have h0 : Day25.hasEdge g0 u v = false := by
        rw [← hinv.edge_eq u v]
        exact hedge
      rw [day25_cp_of_no_edge g0 u v h0]
    | true =>
      have h1 := day25_not_resid gf u v hres hedge
      have h2 := hinv.capb u v
      rw [← hinv.cp_eq u v]
      omega
  constructor
  · exact ⟨Day25.flOf gf, hvalid, hinv.val⟩
  · intro f2 hf2
    obtain ⟨hsk2, hcap2, hcons2⟩ := hf2
    have h1 : Day25.flowValue g0 s f2 = ∑ u ∈ D, ∑ v ∈ Day25.V g0 \ D, f2 u v :=
      day25_cut_value (Day25.V g0) D f2 s hD hs
        (fun u hu hne => hcons2 u (hD hu) hne (fun he => ht (he ▸ hu))) hsk2
    have h2 : Day25.flowValue g0 s (Day25.flOf gf) =
        ∑ u ∈ D, ∑ v ∈ Day25.V g0 \ D, Day25.fl gf u v :=
      day25_cut_value (Day25.V g0) D (Day25.flOf gf) s hD hs
        (fun u hu hne => hinv.conserve u (hD hu) hne (fun he => ht (he ▸ hu))) hinv.skew
    have h3 : ∑ u ∈ D, ∑ v ∈ Day25.V g0 \ D, f2 u v ≤
        ∑ u ∈ D, ∑ v ∈ Day25.V g0 \ D, Day25.cp g0 u v :=
      day25_cut_le (Day25.V g0) D f2 (Day25.cp g0) hcap2
    have h4 : ∑ u ∈ D, ∑ v ∈ Day25.V g0 \ D, Day25.fl gf u v =
        ∑ u ∈ D, ∑ v ∈ Day25.V g0 \ D, Day25.cp g0 u v :=
      Finset.sum_congr rfl (fun u hu =>
        Finset.sum_congr rfl (fun v hv => hcuteq u hu v hv))
    have h5 : Day25.flowValue g0 s (Day25.flOf gf) = f := hinv.val
    rw [Day25.flowValue] at h1 h2 h5 ⊢
    omega

theorem day25_ek_augment_inv (g0 : Day25.Graph) (s t : String) (hw : Day25.WfG g0)
    (hs : s ∈ Day25.nodeNames g0) (hts : t ≠ s)
    (g : Day25.Graph) (flow : Int) (hinv : Day25.EKInv g0 g s t flow)
    (pt2 : List (String × String))
    (hinvp : (pt2.map Prod.fst).Nodup ∧ s ∉ pt2.map Prod.fst ∧
      Day25.Chained s pt2 ∧
      (∀ e ∈ pt2, Day25.resid g e.2 e.1 = true ∧ e.1 ≠ s))
    (w : List String)
    (hp : Day25.pathNodes pt2 s (pt2.length + 1) t = some w) :
    Day25.minResidual g w Day25.i32Max = 1 ∧
    Day25.EKInv g0 (Day25.augmentPath g (Day25.minResidual g w Day25.i32Max) w) s t
      (flow + Day25.minResidual g w Day25.i32Max) := by
  obtain ⟨hheadq, hlastq, hwnd, hwpairs, _⟩ :=
    day25_pathNodes_sound s pt2 hinvp.1 hinvp.2.2.1 hinvp.2.1
      (pt2.length + 1) t w hp
  have hwne : w ≠ [] := by
    intro he
    rw [he] at hheadq
    exact absurd hheadq (by simp)
  have hpairsR : ∀ pr ∈ w.zip w.tail, Day25.resid g pr.2 pr.1 = true := by
    intro pr hpr
    exact (hinvp.2.2.2 (pr.1, pr.2)
      (day25_lookupA_eq_some_mem pr.1 pr.2 pt2 (hwpairs pr hpr))).1
  have hpairsHE : ∀ pr ∈ w.zip w.tail,
      Day25.hasEdge g pr.2 pr.1 = true ∧ Day25.hasEdge g pr.1 pr.2 = true := by
    intro pr hpr
    have h1 := day25_resid_hasEdge g pr.2 pr.1 (hpairsR pr hpr)
    refine ⟨h1, ?_⟩
    rw [hinv.edge_eq]
    rw [hinv.edge_eq] at h1
    exact (day25_wf_edge_mem g0 hw pr.2 pr.1 h1).2.2.1
  have hmemw : ∀ x ∈ w, x ∈ Day25.nodeNames g := by
    intro x hx
    rcases day25_mem_walk_cases x w hwne hx with h | ⟨pr, hpr, hpx⟩
    · have hgl : w.getLast hwne = s := by
        have := (List.getLast?_eq_getLast w hwne).symm.trans hlastq
        exact Option.some.inj this
      rw [h, hgl, hinv.names_eq]
      exact hs
    · have h1 := day25_resid_hasEdge g pr.2 pr.1 (hpairsR pr hpr)
      rw [hinv.edge_eq] at h1
      rw [← hpx, hinv.names_eq]
      exact (day25_wf_edge_mem g0 hw pr.2 pr.1 h1).2.1
  have hgl : w.getLast hwne = s := by
    have := (List.getLast?_eq_getLast w hwne).symm.trans hlastq
    exact Option.some.inj this
  have hhd : w.head hwne = t := by
    have := (List.head?_eq_head hwne).symm.trans hheadq
    exact Option.some.inj this
  obtain ⟨b, w2, hww⟩ : ∃ b w2, w = t :: b :: w2 := by
    cases w with
    | nil => exact absurd rfl hwne
    | cons a w1 =>
      have ha : a = t := by
        rw [List.head?_cons] at hheadq
        exact Option.some.inj hheadq
      subst ha
      cases w1 with
      | nil =>
        exfalso
        rw [List.getLast?_singleton] at hlastq
        exact hts (Option.some.inj hlastq)
      | cons b w2 => exact ⟨b, w2, rfl⟩
  subst hww
  have hadded : Day25.minResidual g (t :: b :: w2) Day25.i32Max = 1 := by
    refine le_antisymm ?_ ?_
    · obtain ⟨pr, hpr, hpr2⟩ := day25_zip_last t b w2
      have hle := day25_minResidual_le_pair g (t :: b :: w2) Day25.i32Max pr hpr
      have hpr2s : pr.2 = s := hpr2.trans hgl
      rw [hpr2s] at hle
      have hcple : Day25.cp g s pr.1 ≤ 1 := by
        rw [hinv.cp_eq]
        exact (day25_wf_cp_bounds g0 hw s pr.1).2
      have hfl0 := hinv.srcNonneg pr.1
      omega
    · refine day25_minResidual_ge g 1 (t :: b :: w2) Day25.i32Max ?_ (by
        rw [Day25.i32Max]
        omega)
      intro pr hpr
      have := day25_resid_lt g pr.2 pr.1 (hpairsR pr hpr)
      omega
  obtain ⟨sta, stb, stc, std⟩ :=
    day25_augmentPath_struct 1 (t :: b :: w2) g hmemw hpairsHE hwnd
  have hSw : ∀ x ∈ t :: b :: w2, x ∈ Day25.V g0 := by
    intro x hx
    rw [Day25.V, List.mem_toFinset, ← hinv.names_eq]
    exact hmemw x hx
  have hrowsum := day25_augmentPath_rowsum 1 (Day25.V g0) (t :: b :: w2) g hwne
    hmemw hSw hpairsHE hwnd
  have hinv2 : Day25.EKInv g0 (Day25.augmentPath g 1 (t :: b :: w2)) s t
      (flow + 1) := by
    refine ⟨sta.trans hinv.names_eq,
      fun u v => (stc u v).trans (hinv.edge_eq u v),
      fun u v => (stb u v).trans (hinv.cp_eq u v),
      std hinv.ndE,
      day25_augmentPath_skew 1 (t :: b :: w2) g hmemw hpairsHE hwnd hinv.skew,
      day25_augmentPath_capb 1 (t :: b :: w2) g hmemw
        (fun pr hpr => ⟨(hpairsHE pr hpr).1, (hpairsHE pr hpr).2, by
          have := day25_resid_lt g pr.2 pr.1 (hpairsR pr hpr)
          omega⟩)
        hwnd (by omega) hinv.capb,
      ?_, ?_, ?_⟩
    · intro u hu hus hut
      rw [hrowsum u, hgl, hhd, if_neg hus, if_neg hut,
        hinv.conserve u hu hus hut]
      ring
    · exact day25_augmentPath_src 1 s (t :: b :: w2) g hmemw hpairsHE
        (fun pr hpr => hgl ▸
          day25_zip_tail_fst_ne_getLast (t :: b :: w2) hwnd hwne pr hpr)
        hwnd (by omega) hinv.srcNonneg
    · rw [hrowsum s, hgl, hhd, if_pos rfl,
        if_neg (fun h => hts h.symm), hinv.val]
      ring
  rw [hadded]
  exact ⟨rfl, hinv2⟩

theorem day25_ekLoop_sound (g0 : Day25.Graph) (s t : String) (hw : Day25.WfG g0)
    (hs : s ∈ Day25.nodeNames g0) (hts : t ≠ s) (B : Nat) :
    ∀ (fuel : Nat) (g : Day25.Graph) (flow f : Int) (gf : Day25.Graph),
      Day25.ekLoop s t B fuel g flow = some (f, gf) →
      Day25.EKInv g0 g s t flow →
      0 ≤ flow → flow ≤ 3 →
      Day25.EKInv g0 gf s t f ∧ flow ≤ f ∧ f ≤ 4 ∧
        (f ≤ 3 → Day25.SatCut g0 gf s t) := by
  intro fuel
  induction fuel with
  | zero =>
    intro g flow f gf hres
    exact absurd hres (by rw [Day25.ekLoop]; simp)
  | succ fl ih =>
    intro g flow f gf hres hinv hf0 hf3
    rw [Day25.ekLoop] at hres
    simp only [Option.bind_eq_bind] at hres
    cases hb : Day25.bfsLoop g s t B [s] [] with
    | none => rw [hb] at hres; exact absurd hres (by simp)
    | some r =>
      rw [hb] at hres
      simp only [Option.some_bind] at hres
      obtain ⟨rb, pt2⟩ := r
      obtain ⟨hinvp, hfposts, hposttrue⟩ :=
        day25_bfsLoop_sound g s t hinv.ndE B [s] [] rb pt2 hb
          List.nodup_nil (by simp) (by simp)
          (fun i h => absurd h (by simp))
          (fun e he => absurd he (List.not_mem_nil e))
          (fun x hx => Or.inl (List.mem_singleton.mp hx))
          (fun x hx => Or.inl (by
            rcases hx with h | h
            · rw [h]; exact List.mem_singleton.mpr rfl
            · exact absurd h (by simp)))
      cases rb with
      | false =>
        dsimp only at hres
        injection hres with h1
        injection h1 with h1 h2
        subst h1
        subst h2
        obtain ⟨hsk2, hclosure⟩ := hfposts rfl
        refine ⟨hinv, le_refl _, by omega, fun _ => ?_⟩
        refine ⟨insert s (pt2.map Prod.fst).toFinset, ?_, Finset.mem_insert_self _ _,
          ?_, ?_⟩
        · intro x hx
          rcases Finset.mem_insert.mp hx with hx | hx
          · subst hx
            exact List.mem_toFinset.mpr hs
          · have hxk := List.mem_toFinset.mp hx
            obtain ⟨e, he, hxe⟩ := List.mem_map.mp hxk
            have hresid := (hinvp.2.2.2 e he).1
            have hhe : Day25.hasEdge g0 e.2 e.1 = true := by
              rw [← hinv.edge_eq]
              exact day25_resid_hasEdge g e.2 e.1 hresid
            exact List.mem_toFinset.mpr (hxe ▸ (day25_wf_edge_mem g0 hw e.2 e.1 hhe).2.1)
        · intro hmem
          rcases Finset.mem_insert.mp hmem with h | h
          · exact hts h
          · exact hsk2 (List.mem_toFinset.mp h)
        · intro u hu v hv
          cases hrv : Day25.resid g u v with
          | false => rfl
          | true =>
            exfalso
            have hud : u = s ∨ u ∈ pt2.map Prod.fst := by
              rcases Finset.mem_insert.mp hu with h | h
              · exact Or.inl h
              · exact Or.inr (List.mem_toFinset.mp h)
            rcases hclosure u hud v hrv with h | h
            · exact hv (h ▸ Finset.mem_insert_self _ _)
            · exact hv (Finset.mem_insert_of_mem (List.mem_toFinset.mpr h))
      | true =>
        dsimp only at hres
        cases hp : Day25.pathNodes pt2 s (pt2.length + 1) t with
        | none => rw [hp] at hres; exact absurd hres (by simp)
        | some w =>
          rw [hp] at hres
          simp only [Option.some_bind] at hres
          obtain ⟨hadded, hinv2⟩ :=
            day25_ek_augment_inv g0 s t hw hs hts g flow hinv pt2 hinvp w hp
          rw [hadded] at hres hinv2
          have hm3 : Day25.MIN_CUT = (3 : Int) := rfl
          by_cases hMC : Day25.MIN_CUT < flow + 1
          · rw [if_pos hMC] at hres
            injection hres with h1
            injection h1 with h1 h2
            subst h1
            subst h2
            rw [hm3] at hMC
            refine ⟨hinv2, by omega, by omega, ?_⟩
            intro hle
            exact absurd hle (by omega)
          · rw [if_neg hMC] at hres
            rw [hm3] at hMC
            obtain ⟨ha, hbnd, hc, hd⟩ := ih (Day25.augmentPath g 1 w)
              (flow + 1) f gf hres hinv2 (by omega) (by omega)
            exact ⟨ha, by omega, hc, hd⟩

theorem day25_ekLoop_some (g0 : Day25.Graph) (s t : String) (hw : Day25.WfG g0)
    (hs : s ∈ Day25.nodeNames g0) (hts : t ≠ s) (B : Nat)
    (hB : (Day25.nodeNames g0).length + 2 ≤ B) :
    ∀ (fuel : Nat) (g : Day25.Graph) (flow : Int),
      Day25.EKInv g0 g s t flow →
      0 ≤ flow → flow ≤ 3 →
      (4 - flow).toNat < fuel →
      ∃ r, Day25.ekLoop s t B fuel g flow = some r := by
  intro fuel
  induction fuel with
  | zero =>
    intro g flow _ _ _ hm
    exact absurd hm (Nat.not_lt_zero _)
  | succ fl ih =>
    intro g flow hinv hf0 hf3 hm
    rw [Day25.ekLoop]
    simp only [Option.bind_eq_bind]
    have hclose : ∀ u v, Day25.resid g u v = true → v ∈ Day25.nodeNames g := by
      intro u v hr
      have h1 := day25_resid_hasEdge g u v hr
      rw [hinv.edge_eq] at h1
      rw [hinv.names_eq]
      exact (day25_wf_edge_mem g0 hw u v h1).2.1
    obtain ⟨r0, hb⟩ := day25_bfsLoop_some g s t hinv.ndE hclose B [s] []
      List.nodup_nil (by simp) (by simp)
      (fun i h => absurd h (by simp))
      (fun e he => absurd he (List.not_mem_nil e))
      (fun x hx => Or.inl (List.mem_singleton.mp hx))
      (by
        rw [List.length_singleton, List.length_map, List.length_nil, Nat.sub_zero,
          hinv.names_eq]
        omega)
    rw [hb]
    simp only [Option.some_bind]
    obtain ⟨rb, pt2⟩ := r0
    obtain ⟨hinvp, hfposts, hposttrue⟩ :=
      day25_bfsLoop_sound g s t hinv.ndE B [s] [] rb pt2 hb
        List.nodup_nil (by simp) (by simp)
        (fun i h => absurd h (by simp))
        (fun e he => absurd he (List.not_mem_nil e))
        (fun x hx => Or.inl (List.mem_singleton.mp hx))
        (fun x hx => Or.inl (by
          rcases hx with h | h
          · rw [h]; exact List.mem_singleton.mpr rfl
          · exact absurd h (by simp)))
    cases rb with
    | false => exact ⟨(flow, g), rfl⟩
    | true =>
      dsimp only
      have htk : t ∈ pt2.map Prod.fst := hposttrue rfl
      have hrk : Day25.rank s pt2 t < pt2.length + 1 := by
        rw [Day25.rank]
        by_cases hts2 : t = s
        · rw [if_pos hts2]
          omega
        · rw [if_neg hts2]
          have := List.indexOf_lt_length.mpr htk
          rw [List.length_map] at this
          omega
      obtain ⟨w, hp⟩ := day25_pathNodes_some s pt2 hinvp.1 hinvp.2.2.1 hinvp.2.1
        (pt2.length + 1) t (Or.inr htk) hrk
      rw [hp]
      simp only [Option.some_bind]
      obtain ⟨hadded, hinv2⟩ :=
        day25_ek_augment_inv g0 s t hw hs hts g flow hinv pt2 hinvp w hp
      rw [hadded] at hinv2
      rw [hadded]
      have hm3 : Day25.MIN_CUT = (3 : Int) := rfl
      by_cases hMC : Day25.MIN_CUT < flow + 1
      · rw [if_pos hMC]
        exact ⟨(flow + 1, Day25.augmentPath g 1 w), rfl⟩
      · rw [if_neg hMC]
        rw [hm3] at hMC
        exact ih (Day25.augmentPath g 1 w) (flow + 1) hinv2 (by omega) (by omega)
          (by omega)

theorem day25_EKInv_init (g0 : Day25.Graph) (s t : String) (hw : Day25.WfG g0) :
    Day25.EKInv g0 g0 s t 0 := by
  refine ⟨rfl, fun u v => rfl, fun u v => rfl, hw.2.1, ?_, ?_, ?_, ?_, ?_⟩
  · intro u v
    rw [day25_wf_fl_zero g0 hw u v, day25_wf_fl_zero g0 hw v u]
    ring
  · intro u v
    rw [day25_wf_fl_zero g0 hw u v]
    exact (day25_wf_cp_bounds g0 hw u v).1
  · intro u _ _ _
    exact Finset.sum_eq_zero (fun v _ => day25_wf_fl_zero g0 hw u v)
  · intro v
    rw [day25_wf_fl_zero g0 hw s v]
  · exact Finset.sum_eq_zero (fun v _ => day25_wf_fl_zero g0 hw s v)

theorem day25_inv_validflow (g0 gf : Day25.Graph) (s t : String) (f : Int)
    (hinv : Day25.EKInv g0 gf s t f) :
    Day25.ValidFlow g0 s t (Day25.flOf gf) ∧
      Day25.flowValue g0 s (Day25.flOf gf) = f := by
  refine ⟨⟨hinv.skew, ?_, hinv.conserve⟩, hinv.val⟩
  intro u v
  rw [← hinv.cp_eq u v]
  exact hinv.capb u v

theorem day25_ek_flow_iff_max (g0 gf : Day25.Graph) (s t : String) (f : Int)
    (hinvf : Day25.EKInv g0 gf s t f) (h4 : f ≤ 4)
    (hsat : f ≤ 3 → Day25.SatCut g0 gf s t) :
    f = 3 ↔ Day25.IsMaxFlowValue g0 s t 3 := by
  constructor
  · intro h3
    have hmax := day25_satcut_max g0 gf s t f hinvf (hsat (by omega))
    rw [h3] at hmax
    exact hmax
  · intro hmax
    rcases (by omega : f ≤ 3 ∨ f = 4) with hle | h4eq
    · have hmaxf := day25_satcut_max g0 gf s t f hinvf (hsat hle)
      obtain ⟨⟨f3, hf3v, hf3val⟩, hub3⟩ := hmax
      obtain ⟨⟨ff, hffv, hffval⟩, hubf⟩ := hmaxf
      have h1 := hub3 ff hffv
      have h2 := hubf f3 hf3v
      omega
    · obtain ⟨hvf, hval⟩ := day25_inv_validflow g0 gf s t f hinvf
      have := hmax.2 (Day25.flOf gf) hvf
      omega

theorem day25_ek_spec (g0 : Day25.Graph) (s t : String) (hw : Day25.WfG g0)
    (hs : s ∈ Day25.nodeNames g0) (hts : t ≠ s) :
    ∃ f gf,
      Day25.edmonds_karp g0 s t 5 ((Day25.nodeNames g0).length + 2) = some (f, gf) ∧
      0 ≤ f ∧ f ≤ 4 ∧ Day25.EKInv g0 gf s t f ∧
      (f = 3 ↔ Day25.IsMaxFlowValue g0 s t 3) := by
  have hinit := day25_EKInv_init g0 s t hw
  obtain ⟨r, hr⟩ := day25_ekLoop_some g0 s t hw hs hts
    ((Day25.nodeNames g0).length + 2) (le_refl _) 5 g0 0 hinit
    (le_refl 0) (by omega) (by norm_num)
  obtain ⟨f, gf⟩ := r
  obtain ⟨hinvf, h0f, h4, hsat⟩ := day25_ekLoop_sound g0 s t hw hs hts
    ((Day25.nodeNames g0).length + 2) 5 g0 0 f gf hr hinit (le_refl 0) (by omega)
  exact ⟨f, gf, hr, h0f, h4, hinvf,
    day25_ek_flow_iff_max g0 gf s t f hinvf h4 hsat⟩

/-! ### Day 25: counting the partition by breadth-first search -/

theorem day25_dpsEdges_spec (g : Day25.Graph) (s u : String) (n : Day25.Node)
    (hn : Day25.lookupA u g = some n) (hndn : (n.map Prod.fst).Nodup)
    (hru : Day25.ReachResid g s u) :
    ∀ (edges : Day25.Node) (visited queue : List String) (size : Nat)
      (v2 q2 : List String) (s2 : Nat),
      Day25.dpsEdges edges visited queue size = (v2, q2, s2) →
      (∀ q ∈ edges, q ∈ n) →
      visited.Nodup →
      size = visited.length →
      (∀ x ∈ visited, Day25.ReachResid g s x) →
      v2.Nodup ∧ s2 = v2.length ∧
      (∀ x ∈ visited, x ∈ v2) ∧
      (∀ x ∈ v2, Day25.ReachResid g s x) ∧
      (∀ x ∈ queue, x ∈ q2) ∧
      (∀ x ∈ v2, x ∈ visited ∨ x ∈ q2) ∧
      (∀ x ∈ q2, x ∈ queue ∨ x ∈ v2) ∧
      (∀ q ∈ edges, q.2.flow < q.2.capacity → q.1 ∈ v2) := by
  intro edges
  induction edges with
  | nil =>
    intro visited queue size v2 q2 s2 hres _ hnd hsz hreach
    rw [Day25.dpsEdges] at hres
    injection hres with h1 h2
    injection h2 with h2 h3
    subst h1
    subst h2
    subst h3
    exact ⟨hnd, hsz, fun x hx => hx, hreach, fun x hx => hx,
      fun x hx => Or.inl hx, fun x hx => Or.inl hx,
      fun q hq => absurd hq (List.not_mem_nil q)⟩
  | cons q0 rest ih =>
    intro visited queue size v2 q2 s2 hres hq hnd hsz hreach
    obtain ⟨en, e⟩ := q0
    rw [Day25.dpsEdges] at hres
    by_cases hcond : e.flow < e.capacity ∧ ¬ visited.contains en
    · rw [if_pos hcond] at hres
      have hfresh : en ∉ visited := by
        intro hm
        exact hcond.2 (List.elem_iff.mpr hm)
      have hren : Day25.ReachResid g s en := by
        refine Relation.ReflTransGen.tail hru ?_
        have hl : Day25.lookupA en n = some e :=
          day25_mem_lookupA en e n hndn (hq (en, e) (List.mem_cons_self _ _))
        rw [Day25.resid]
        rw [show Day25.edgeOf g u en = some e from by
          rw [Day25.edgeOf, hn]; simpa using hl]
        exact decide_eq_true hcond.1
      obtain ⟨c1, c2, c3, c4, c5, c6, c7, c8⟩ :=
        ih (en :: visited) (queue ++ [en]) (size + 1) v2 q2 s2 hres
          (fun q hq' => hq q (List.mem_cons_of_mem _ hq'))
          (List.nodup_cons.mpr ⟨hfresh, hnd⟩)
          (by rw [List.length_cons]; omega)
          (fun x hx => by
            rcases List.mem_cons.mp hx with hx | hx
            · rw [hx]; exact hren
            · exact hreach x hx)
      refine ⟨c1, c2, fun x hx => c3 x (List.mem_cons_of_mem _ hx), c4,
        fun x hx => c5 x (List.mem_append_left _ hx), ?_, ?_, ?_⟩
      · intro x hx
        rcases c6 x hx with hx2 | hx2
        · rcases List.mem_cons.mp hx2 with hx3 | hx3
          · exact Or.inr (by
              rw [hx3]
              exact c5 en (List.mem_append_right _ (List.mem_singleton.mpr rfl)))
          · exact Or.inl hx3
        · exact Or.inr hx2
      · intro x hx
        rcases c7 x hx with hx2 | hx2
        · rcases List.mem_append.mp hx2 with hx3 | hx3
          · exact Or.inl hx3
          · exact Or.inr (by
              rw [List.mem_singleton.mp hx3]
              exact c3 en (List.mem_cons_self _ _))
        · exact Or.inr hx2
      · intro q hq' hfl
        rcases List.mem_cons.mp hq' with hq' | hq'
        · rw [hq']
          exact c3 en (List.mem_cons_self _ _)
        · exact c8 q hq' hfl
    · rw [if_neg hcond] at hres
      obtain ⟨c1, c2, c3, c4, c5, c6, c7, c8⟩ :=
        ih visited queue size v2 q2 s2 hres
          (fun q hq' => hq q (List.mem_cons_of_mem _ hq'))
          hnd hsz hreach
      refine ⟨c1, c2, c3, c4, c5, c6, c7, ?_⟩
      intro q hq' hfl
      rcases List.mem_cons.mp hq' with hq' | hq'
      · subst hq'
        dsimp only at hfl
        push_neg at hcond
        have hmem : en ∈ visited := by
          have h2 := hcond hfl
          exact List.elem_iff.mp h2
        exact c3 en hmem
      · exact c8 q hq' hfl

theorem day25_dpsLoop_sound (g : Day25.Graph) (s : String)
    (hgnd : ∀ p ∈ g, (p.2.map Prod.fst).Nodup) :
    ∀ (fuel : Nat) (queue visited : List String) (size : Nat) (p : Nat),
      Day25.dpsLoop g fuel queue visited size = some p →
      visited.Nodup →
      size = visited.length →
      (∀ x ∈ visited, Day25.ReachResid g s x) →
      (∀ x ∈ queue, x ∈ visited) →
      (∀ x ∈ visited, x ∈ queue ∨ ∀ v, Day25.resid g x v = true → v ∈ visited) →
      ∃ vf : List String, p = vf.length ∧ vf.Nodup ∧
        (∀ x ∈ visited, x ∈ vf) ∧
        (∀ x ∈ vf, Day25.ReachResid g s x) ∧
        (∀ x ∈ vf, ∀ v, Day25.resid g x v = true → v ∈ vf) := by
  intro fuel
  induction fuel with
  | zero =>
    intro queue visited size p hres
    exact absurd hres (by rw [Day25.dpsLoop]; simp)
  | succ f ih =>
    intro queue visited size p hres hnd hsz hreach hqv hcov
    cases queue with
    | nil =>
      rw [Day25.dpsLoop] at hres
      injection hres with h1
      subst hsz
      refine ⟨visited, by rw [← h1], hnd, fun x hx => hx, hreach, ?_⟩
      intro x hx v hv
      rcases hcov x hx with hq | hok
      · exact absurd hq (List.not_mem_nil x)
      · exact hok v hv
    | cons u rest =>
      rw [Day25.dpsLoop] at hres
      rcases hr : Day25.dpsEdges ((Day25.lookupA u g).getD []) visited rest size
        with ⟨v2, q2, s2⟩
      rw [hr] at hres
      have hru : Day25.ReachResid g s u := hreach u (hqv u (List.mem_cons_self _ _))
      have hstep : v2.Nodup ∧ s2 = v2.length ∧
          (∀ x ∈ visited, x ∈ v2) ∧
          (∀ x ∈ v2, Day25.ReachResid g s x) ∧
          (∀ x ∈ rest, x ∈ q2) ∧
          (∀ x ∈ v2, x ∈ visited ∨ x ∈ q2) ∧
          (∀ x ∈ q2, x ∈ rest ∨ x ∈ v2) ∧
          (∀ v, Day25.resid g u v = true → v ∈ v2) := by
        cases hlu : Day25.lookupA u g with
        | none =>
          rw [hlu] at hr
          rw [show (Option.getD (none : Option Day25.Node) []) = [] from rfl,
            Day25.dpsEdges] at hr
          injection hr with h1 h2
          injection h2 with h2 h3
          subst h1
          subst h2
          subst h3
          refine ⟨hnd, hsz, fun x hx => hx, hreach, fun x hx => hx,
            fun x hx => Or.inl hx, fun x hx => Or.inl hx, ?_⟩
          intro v hv
          rw [day25_resid_none g u v hlu] at hv
          exact absurd hv (by simp)
        | some n =>
          rw [hlu] at hr
          rw [show (Option.getD (some n) []) = n from rfl] at hr
          have hndn : (n.map Prod.fst).Nodup :=
            hgnd (u, n) (day25_lookupA_eq_some_mem u n g hlu)
          obtain ⟨c1, c2, c3, c4, c5, c6, c7, c8⟩ :=
            day25_dpsEdges_spec g s u n hlu hndn hru n visited rest size v2 q2 s2 hr
              (fun q hq => hq) hnd hsz hreach
          refine ⟨c1, c2, c3, c4, c5, c6, c7, ?_⟩
          intro v hv
          obtain ⟨e, hmem, hfl⟩ := day25_resid_entry g u v n hlu hv
          exact c8 (v, e) hmem hfl
      obtain ⟨c1, c2, c3, c4, c5, c6, c7, c8⟩ := hstep
      have hqv2 : ∀ x ∈ q2, x ∈ v2 := by
        intro x hx
        rcases c7 x hx with hx2 | hx2
        · exact c3 x (hqv x (List.mem_cons_of_mem _ hx2))
        · exact hx2
      have hcov2 : ∀ x ∈ v2, x ∈ q2 ∨
          ∀ v, Day25.resid g x v = true → v ∈ v2 := by
        intro x hx
        rcases c6 x hx with hx2 | hx2
        · rcases hcov x hx2 with hq | hok
          · rcases List.mem_cons.mp hq with hq | hq
            · refine Or.inr ?_
              intro v hv
              rw [hq] at hv
              exact c8 v hv
            · exact Or.inl (c5 x hq)
          · refine Or.inr ?_
            intro v hv
            exact c3 v (hok v hv)
        · exact Or.inl hx2
      obtain ⟨vf, hp1, hp2, hp3, hp4, hp5⟩ :=
        ih q2 v2 s2 p hres c1 c2 c4 hqv2 hcov2
      exact ⟨vf, hp1, hp2, fun x hx => hp3 x (c3 x hx), hp4, hp5⟩

theorem day25_dps_sound (g : Day25.Graph) (s : String) (fuel : Nat) (p : Nat)
    (hgnd : ∀ p2 ∈ g, (p2.2.map Prod.fst).Nodup)
    (hres : Day25.determine_partition_size g s fuel = some p) :
    p = Set.ncard {v | Day25.ReachResid g s v} := by
  rw [Day25.determine_partition_size] at hres
  obtain ⟨vf, hp, hvnd, hvsub, hvreach, hvclose⟩ :=
    day25_dpsLoop_sound g s hgnd fuel [s] [s] 1 p hres
      (List.nodup_singleton s) (by rw [List.length_singleton])
      (fun x hx => by rw [List.mem_singleton.mp hx]; exact Relation.ReflTransGen.refl)
      (fun x hx => hx)
      (fun x hx => Or.inl hx)
  have hcomplete : ∀ v, Day25.ReachResid g s v → v ∈ vf := by
    intro v hv
    induction hv with
    | refl => exact hvsub s (List.mem_singleton.mpr rfl)
    | tail hab hbc ihv => exact hvclose _ ihv _ hbc
  have hset : {v | Day25.ReachResid g s v} = ↑vf.toFinset := by
    ext x
    simp only [Set.mem_setOf_eq, Finset.coe_sort_coe, List.coe_toFinset,
      Set.mem_setOf_eq]
    exact ⟨fun h => hcomplete x h, fun h => hvreach x h⟩
  rw [hset, Set.ncard_coe_Finset, List.toFinset_card_of_nodup hvnd, hp]

theorem day25_solveFrom_sound (g : Day25.Graph) (source : String)
    (ekF bfsF dpsF : Nat) :
    ∀ (sinks : List String) (N : Nat),
      Day25.solveFrom g source ekF bfsF dpsF sinks = some N →
      ∃ sink ∈ sinks, ∃ gf p,
        Day25.edmonds_karp g source sink ekF bfsF = some (3, gf) ∧
        Day25.determine_partition_size gf source dpsF = some p ∧
        N = p * (g.length - p) := by
  intro sinks
  induction sinks with
  | nil =>
    intro N hres
    exact absurd hres (by rw [Day25.solveFrom]; simp)
  | cons sink rest ih =>
    intro N hres
    rw [Day25.solveFrom] at hres
    simp only [Option.bind_eq_bind] at hres
    cases hek : Day25.edmonds_karp g source sink ekF bfsF with
    | none => rw [hek] at hres; exact absurd hres (by simp)
    | some r =>
      obtain ⟨r1, r2⟩ := r
      rw [hek] at hres
      simp only [Option.some_bind] at hres
      by_cases hc : r1 = Day25.MIN_CUT
      · rw [if_pos hc] at hres
        cases hdp : Day25.determine_partition_size r2 source dpsF with
        | none => rw [hdp] at hres; exact absurd hres (by simp)
        | some p =>
          rw [hdp] at hres
          simp only [Option.some_bind] at hres
          injection hres with hres
          have hm3 : Day25.MIN_CUT = (3 : Int) := rfl
          rw [hm3] at hc
          subst hc
          exact ⟨sink, List.mem_cons_self _ _, r2, p, hek, hdp, hres.symm⟩
      · rw [if_neg hc] at hres
        obtain ⟨sink2, hmem, gf, p, h1, h2, h3⟩ := ih N hres
        exact ⟨sink2, List.mem_cons_of_mem _ hmem, gf, p, h1, h2, h3⟩

/-- C3: day 25 solves min cut via max flow.  After building the graph,
`solve` fixes the first node as source; whenever it returns a value it
has found a sink among the other nodes for which the Edmonds-Karp run
returns flow 3 — which is then genuinely the maximum flow value between
source and sink in the unit-capacity network — and the returned value is
`p * (n - p)`, where `p` is exactly the number of nodes reachable from
the source through non-saturated edges of the saturated network, counted
by the `determine_partition_size` breadth-first search. -/
theorem c3_solve_min_cut_via_max_flow (input : List (String × List String))
    (ekF bfsF dpsF N : Nat)
    (hres : Day25.solve input ekF bfsF dpsF = some N) :
    ∃ source rest,
      Day25.nodeNames (Day25.graphNew input) = source :: rest ∧
      ∃ sink ∈ (Day25.nodeNames (Day25.graphNew input)).filter (· ≠ source),
        ∃ gf p,
          Day25.edmonds_karp (Day25.graphNew input) source sink ekF bfsF =
            some (3, gf) ∧
          Day25.IsMaxFlowValue (Day25.graphNew input) source sink 3 ∧
          Day25.determine_partition_size gf source dpsF = some p ∧
          p = Set.ncard {v | Day25.ReachResid gf source v} ∧
          N = p * ((Day25.graphNew input).length - p) := by
  rw [Day25.solve] at hres
  cases hnn : Day25.nodeNames (Day25.graphNew input) with
  | nil =>
    rw [hnn] at hres
    exact absurd hres (by simp)
  | cons source rest =>
    rw [hnn] at hres
    refine ⟨source, rest, rfl, ?_⟩
    obtain ⟨sink, hmem, gf, p, hek, hdp, hN⟩ :=
      day25_solveFrom_sound (Day25.graphNew input) source ekF bfsF dpsF _ N hres
    have hw := day25_graphNew_wf input
    have hs : source ∈ Day25.nodeNames (Day25.graphNew input) := by
      rw [hnn]
      exact List.mem_cons_self _ _
    have hts : sink ≠ source := by
      have := (List.mem_filter.mp hmem).2
      exact of_decide_eq_true this
    obtain ⟨hinvf, _, h4, hsat⟩ :=
      day25_ekLoop_sound (Day25.graphNew input) source sink hw hs hts bfsF ekF
        (Day25.graphNew input) 0 3 gf hek
        (day25_EKInv_init (Day25.graphNew input) source sink hw)
        (le_refl 0) (by omega)
    refine ⟨sink, hmem, gf, p, hek, ?_, hdp, ?_, hN⟩
    · exact (day25_ek_flow_iff_max (Day25.graphNew input) gf source sink 3
        hinvf h4 hsat).mp rfl
    · exact day25_dps_sound gf source dpsF p hinvf.ndE hdp

/-- Witness for C3 on the complete four-node graph `k4`: the solver
returns `some 3` and the decomposition holds. -/
theorem c3_solve_min_cut_via_max_flow_witness :
    Day25.solve Day25.k4 5 6 6 = some 3 ∧
    ∃ source rest,
      Day25.nodeNames (Day25.graphNew Day25.k4) = source :: rest ∧
      ∃ sink ∈ (Day25.nodeNames (Day25.graphNew Day25.k4)).filter (· ≠ source),
        ∃ gf p,
          Day25.edmonds_karp (Day25.graphNew Day25.k4) source sink 5 6 =
            some (3, gf) ∧
          Day25.IsMaxFlowValue (Day25.graphNew Day25.k4) source sink 3 ∧
          Day25.determine_partition_size gf source 6 = some p ∧
          p = Set.ncard {v | Day25.ReachResid gf source v} ∧
          3 = p * ((Day25.graphNew Day25.k4).length - p) :=
  ⟨rfl, c3_solve_min_cut_via_max_flow Day25.k4 5 6 6 3 rfl⟩

/-- C10: `edmonds_karp` always terminates (with the canonical fuel, five
augmentation rounds and a breadth-first-search budget of two more than
the node count), its flow never exceeds 4 — each augmenting path adds
exactly one unit because all capacities are 1 and no flow ever enters
the source — and the test `flow == 3` of `solve` holds exactly when the
maximum flow between the chosen source and sink is 3. -/
theorem c10_edmonds_karp_terminates (input : List (String × List String))
    (s t : String) (hs : s ∈ Day25.nodeNames (Day25.graphNew input))
    (hts : t ≠ s) :
    ∃ f gf,
      Day25.edmonds_karp (Day25.graphNew input) s t 5
          ((Day25.nodeNames (Day25.graphNew input)).length + 2) = some (f, gf) ∧
      0 ≤ f ∧ f ≤ 4 ∧
      (f = 3 ↔ Day25.IsMaxFlowValue (Day25.graphNew input) s t 3) := by
  obtain ⟨f, gf, h1, h2, h3, _, h5⟩ :=
    day25_ek_spec (Day25.graphNew input) s t (day25_graphNew_wf input) hs hts
  exact ⟨f, gf, h1, h2, h3, h5⟩

/-- Witness for C10 on `k4`, with source `aa` and sink `bb`. -/
theorem c10_edmonds_karp_terminates_witness :
    ("aa" ∈ Day25.nodeNames (Day25.graphNew Day25.k4) ∧ "bb" ≠ "aa") ∧
    ∃ f gf,
      Day25.edmonds_karp (Day25.graphNew Day25.k4) "aa" "bb" 5
          ((Day25.nodeNames (Day25.graphNew Day25.k4)).length + 2) =
        some (f, gf) ∧
      0 ≤ f ∧ f ≤ 4 ∧
      (f = 3 ↔ Day25.IsMaxFlowValue (Day25.graphNew Day25.k4) "aa" "bb" 3) :=
  ⟨⟨by decide, by decide⟩,
    c10_edmonds_karp_terminates Day25.k4 "aa" "bb" (by decide) (by decide)⟩

/-- C8, counterexample: day 25's result is not independent of the
hash-map key iteration order (abstracted as the association-list order).
On the graph built from `bad`, the original iteration order scans sink
`xa` first (flow 3, source side `ss` plus the four-clique, product
5 * 3 = 15), while the reordering `badPerm` of the same graph scans sink
`ya` first (flow 3, source side `ss` plus the triangle, product
4 * 4 = 16): two orders of the same node map give different answers. -/
theorem c8_counterexample :
    (Day25.graphNew Day25.bad).Perm Day25.badPerm ∧
    Day25.solveG (Day25.graphNew Day25.bad) 6 12 12 = some 15 ∧
    Day25.solveG Day25.badPerm 6 12 12 = some 16 ∧
    Day25.solveG (Day25.graphNew Day25.bad) 6 12 12 ≠
      Day25.solveG Day25.badPerm 6 12 12 := by
  refine ⟨by decide, by decide, by decide, ?_⟩
  intro h
  exact absurd h (by decide)

/-- C8 (amended): each embedded solver is a pure function of its input,
and the hash maps the code iterates are deterministic per input, so two
runs on equal inputs produce equal outputs; but day 25's answer does
depend on the key iteration order in general (see the counterexample, a
graph on which two orders give 15 and 16).  On the complete four-node
graph the answer is order-robust: every permutation of the node list —
hence every choice of source node and every sink scan order — produces
the same answer 3. -/
theorem c8_solve_deterministic :
    ∀ g ∈ Day25.perms (Day25.graphNew Day25.k4),
      Day25.solveG g 5 6 6 = some 3 := by
  decide

/-- Witness for C8: the unpermuted graph itself. -/
theorem c8_solve_deterministic_witness :
    Day25.graphNew Day25.k4 ∈ Day25.perms (Day25.graphNew Day25.k4) ∧
      Day25.solveG (Day25.graphNew Day25.k4) 5 6 6 = some 3 :=
  ⟨by decide, c8_solve_deterministic (Day25.graphNew Day25.k4) (by decide)⟩

end AoC
